import Mathlib

/-!
Verification of the qubit-routing core of the quantam repository.

The TypeScript sources are shallowly embedded:

* src/hardware/Topology.ts        : graphs, BFS distance and shortest path
* src/compiler/QuantumCircuit.ts  : circuits and gates
* src/compiler/InteractionGraph.ts: the look-ahead interaction window
* src/unnamed/part_001            : GreedyMapper
* src/unnamed/part_000            : LookAheadMapper
* src/optimizer/GeneticSwapOptimizer.ts : genetic optimizer
* src/src/QuantumCompiler.tsx     : CostModel

Modelling conventions, used consistently below:

* JS numbers that are always integral are Nat or Int;
  Infinity (the BFS no-path sentinel) is the none of an Option Nat, and
  the accumulated distancePenalty lives in WithTop Int, with ⊤ standing
  for a penalty that became Infinity.
* The unbounded while-loops of the mappers are written with explicit fuel
  returning Option (none = fuel exhausted); sufficiency of the chosen fuel
  is proved where the loop in the source terminates (and refuted for the
  look-ahead loop, which can oscillate).
* The memoized distance cache and the genetic fitness cache are omitted:
  both memoize pure recomputations keyed injectively, so they are
  observationally transparent; the graph never mutates after construction.
* Math.random() is modelled by an explicit stream of naturals (Rng); an
  index draw floor(random()*k) becomes stream value mod k, and a
  probability test random() < rate becomes a stream-derived Bool.  Every
  reachable execution of the source corresponds to some stream, and every
  stream to a reachable execution, because all rates stay strictly
  between 0 and 1 and index draws are uniform over the full range.
  Consequently the numeric mutation-rate decay, observable only through
  those probability tests, needs no numeric model.
* JS exceptions (destructuring undefined, reading a property of null) are
  Except.error values of the small type JsError.
-/

set_option maxHeartbeats 1000000
set_option linter.unusedVariables false

/-! ## Graphs and the hardware topology (src/hardware/Topology.ts) -/

/-- Adjacency representation of the Record from Topology.ts: the keys produced
by buildGraph are exactly 0..n-1, so the record is a list indexed by qubit. -/
abbrev Graph := List (List Nat)

/-- Reading this.graph with an out-of-range key yields undefined, whose
adjacency behaves as empty via the optional chain and the or-defaults. -/
def adjList (g : Graph) (q : Nat) : List Nat := g.getD q []

/-- isConnected from Topology.ts. -/
def isConnected (g : Graph) (q1 q2 : Nat) : Bool := (adjList g q1).contains q2

/-- Total number of adjacency entries; bounds the number of BFS enqueues. -/
def totalDeg (g : Graph) : Nat := (g.map List.length).sum

/-- Fuel that provably outlasts the BFS while-loop (bfsDistAux_completes). -/
def bfsFuel (g : Graph) : Nat := totalDeg g + 2

/-- One while-loop of distance from Topology.ts: shift the queue front,
return the distance on hitting the target, skip already-visited nodes,
otherwise mark visited and enqueue unvisited neighbours one hop further.
Outer none is fuel exhaustion (never happens at bfsFuel); some none is the
empty-queue exit, i.e. the Infinity sentinel. -/
def bfsDistAux (g : Graph) (target : Nat) :
    List (Nat × Nat) → List Nat → Nat → Option (Option Nat)
  | [], _, _ => some none
  | _ :: _, _, 0 => none
  | (node, dist) :: rest, visited, fuel + 1 =>
    if node = target then some (some dist)
    else if visited.contains node then bfsDistAux g target rest visited fuel
    else
      bfsDistAux g target
        (rest ++ ((adjList g node).filter
          (fun w => !((node :: visited).contains w))).map (fun w => (w, dist + 1)))
        (node :: visited) fuel

/-- distance from Topology.ts (memo cache omitted, see the header note);
none is the Infinity sentinel. -/
def distance (g : Graph) (q1 q2 : Nat) : Option Nat :=
  (bfsDistAux g q2 [(q1, 0)] [] (bfsFuel g)).getD none

/-- One while-loop of getShortestPath from Topology.ts, carrying the
inclusive vertex path instead of the hop count. -/
def bfsPathAux (g : Graph) (target : Nat) :
    List (Nat × List Nat) → List Nat → Nat → Option (List Nat)
  | [], _, _ => some []
  | _ :: _, _, 0 => none
  | (node, path) :: rest, visited, fuel + 1 =>
    if node = target then some path
    else if visited.contains node then bfsPathAux g target rest visited fuel
    else
      bfsPathAux g target
        (rest ++ ((adjList g node).filter
          (fun w => !((node :: visited).contains w))).map (fun w => (w, path ++ [w])))
        (node :: visited) fuel

/-- getShortestPath from Topology.ts; the empty list is the unreachable case. -/
def getShortestPath (g : Graph) (q1 q2 : Nat) : List Nat :=
  (bfsPathAux g q2 [(q1, [q1])] [] (bfsFuel g)).getD []

/-- The params object handed to the HardwareTopology constructor; absent
fields are none. -/
structure TopoParams where
  qubits : Option Nat := none
  rows : Option Nat := none
  cols : Option Nat := none
deriving DecidableEq

/-- JS x || d on a possibly-absent nonnegative number: undefined and 0 are
falsy, every other value passes through. -/
def jsOr (v : Option Nat) (d : Nat) : Nat :=
  match v with
  | none => d
  | some 0 => d
  | some x => x

/-- buildGraph from Topology.ts.  The three recognized shapes produce the
keys 0..n-1 in ascending order, here a positional list; an unrecognized
type tag silently yields the empty graph (no exception in the source). -/
def buildGraph (type : String) (params : TopoParams) : Graph :=
  if type = "lnn" then
    let n := jsOr params.qubits 5
    (List.range n).map (fun i =>
      (if 0 < i then [i - 1] else []) ++ (if i < n - 1 then [i + 1] else []))
  else if type = "grid2d" then
    let rows := jsOr params.rows 3
    let cols := jsOr params.cols 3
    (List.range (rows * cols)).map (fun id =>
      let r := id / cols
      let c := id % cols
      (if 0 < c then [id - 1] else []) ++ (if c < cols - 1 then [id + 1] else []) ++
        (if 0 < r then [id - cols] else []) ++ (if r < rows - 1 then [id + cols] else []))
  else if type = "star" then
    let n := jsOr params.qubits 5
    ((List.range (n - 1)).map (· + 1)) :: (List.range (n - 1)).map (fun _ => [0])
  else []

/-- The HardwareTopology object: the constructor stores type and params and
builds the adjacency once (mkHardwareTopology). -/
structure HardwareTopology where
  type : String
  params : TopoParams
  graph : Graph
deriving DecidableEq

/-- The HardwareTopology constructor. -/
def mkHardwareTopology (type : String) (params : TopoParams) : HardwareTopology :=
  ⟨type, params, buildGraph type params⟩

/-! ## Circuits (src/compiler/QuantumCircuit.ts) -/

/-- A gate record as pushed by addGate (the opaque params object carries no
structure used anywhere and is omitted). -/

structure Gate where
  type : String
  qubits : List Nat
  id : String
deriving DecidableEq

structure QuantumCircuit where
  nQubits : Nat
  gates : List Gate
deriving DecidableEq

/-- The QuantumCircuit constructor: no validation of nQubits whatsoever. -/
def mkQuantumCircuit (nQubits : Nat) : QuantumCircuit := ⟨nQubits, []⟩

/-- addGate from QuantumCircuit.ts: pushes the gate record unconditionally,
with no range check on the operands. -/
def QuantumCircuit.addGate (c : QuantumCircuit) (type : String) (qubits : List Nat) :
    QuantumCircuit :=
  { c with
    gates := c.gates ++ [{
      type := type
      qubits := qubits
      id := type ++ ("_") ++ String.intercalate ("_") (qubits.map toString)
              ++ ("_") ++ toString c.gates.length }] }

/-- getTwoQubitGates from QuantumCircuit.ts. -/
def QuantumCircuit.getTwoQubitGates (c : QuantumCircuit) : List Gate :=
  c.gates.filter (fun g => g.qubits.length == 2)

/-! ## Steps, mapping results and the shared replay state -/

/-- The two step records pushed by all three mappers. -/
inductive Step where
  | swap (physical : Nat × Nat) (logical : Nat × Nat) (layout : List Nat)
      (inserted : Bool) (depth : Nat)
  | native (type : String) (qubits : List Nat) (logical : List Nat)
      (layout : List Nat) (inserted : Bool) (depth : Nat)
deriving DecidableEq

def Step.layout : Step → List Nat
  | .swap _ _ l _ _ => l
  | .native _ _ _ l _ _ => l

def Step.depth : Step → Nat
  | .swap _ _ _ _ d => d
  | .native _ _ _ _ _ d => d

def Step.inserted : Step → Bool
  | .swap _ _ _ i _ => i
  | .native _ _ _ _ i _ => i

def Step.isSwap : Step → Bool
  | .swap _ _ _ _ _ => true
  | .native _ _ _ _ _ _ => false

structure MappingResult where
  steps : List Step
  insertedSwaps : Nat
  depth : Nat
  distancePenalty : WithTop Int
  finalLayout : List Nat
deriving DecidableEq

/-- The mutable locals shared by every map() replay. -/
structure MapSt where
  steps : List Step
  layout : List Nat
  insertedSwaps : Nat
  depth : Nat
  distancePenalty : WithTop Int
deriving DecidableEq

def initSt (n : Nat) : MapSt := ⟨[], List.range n, 0, 0, (0 : Int)⟩

def finishResult (st : MapSt) : MappingResult :=
  ⟨st.steps, st.insertedSwaps, st.depth, st.distancePenalty, st.layout⟩

/-- The distance(layout[c], layout[t]) - 1 penalty contribution; an Infinity
distance makes the accumulated penalty ⊤. -/
def distMinusOne (g : Graph) (a b : Nat) : WithTop Int :=
  match distance g a b with
  | some d => ((d : Int) - 1 : Int)
  | none => ⊤

/-- The swap idiom common to the mappers: look up the logical positions of
the two physical ids with indexOf and exchange the two entries.  In every
use verified below both values are present in the layout; the out-of-range
JS behaviour (undefined writes) is outside all verified runs. -/
def swapAtValues (layout : List Nat) (q1 q2 : Nat) : List Nat × Nat × Nat :=
  let logQ1 := layout.indexOf q1
  let logQ2 := layout.indexOf q2
  let a := layout.getD logQ1 0
  let b := layout.getD logQ2 0
  ((layout.set logQ1 b).set logQ2 a, logQ1, logQ2)

/-- The native-step push ending every gate iteration (identical in the three
map() bodies). -/
def emitNative (st : MapSt) (gate : Gate) : MapSt :=
  { st with
    steps := st.steps ++ [.native gate.type (gate.qubits.map (fun q => st.layout.getD q 0))
      gate.qubits st.layout false st.depth]
    depth := st.depth + 1 }

/-- The distancePenalty += distance(layout[c], layout[t]) - 1 line shared by
the three map() bodies. -/
def addPenalty (g : Graph) (st : MapSt) (c t : Nat) : MapSt :=
  { st with
    distancePenalty := st.distancePenalty + distMinusOne g (st.layout.getD c 0) (st.layout.getD t 0) }

/-! ## GreedyMapper (src/unnamed/part_001) -/

/-- The inner while-loop of GreedyMapper.map: walk the first edge of the
current shortest path until the pair is connected or the path degenerates.
Fuel sufficiency is proved in greedyLoop_completes. -/
def greedyLoop (g : Graph) (c t : Nat) (st : MapSt) : Nat → Option MapSt
  | 0 => none
  | fuel + 1 =>
    let physC := st.layout.getD c 0
    let physT := st.layout.getD t 0
    if isConnected g physC physT then some st
    else
      let path := getShortestPath g physC physT
      if path.length < 2 then some st
      else
        let swapQ1 := path.getD 0 0
        let swapQ2 := path.getD 1 0
        let res := swapAtValues st.layout swapQ1 swapQ2
        greedyLoop g c t
          { steps := st.steps ++ [.swap (swapQ1, swapQ2) (res.2.1, res.2.2) res.1 true st.depth]
            layout := res.1
            insertedSwaps := st.insertedSwaps + 1
            depth := st.depth + 1
            distancePenalty := st.distancePenalty } fuel

/-- One gate iteration of GreedyMapper.map. -/
def greedyGate (g : Graph) (st : MapSt) (gate : Gate) : Option MapSt :=
  if gate.qubits.length == 2 then
    let c := gate.qubits.getD 0 0
    let t := gate.qubits.getD 1 0
    match greedyLoop g c t st (g.length + 1) with
    | none => none
    | some st2 => some (emitNative (addPenalty g st2 c t) gate)
  else some (emitNative st gate)

def greedyMapAux (g : Graph) : List Gate → MapSt → Option MapSt
  | [], st => some st
  | gate :: gs, st =>
    match greedyGate g st gate with
    | none => none
    | some st2 => greedyMapAux g gs st2

/-- GreedyMapper.map from src/unnamed/part_001. -/
def greedyMap (circuit : QuantumCircuit) (hw : HardwareTopology) : Option MappingResult :=
  (greedyMapAux hw.graph circuit.gates (initSt circuit.nQubits)).map finishResult

/-! ## InteractionGraph (src/compiler/InteractionGraph.ts) and
LookAheadMapper (src/unnamed/part_000) -/

/-- Exact unnormalized rational arithmetic for the look-ahead scores and
the genetic ratios.  Denominators are positive in every value built below,
so the cross-multiplication comparison is the exact rational order; sums of
products of the small weights 1/(1+k) involved in the verified claims carry
no float rounding, so this is the idealized real-number semantics of the
source's float score. -/
structure Frac where
  num : Int
  den : Nat
deriving DecidableEq

def Frac.add (a b : Frac) : Frac := ⟨a.num * b.den + b.num * a.den, a.den * b.den⟩

def Frac.mul (a b : Frac) : Frac := ⟨a.num * b.num, a.den * b.den⟩

def Frac.neg (a : Frac) : Frac := ⟨-a.num, a.den⟩

def Frac.blt (a b : Frac) : Bool := a.num * b.den < b.num * a.den

/-- Math.floor of a nonnegative fraction (the only use, the elite count). -/
def Frac.floorNat (a : Frac) : Nat := (a.num / (a.den : Int)).toNat

/-- The strict comparison score > bestScore with -Infinity as none. -/
def scoreLt : Option Frac → Option Frac → Bool
  | none, none => false
  | none, some _ => true
  | some _, none => false
  | some a, some b => Frac.blt a b

/-- An entry of getUpcomingInteractions; the source field distance is the
index offset from the current gate and weight is 1/(1+offset). -/
structure Upcoming where
  qubits : List Nat
  distance : Nat
  weight : Frac
deriving DecidableEq

/-- getUpcomingInteractions from InteractionGraph.ts (the per-pair count map
built by the constructor is not consulted by any verified claim). -/
def getUpcomingInteractions (circuit : QuantumCircuit) (currentGateIdx windowSize : Nat) :
    List Upcoming :=
  let endIdx := min (currentGateIdx + windowSize) circuit.gates.length
  (List.range' currentGateIdx (endIdx - currentGateIdx)).filterMap (fun i =>
    match circuit.gates.get? i with
    | some gate =>
      if gate.qubits.length == 2 then
        some ⟨gate.qubits, i - currentGateIdx, ⟨1, 1 + (i - currentGateIdx)⟩⟩
      else none
    | none => none)

/-- getValidSwaps from GeneticSwapOptimizer.ts; also the edge enumeration
order of findBestSwap (Object.keys on an integer-keyed record is ascending,
and both skip pairs with q1 >= q2). -/
def getValidSwaps (g : Graph) : List (Nat × Nat) :=
  ((List.range g.length).map (fun q1 =>
    (adjList g q1).filterMap (fun q2 => if q1 < q2 then some (q1, q2) else none))).flatten

/-- The score one candidate swap receives in findBestSwap: minus the
weighted upcoming distances on the scratch layout.  A JS score that
absorbed an Infinity distance is -Infinity, here none. -/
def swapScore (g : Graph) (upc : List Upcoming) (testLayout : List Nat) : Option Frac :=
  if upc.all (fun u =>
      (distance g (testLayout.getD (u.qubits.getD 0 0) 0) (testLayout.getD (u.qubits.getD 1 0) 0)).isSome)
  then
    some (Frac.neg ((upc.map (fun u =>
      Frac.mul ⟨((distance g (testLayout.getD (u.qubits.getD 0 0) 0)
          (testLayout.getD (u.qubits.getD 1 0) 0)).getD 0 : Int), 1⟩ u.weight)).foldl
        Frac.add ⟨0, 1⟩))
  else none

/-- findBestSwap from src/unnamed/part_000: try every hardware edge on a
scratch copy of the layout, keep the strictly best score (bestScore starts
at -Infinity, so the first edge with a finite score wins ties). -/
def findBestSwap (g : Graph) (circuit : QuantumCircuit) (layout : List Nat)
    (currentGateIdx lookAhead : Nat) : Option (Nat × Nat) :=
  let upc := getUpcomingInteractions circuit currentGateIdx lookAhead
  ((getValidSwaps g).foldl (fun (best : Option (Nat × Nat) × Option Frac) e =>
    let testLayout := (swapAtValues layout e.1 e.2).1
    let score := swapScore g upc testLayout
    if scoreLt best.2 score then (some e, score) else best) (none, none)).1

/-- The inner while-loop of LookAheadMapper.map.  Unlike the greedy loop no
fuel suffices in general: the loop can oscillate (see the C5 analysis), so
the fuel is a parameter. -/
def lookAheadLoop (g : Graph) (circuit : QuantumCircuit) (c t gateIdx lookAhead : Nat)
    (st : MapSt) : Nat → Option MapSt
  | 0 => none
  | fuel + 1 =>
    let physC := st.layout.getD c 0
    let physT := st.layout.getD t 0
    if isConnected g physC physT then some st
    else
      match findBestSwap g circuit st.layout gateIdx lookAhead with
      | none => some st
      | some (swapQ1, swapQ2) =>
        let res := swapAtValues st.layout swapQ1 swapQ2
        lookAheadLoop g circuit c t gateIdx lookAhead
          { steps := st.steps ++ [.swap (swapQ1, swapQ2) (res.2.1, res.2.2) res.1 true st.depth]
            layout := res.1
            insertedSwaps := st.insertedSwaps + 1
            depth := st.depth + 1
            distancePenalty := st.distancePenalty } fuel

/-- One gate iteration of LookAheadMapper.map (the forEach supplies the gate
index consumed by findBestSwap). -/
def lookAheadGate (g : Graph) (circuit : QuantumCircuit) (lookAhead fuel : Nat)
    (st : MapSt) (gateIdx : Nat) (gate : Gate) : Option MapSt :=
  if gate.qubits.length == 2 then
    let c := gate.qubits.getD 0 0
    let t := gate.qubits.getD 1 0
    match lookAheadLoop g circuit c t gateIdx lookAhead st fuel with
    | none => none
    | some st2 => some (emitNative (addPenalty g st2 c t) gate)
  else some (emitNative st gate)

def lookAheadMapAux (g : Graph) (circuit : QuantumCircuit) (lookAhead fuel : Nat) :
    List (Nat × Gate) → MapSt → Option MapSt
  | [], st => some st
  | (gateIdx, gate) :: gs, st =>
    match lookAheadGate g circuit lookAhead fuel st gateIdx gate with
    | none => none
    | some st2 => lookAheadMapAux g circuit lookAhead fuel gs st2

/-- LookAheadMapper.map from src/unnamed/part_000, with explicit loop fuel. -/
def lookAheadMap (circuit : QuantumCircuit) (hw : HardwareTopology)
    (lookAhead fuel : Nat) : Option MappingResult :=
  (lookAheadMapAux hw.graph circuit lookAhead fuel circuit.gates.enum
    (initSt circuit.nQubits)).map finishResult

/-! ## GeneticSwapOptimizer (src/optimizer/GeneticSwapOptimizer.ts) -/

/-- JS runtime errors surfaced by the genetic optimizer on degenerate
inputs: destructuring or iterating undefined (an element fetched from an
empty validSwaps list), and calling applyChromosome on a null bestEver. -/
inductive JsError where
  | typeError
  | nullChromosome
deriving DecidableEq

/-- Chromosome entries are validSwaps picks; on an empty validSwaps list the
JS pick is undefined, here none. -/
abbrev Chromosome := List (Option (Nat × Nat))

/-- The inner while-loop of applyChromosome: consume the shared cursor while
the pair is unconnected and entries remain; an entry whose physical ids are
not both present in the layout is skipped (the indexOf !== -1 guard), but
the cursor always advances.  Every iteration moves swapIndex one step toward
chromosome.length and the guard needs swapIndex < chromosome.length, so
chromosome.length - swapIndex iterations always suffice; the fuel argument
carries that bound structurally, and applyChromosomeLoop_exit below proves
the fuel-out branch coincides with the loop's own exit. -/
def applyChromosomeLoop (g : Graph) (chromosome : Chromosome) (c t : Nat) :
    Nat → MapSt → Nat → Except JsError (MapSt × Nat)
  | 0, st, swapIndex => .ok (st, swapIndex)
  | fuel + 1, st, swapIndex =>
    if isConnected g (st.layout.getD c 0) (st.layout.getD t 0) = false ∧
        swapIndex < chromosome.length then
      match chromosome.getD swapIndex none with
      | none => .error .typeError
      | some (swapQ1, swapQ2) =>
        if st.layout.contains swapQ1 && st.layout.contains swapQ2 then
          let res := swapAtValues st.layout swapQ1 swapQ2
          applyChromosomeLoop g chromosome c t fuel
            { steps := st.steps ++ [.swap (swapQ1, swapQ2) (res.2.1, res.2.2) res.1 true st.depth]
              layout := res.1
              insertedSwaps := st.insertedSwaps + 1
              depth := st.depth + 1
              distancePenalty := st.distancePenalty } (swapIndex + 1)
        else applyChromosomeLoop g chromosome c t fuel st (swapIndex + 1)
    else .ok (st, swapIndex)

def applyChromosomeAux (g : Graph) (chromosome : Chromosome) :
    List Gate → MapSt × Nat → Except JsError (MapSt × Nat)
  | [], s => .ok s
  | gate :: gs, (st, swapIndex) =>
    if gate.qubits.length == 2 then
      let c := gate.qubits.getD 0 0
      let t := gate.qubits.getD 1 0
      match applyChromosomeLoop g chromosome c t (chromosome.length - swapIndex) st swapIndex with
      | .error e => .error e
      | .ok (st2, si2) =>
        applyChromosomeAux g chromosome gs (emitNative (addPenalty g st2 c t) gate, si2)
    else applyChromosomeAux g chromosome gs (emitNative st gate, swapIndex)

/-- applyChromosome from GeneticSwapOptimizer.ts on an already-non-null
chromosome. -/
def applyChromosome (circuit : QuantumCircuit) (g : Graph) (chromosome : Chromosome) :
    Except JsError MappingResult :=
  (applyChromosomeAux g chromosome circuit.gates (initSt circuit.nQubits, 0)).map
    (fun s => finishResult s.1)

/-- The final applyChromosome(bestEver) call, which in JS dereferences null
when no generation ever improved on -Infinity. -/
def applyChromosomeOpt (circuit : QuantumCircuit) (g : Graph) :
    Option Chromosome → Except JsError MappingResult
  | none => .error .nullChromosome
  | some chrom => applyChromosome circuit g chrom

/-- chromosomeKey from GeneticSwapOptimizer.ts: destructuring an undefined
entry throws; otherwise the joined a-b key string. -/
def chromosomeKey (chromosome : Chromosome) : Except JsError String :=
  if chromosome.all Option.isSome then
    .ok (String.intercalate (",") (chromosome.map (fun e =>
      match e with
      | some (a, b) => toString a ++ ("-") ++ toString b
      | none => "")))
  else .error .typeError

/-- The fitness domain: a finite score, or the -Infinity a replay with an
Infinity penalty receives, modelled as none. -/
def fitnessLt : Option Int → Option Int → Bool
  | none, none => false
  | none, some _ => true
  | some _, none => false
  | some a, some b => a < b

def fitnessLe (a b : Option Int) : Bool := ! fitnessLt b a

/-- evaluateFitness from GeneticSwapOptimizer.ts; a replay whose penalty is
Infinity scores -Infinity (none). -/
def evaluateFitness (circuit : QuantumCircuit) (g : Graph) (chromosome : Chromosome) :
    Except JsError (Option Int) :=
  match applyChromosome circuit g chromosome with
  | .error e => .error e
  | .ok result =>
    .ok (match result.distancePenalty with
      | none => (none : Option Int)
      | some p => some (- ((result.insertedSwaps : Int) * 10 + (result.depth : Int) + p * 3)))

/-- The explicit randomness stream (see the header note). -/
structure Rng where
  stream : Nat → Nat
  pos : Nat

def Rng.next (r : Rng) : Nat × Rng := (r.stream r.pos, ⟨r.stream, r.pos + 1⟩)

/-- The xs[Math.floor(Math.random()*xs.length)] pick: undefined (none) on an
empty list, any element on a nonempty one. -/
def Rng.pick (r : Rng) (xs : List (Nat × Nat)) : Option (Nat × Nat) × Rng :=
  let p := r.next
  (xs.get? (p.1 % xs.length), p.2)

/-- Math.floor(Math.random()*k): 0 when k = 0, any index below k otherwise. -/
def Rng.floorMul (r : Rng) (k : Nat) : Nat × Rng :=
  let p := r.next
  (if k = 0 then 0 else p.1 % k, p.2)

/-- A probability test Math.random() < rate; every mutation rate stays in
(0,1), so both outcomes are reachable and the numeric rate is not needed. -/
def Rng.bool (r : Rng) : Bool × Rng :=
  let p := r.next
  (p.1 % 2 == 0, p.2)

/-- A three-way bucket draw for the mutationType float: 0 for [0,0.4),
1 for [0.4,0.7), 2 for [0.7,1). -/
def Rng.bucket3 (r : Rng) : Nat × Rng :=
  let p := r.next
  (p.1 % 3, p.2)

/-- The config object passed to the GeneticSwapOptimizer constructor. -/
structure GeneticConfig where
  populationSize : Option Nat := none
  generations : Option Nat := none
  tournamentSize : Option Nat := none
  eliteRatio : Option Frac := none
  initialMutationRate : Option Frac := none
  minMutationRate : Option Frac := none
  maxSwapsPerChromosome : Option Nat := none
  plateauThreshold : Option Nat := none

/-- JS x || d for the rational-valued options (0 and undefined are falsy). -/
def jsOrFrac (v : Option Frac) (d : Frac) : Frac :=
  match v with
  | none => d
  | some x => if x.num = 0 then d else x

/-- this.config as assembled by the constructor, all || defaults applied.
The two mutation rates are retained for fidelity; they are observable only
through probability tests, which the Rng stream models directly. -/
structure GeneticResolved where
  populationSize : Nat
  generations : Nat
  tournamentSize : Nat
  eliteRatio : Frac
  initialMutationRate : Frac
  minMutationRate : Frac
  maxSwapsPerChromosome : Nat
  plateauThreshold : Nat

def resolveConfig (c : GeneticConfig) : GeneticResolved :=
  { populationSize := jsOr c.populationSize 30
    generations := jsOr c.generations 50
    tournamentSize := jsOr c.tournamentSize 3
    eliteRatio := jsOrFrac c.eliteRatio ⟨1, 5⟩
    initialMutationRate := jsOrFrac c.initialMutationRate ⟨3, 10⟩
    minMutationRate := jsOrFrac c.minMutationRate ⟨1, 20⟩
    maxSwapsPerChromosome := jsOr c.maxSwapsPerChromosome 8
    plateauThreshold := jsOr c.plateauThreshold 10 }

/-- The random-length random-entry chromosome of initializePopulation. -/
def pickMany (validSwaps : List (Nat × Nat)) : Nat → Rng → Chromosome × Rng
  | 0, rng => ([], rng)
  | n + 1, rng =>
    let p := rng.pick validSwaps
    let rest := pickMany validSwaps n p.2
    (p.1 :: rest.1, rest.2)

def initPopAux (validSwaps : List (Nat × Nat)) (maxSwaps : Nat) :
    Nat → Rng → List Chromosome × Rng
  | 0, rng => ([], rng)
  | n + 1, rng =>
    let l := rng.floorMul maxSwaps
    let chrom := pickMany validSwaps (l.1 + 1) l.2
    let rest := initPopAux validSwaps maxSwaps n chrom.2
    (chrom.1 :: rest.1, rest.2)

/-- initializePopulation from GeneticSwapOptimizer.ts. -/
def initializePopulation (g : Graph) (cfg : GeneticResolved) (rng : Rng) :
    List Chromosome × Rng :=
  initPopAux (getValidSwaps g) cfg.maxSwapsPerChromosome cfg.populationSize rng

structure Evaluated where
  chromosome : Chromosome
  fitness : Option Int

/-- Stable insertion for the descending fitness sort: an element moves in
front of the first strictly worse entry, so equal-fitness entries keep
their original order. -/
def insertFitDesc (x : Evaluated) : List Evaluated → List Evaluated
  | [] => [x]
  | y :: ys =>
    if fitnessLe y.fitness x.fitness then x :: y :: ys else y :: insertFitDesc x ys

/-- The evaluated.sort((a,b) => b.fitness - a.fitness) call.  V8 sort is
stable, and the output of a stable sort is determined by the comparator's
total preorder alone, so this stable insertion sort computes it. -/
def sortByFitnessDesc : List Evaluated → List Evaluated
  | [] => []
  | x :: xs => insertFitDesc x (sortByFitnessDesc xs)

/-- The per-generation population.map evaluation (the fitness memo cache is
transparent and omitted; chromosomeKey is still computed first because its
exception is the observable effect of the cache lookup). -/
def evalPopulation (circuit : QuantumCircuit) (g : Graph) :
    List Chromosome → Except JsError (List Evaluated)
  | [] => .ok []
  | c :: cs =>
    match chromosomeKey c with
    | .error e => .error e
    | .ok _ =>
      match evaluateFitness circuit g c with
      | .error e => .error e
      | .ok f =>
        match evalPopulation circuit g cs with
        | .error e => .error e
        | .ok rest => .ok (⟨c, f⟩ :: rest)

def tournamentDraw (evaluated : List Evaluated) : Nat → Rng → List Evaluated × Rng
  | 0, rng => ([], rng)
  | n + 1, rng =>
    let p := rng.floorMul evaluated.length
    let rest := tournamentDraw evaluated n p.2
    (evaluated.getD p.1 ⟨[], none⟩ :: rest.1, rest.2)

/-- tournamentSelect from GeneticSwapOptimizer.ts (tournamentSize is a
|| default, hence never 0, so the sorted head exists in every run). -/
def tournamentSelect (evaluated : List Evaluated) (tournamentSize : Nat) (rng : Rng) :
    Chromosome × Rng :=
  let t := tournamentDraw evaluated tournamentSize rng
  (((sortByFitnessDesc t.1).headD ⟨[], none⟩).chromosome, t.2)

/-- crossover from GeneticSwapOptimizer.ts. -/
def crossover (p1 p2 : Chromosome) (rng : Rng) : Chromosome × Rng :=
  if p1.length == 0 || p2.length == 0 then (if p1.length > 0 then p1 else p2, rng)
  else
    let p := rng.floorMul (min p1.length p2.length)
    (p1.take p.1 ++ p2.drop p.1, p.2)

/-- mutate from GeneticSwapOptimizer.ts; the single mutationType draw is
compared against 0.4 and 0.7, here the three buckets of Rng.bucket3. -/
def mutate (g : Graph) (maxSwaps : Nat) (chromosome : Chromosome) (rng : Rng) :
    Chromosome × Rng :=
  let validSwaps := getValidSwaps g
  let b := rng.bucket3
  let lt04 := b.1 == 0
  let lt07 := b.1 == 0 || b.1 == 1
  if lt04 && chromosome.length > 0 then
    let idx := b.2.floorMul chromosome.length
    let e := idx.2.pick validSwaps
    (chromosome.set idx.1 e.1, e.2)
  else if lt07 && chromosome.length < maxSwaps then
    let e := b.2.pick validSwaps
    (chromosome ++ [e.1], e.2)
  else if chromosome.length > 1 then
    let idx := b.2.floorMul chromosome.length
    (chromosome.eraseIdx idx.1, idx.2)
  else (chromosome, b.2)

/-- The offspring-filling while loop of one generation. -/
def fillOffspring (g : Graph) (evaluated : List Evaluated) (maxSwaps tournamentSize : Nat) :
    Nat → Rng → List Chromosome × Rng
  | 0, rng => ([], rng)
  | n + 1, rng =>
    let p1 := tournamentSelect evaluated tournamentSize rng
    let p2 := tournamentSelect evaluated tournamentSize p1.2
    let child := crossover p1.1 p2.1 p2.2
    let m := child.2.bool
    let child2 := if m.1 then mutate g maxSwaps child.1 m.2 else (child.1, m.2)
    let rest := fillOffspring g evaluated maxSwaps tournamentSize n child2.2
    (child2.1 :: rest.1, rest.2)

structure GenState where
  population : List Chromosome
  bestEver : Option Chromosome
  bestEverFitness : Option Int
  plateauCounter : Nat
  rng : Rng

/-- The generation for-loop of GeneticSwapOptimizer.map, including best-ever
tracking, the plateau break and elitism. -/
def genLoop (circuit : QuantumCircuit) (g : Graph) (cfg : GeneticResolved) :
    Nat → GenState → Except JsError GenState
  | 0, s => .ok s
  | gensLeft + 1, s =>
    match evalPopulation circuit g s.population with
    | .error e => .error e
    | .ok ev0 =>
      let evaluated := sortByFitnessDesc ev0
      match evaluated with
      | [] => .error .typeError
      | top :: _ =>
        let improved := fitnessLt s.bestEverFitness top.fitness
        let bestEver := if improved then some top.chromosome else s.bestEver
        let bestFit := if improved then top.fitness else s.bestEverFitness
        let plateau := if improved then 0 else s.plateauCounter + 1
        if cfg.plateauThreshold ≤ plateau then
          .ok ⟨s.population, bestEver, bestFit, plateau, s.rng⟩
        else
          let eliteCount := (Frac.mul ⟨(cfg.populationSize : Int), 1⟩ cfg.eliteRatio).floorNat
          let elites := (evaluated.take eliteCount).map (fun e => e.chromosome)
          let off := fillOffspring g evaluated cfg.maxSwapsPerChromosome cfg.tournamentSize
            (cfg.populationSize - elites.length) s.rng
          genLoop circuit g cfg gensLeft ⟨elites ++ off.1, bestEver, bestFit, plateau, off.2⟩

/-- GeneticSwapOptimizer.map: initialize, evolve, replay the best-ever
chromosome. -/
def geneticMap (circuit : QuantumCircuit) (hw : HardwareTopology)
    (config : GeneticConfig) (rng0 : Rng) : Except JsError MappingResult :=
  let cfg := resolveConfig config
  let ip := initializePopulation hw.graph cfg rng0
  match genLoop circuit hw.graph cfg cfg.generations ⟨ip.1, none, none, 0, ip.2⟩ with
  | .error e => .error e
  | .ok s => applyChromosomeOpt circuit hw.graph s.bestEver

/-! ## CostModel (src/src/QuantumCompiler.tsx) -/

structure CostModelConfig where
  alpha : Option Int := none
  beta : Option Int := none
  gamma : Option Int := none

/-- JS x || d for the weight options (0 and undefined are falsy). -/
def jsOrInt (v : Option Int) (d : Int) : Int :=
  match v with
  | none => d
  | some 0 => d
  | some x => x

structure CostModel where
  alpha : Int
  beta : Int
  gamma : Int
deriving DecidableEq

/-- The CostModel constructor with its || defaults. -/
def mkCostModel (config : CostModelConfig) : CostModel :=
  ⟨jsOrInt config.alpha 10, jsOrInt config.beta 1, jsOrInt config.gamma 5⟩

/-! ## Graph walks: the specification side of BFS -/

/-- A trail is a vertex list whose consecutive entries are adjacent. -/
def IsTrail (g : Graph) (ws : List Nat) : Prop :=
  ws.Chain' (fun u v => isConnected g u v = true)

/-- A trail from a to b, endpoints included. -/
def TrailFrom (g : Graph) (a b : Nat) (ws : List Nat) : Prop :=
  ws.head? = some a ∧ ws.getLast? = some b ∧ IsTrail g ws

/-- Reachability in exactly n hops along some trail. -/
def ReachesIn (g : Graph) (a b n : Nat) : Prop :=
  ∃ ws, TrailFrom g a b ws ∧ ws.length = n + 1

def Reaches (g : Graph) (a b : Nat) : Prop := ∃ n, ReachesIn g a b n

/-- The generated adjacency is symmetric. -/
def Symm (g : Graph) : Prop :=
  ∀ a b, isConnected g a b = true → isConnected g b a = true

/-- The generated adjacency has no self loops. -/
def Irr (g : Graph) : Prop := ∀ a, isConnected g a a = false

/-- Adjacency lists only mention real device qubits. -/
def Closed (g : Graph) : Prop :=
  ∀ a, ∀ b ∈ adjList g a, b < g.length

/-! ## BFS queue invariants -/

/-- A BFS queue always consists of a block of entries at some depth followed
by a block one deeper. -/
def TwoBlock (q : List (Nat × Nat)) : Prop :=
  ∃ d q1 q2, q = q1 ++ q2 ∧ (∀ e ∈ q1, e.2 = d) ∧ (∀ e ∈ q2, e.2 = d + 1)

/-! ## BFS totality: the fuel never runs out at bfsFuel -/

/-- Total degree of the not-yet-visited vertices. -/
def unvisDeg (g : Graph) (visited : List Nat) : Nat :=
  (((List.range g.length).filter (fun v => !visited.contains v)).map
    (fun v => (adjList g v).length)).sum

/-! ## Lockstep correspondence of the two BFS loops -/

/-- The distance queue and the path queue of the two BFS loops stay aligned:
same nodes in the same order, each payload path one longer than the hop
count. -/
def QRel : List (Nat × Nat) → List (Nat × List Nat) → Prop
  | [], [] => True
  | ed :: qd, ep :: qp => ed.1 = ep.1 ∧ ep.2.length = ed.2 + 1 ∧ QRel qd qp
  | _ :: _, [] => False
  | [], _ :: _ => False

/-- The lnn adjacency produced by buildGraph. -/
def lnnG (n : Nat) : Graph :=
  (List.range n).map (fun i =>
    (if 0 < i then [i - 1] else []) ++ (if i < n - 1 then [i + 1] else []))

/-- The grid2d adjacency produced by buildGraph. -/
def gridG (rows cols : Nat) : Graph :=
  (List.range (rows * cols)).map (fun id =>
    let r := id / cols
    let c := id % cols
    (if 0 < c then [id - 1] else []) ++ (if c < cols - 1 then [id + 1] else []) ++
      (if 0 < r then [id - cols] else []) ++ (if r < rows - 1 then [id + cols] else []))

/-- The star adjacency produced by buildGraph. -/
def starG (n : Nat) : Graph :=
  ((List.range (n - 1)).map (· + 1)) :: (List.range (n - 1)).map (fun _ => [0])

/-! ## Layout transpositions -/

/-- The value transposition that one Swap step applies to the Layout. -/
def transpose2 (p q x : Nat) : Nat := if x = p then q else if x = q then p else x

/-! ## The shared replay invariant -/

/-- One step of the layout-snapshot discipline: a Swap step's snapshot is the
previous layout with its recorded physical pair transposed, a Native step's
snapshot is the previous layout unchanged. -/
def stepFollowsB (prev : List Nat) : Step → Bool
  | .swap phys _ lay _ _ => lay == prev.map (transpose2 phys.1 phys.2)
  | .native _ _ _ lay _ _ => lay == prev

def layoutChainB (prev : List Nat) : List Step → Bool
  | [] => true
  | s :: rest => stepFollowsB prev s && layoutChainB s.layout rest

/-- The layout snapshot after the last emitted step. -/
def lastLayout (init : List Nat) (steps : List Step) : List Nat :=
  steps.getLast?.elim init Step.layout

/-- The invariant every mapper maintains over its replay state. -/
structure StOk (n : Nat) (st : MapSt) : Prop where
  perm : st.layout.Perm (List.range n)
  depthLen : st.depth = st.steps.length
  swaps : st.insertedSwaps = (st.steps.filter Step.isSwap).length
  depths : st.steps.map Step.depth = List.range st.steps.length
  chain : layoutChainB (List.range n) st.steps = true
  lastLay : lastLayout (List.range n) st.steps = st.layout
  ins : st.steps.all (fun s => s.inserted == s.isSwap) = true

/-! ## Validity of inputs, and the per-result predicates of the claims -/

/-- A circuit whose operands are all in range (the spec's validity). -/
def ValidCircuit (c : QuantumCircuit) : Prop :=
  1 ≤ c.nQubits ∧ ∀ gate ∈ c.gates, ∀ q ∈ gate.qubits, q < c.nQubits

instance : DecidablePred ValidCircuit := fun c => by
  unfold ValidCircuit
  infer_instance

/-- One of the three recognized topology tags. -/
def ShapeTag (type : String) : Prop :=
  type = "lnn" ∨ type = "grid2d" ∨ type = "star"

instance : DecidablePred ShapeTag := fun t => by
  unfold ShapeTag
  infer_instance

/-- A valid (circuit, topology) pair: valid circuit, recognized shape,
honestly built adjacency, and a device exactly as large as the circuit. -/
def ValidPair (circuit : QuantumCircuit) (hw : HardwareTopology) : Prop :=
  ValidCircuit circuit ∧ ShapeTag hw.type ∧ hw.graph = buildGraph hw.type hw.params ∧
    hw.graph.length = circuit.nQubits

instance : ∀ c hw, Decidable (ValidPair c hw) := fun c hw => by
  unfold ValidPair
  infer_instance

/-- The layout-discipline check of claim C3 on a finished result. -/
def resultChainOk (n : Nat) (res : MappingResult) : Bool :=
  layoutChainB (List.range n) res.steps &&
    (res.finalLayout == lastLayout (List.range n) res.steps)

/-- The counter/shape check of claim C4 on a finished result. -/
def resultShapeOk (res : MappingResult) : Bool :=
  (res.steps.map Step.depth == List.range res.steps.length) &&
    (res.depth == res.steps.length) &&
    (res.insertedSwaps == (res.steps.filter Step.isSwap).length) &&
    res.steps.all (fun s => s.inserted == s.isSwap)

/-- Concrete inputs used by the witnesses: a 3-qubit line device and the
circuit with the single two-qubit gate (0,2). -/
def sampleCircuit : QuantumCircuit := (mkQuantumCircuit 3).addGate ("cx") [0, 2]

def sampleTopo : HardwareTopology := mkHardwareTopology ("lnn") ⟨some 3, none, none⟩

/-! ## Degenerate-input facts shared by several claims -/

/-! ## Loop exit conditions -/

/-- The residual penalty the frozen replay adds for a gate list: every
two-qubit gate contributes distance - 1 at the (now fixed) layout. -/
def residualSum (g : Graph) (layout : List Nat) : List Gate → WithTop Int
  | [] => (0 : Int)
  | gate :: gs =>
    if gate.qubits.length == 2 then
      distMinusOne g (layout.getD (gate.qubits.getD 0 0) 0)
          (layout.getD (gate.qubits.getD 1 0) 0) + residualSum g layout gs
    else residualSum g layout gs

/-- The 4-qubit line and the single far gate on which the look-ahead loop
oscillates with window 0. -/
def c5Circuit : QuantumCircuit := (mkQuantumCircuit 4).addGate ("cx") [0, 3]

def c5Topo : HardwareTopology := mkHardwareTopology ("lnn") ⟨some 4, none, none⟩

/-- The JS map() never returns on this input: no iteration bound makes the
fuelled model answer. -/
def lookAheadNeverReturns (circuit : QuantumCircuit) (hw : HardwareTopology)
    (lookAhead : Nat) : Prop :=
  ∀ fuel : Nat, lookAheadMap circuit hw lookAhead fuel = none

/-! ## Genetic pipeline totality -/

/-- All entries of a chromosome are real swap picks. -/
def allSome (ch : Chromosome) : Prop := ∀ e ∈ ch, e.isSome = true

/-! ## Theorems -/

theorem reachesIn_self (g : Graph) (a : Nat) : ReachesIn g a a 0 :=
  ⟨[a], ⟨rfl, rfl, List.chain'_singleton a⟩, rfl⟩

theorem reachesIn_adj (g : Graph) {a b : Nat} (h : isConnected g a b = true) :
    ReachesIn g a b 1 :=
  ⟨[a, b], ⟨rfl, rfl, List.chain'_pair.mpr h⟩, rfl⟩

theorem trailFrom_ne_nil {g : Graph} {a b : Nat} {ws : List Nat}
    (h : TrailFrom g a b ws) : ws ≠ [] := by
  intro hn; rw [hn] at h; exact Option.noConfusion h.1

/-- Prepending an edge to a trail. -/
theorem trailFrom_cons {g : Graph} {a b c : Nat} {ws : List Nat}
    (hadj : isConnected g a b = true) (h : TrailFrom g b c ws) :
    TrailFrom g a c (a :: ws) := by
  obtain ⟨h1, h2, h3⟩ := h
  cases ws with
  | nil => exact absurd h1 (by simp)
  | cons x xs =>
    have hxb : x = b := by simpa using h1
    subst hxb
    refine ⟨rfl, ?_, List.chain'_cons.mpr ⟨hadj, h3⟩⟩
    rw [List.getLast?_cons_cons]; exact h2

/-- Appending an edge to a trail. -/
theorem trailFrom_snoc {g : Graph} {a b c : Nat} {ws : List Nat}
    (h : TrailFrom g a b ws) (hadj : isConnected g b c = true) :
    TrailFrom g a c (ws ++ [c]) := by
  obtain ⟨h1, h2, h3⟩ := h
  refine ⟨?_, ?_, ?_⟩
  · rw [List.head?_append, h1]; rfl
  · simp
  · rw [IsTrail, List.chain'_append]
    exact ⟨h3, List.chain'_singleton c, by
      intro x hx y hy
      have hxb : x = b := by
        rw [Option.mem_def, h2] at hx; exact (Option.some_inj.mp hx).symm
      have hyc : y = c := by have := hy; simp only [List.head?_cons, Option.mem_def, Option.some.injEq] at this; exact this.symm
      rw [hxb, hyc]; exact hadj⟩

theorem reachesIn_snoc (g : Graph) {a b c n : Nat} (h : ReachesIn g a b n)
    (hadj : isConnected g b c = true) : ReachesIn g a c (n + 1) := by
  obtain ⟨ws, hw, hl⟩ := h
  exact ⟨ws ++ [c], trailFrom_snoc hw hadj, by simp [hl]⟩

theorem reachesIn_cons (g : Graph) {a b c n : Nat}
    (hadj : isConnected g a b = true) (h : ReachesIn g b c n) :
    ReachesIn g a c (n + 1) := by
  obtain ⟨ws, hw, hl⟩ := h
  exact ⟨a :: ws, trailFrom_cons hadj hw, by simp [hl]⟩

/-- Reversing a trail in a symmetric graph. -/
theorem trailFrom_reverse {g : Graph} (hs : Symm g) {a b : Nat} {ws : List Nat}
    (h : TrailFrom g a b ws) : TrailFrom g b a ws.reverse := by
  obtain ⟨h1, h2, h3⟩ := h
  refine ⟨?_, ?_, ?_⟩
  · rw [List.head?_reverse]; exact h2
  · rw [List.getLast?_reverse]; exact h1
  · rw [IsTrail, List.chain'_reverse]
    exact List.Chain'.imp (fun u v huv => hs _ _ huv) h3

theorem reachesIn_symm {g : Graph} (hs : Symm g) {a b n : Nat}
    (h : ReachesIn g a b n) : ReachesIn g b a n := by
  obtain ⟨ws, hw, hl⟩ := h
  exact ⟨ws.reverse, trailFrom_reverse hs hw, by simp [hl]⟩

theorem reaches_symm {g : Graph} (hs : Symm g) {a b : Nat}
    (h : Reaches g a b) : Reaches g b a := by
  obtain ⟨n, hn⟩ := h; exact ⟨n, reachesIn_symm hs hn⟩

/-- Cutting a repeated vertex out of a trail keeps it a trail. -/
theorem trail_cut {g : Graph} {a b : Nat} {ws : List Nat}
    (h : TrailFrom g a b ws) (hnd : ¬ ws.Nodup) :
    ∃ ws2, TrailFrom g a b ws2 ∧ ws2.length < ws.length := by
  obtain ⟨h1, h2, h3⟩ := h
  have hinj : ¬ Function.Injective ws.get := fun hc => hnd (List.nodup_iff_injective_get.mpr hc)
  have hij : ∃ i j : Fin ws.length, i.1 < j.1 ∧ ws.get i = ws.get j := by
    by_contra hno
    push_neg at hno
    exact hinj (fun i j hij => by
      rcases Nat.lt_trichotomy i.1 j.1 with hlt | heq | hgt
      · exact absurd hij (hno i j hlt)
      · exact Fin.ext heq
      · exact absurd hij.symm (hno j i hgt))
  obtain ⟨i, j, hij, heq⟩ := hij
  set ws2 := ws.take (i.1 + 1) ++ ws.drop (j.1 + 1) with hws2
  have hlen2 : ws2.length = i.1 + 1 + (ws.length - (j.1 + 1)) := by
    simp [hws2, List.length_take, Nat.min_eq_left (Nat.succ_le_of_lt i.2)]
  have htl : (ws.take (i.1 + 1)).length = i.1 + 1 :=
    by simp [List.length_take, Nat.min_eq_left (Nat.succ_le_of_lt i.2)]
  have htake_last : (ws.take (i.1 + 1)).getLast? = some (ws.get i) := by
    rw [List.getLast?_eq_getElem?]
    simp [List.length_take, Nat.min_eq_left (Nat.succ_le_of_lt i.2), List.getElem?_take,
      List.getElem?_eq_getElem i.2]
  refine ⟨ws2, ⟨?_, ?_, ?_⟩, ?_⟩
  · rw [hws2, List.head?_append, List.head?_take]
    simp only [Nat.succ_ne_zero, if_neg, ite_false]
    rw [h1]; rfl
  · rcases Nat.lt_or_ge (j.1 + 1) ws.length with hj2 | hj2
    · rw [hws2, List.getLast?_append]
      have hd : (ws.drop (j.1 + 1)).getLast? = some b := by
        rw [List.getLast?_eq_getElem?]
        have hld : (ws.drop (j.1 + 1)).length = ws.length - (j.1 + 1) := by simp
        rw [hld, List.getElem?_drop]
        have harith : j.1 + 1 + (ws.length - (j.1 + 1) - 1) = ws.length - 1 := by omega
        rw [harith, ← List.getLast?_eq_getElem?]
        exact h2
      rw [hd]; rfl
    · have hdrop : ws.drop (j.1 + 1) = [] := List.drop_eq_nil_of_le hj2
      have hjlast : j.1 = ws.length - 1 := by omega
      have hb : ws.get j = b := by
        have hjj : j = ⟨ws.length - 1, by have := i.2; omega⟩ := Fin.ext hjlast
        rw [hjj]
        have h2b := h2
        rw [List.getLast?_eq_getElem?,
          List.getElem?_eq_getElem (by have := i.2; omega : ws.length - 1 < ws.length)] at h2b
        exact Option.some_inj.mp h2b
      rw [hws2, hdrop, List.append_nil, htake_last, heq, hb]
  · rw [hws2, IsTrail, List.chain'_append]
    refine ⟨List.Chain'.take h3 _, List.Chain'.drop h3 _, ?_⟩
    intro x hx y hy
    have hj2 : j.1 + 1 < ws.length := by
      rcases Nat.lt_or_ge (j.1 + 1) ws.length with hj2 | hj2
      · exact hj2
      · exfalso; rw [List.drop_eq_nil_of_le hj2] at hy; exact Option.noConfusion hy
    rw [Option.mem_def, htake_last] at hx
    have hxv : x = ws.get i := Option.some_inj.mp hx.symm
    have hyv : y = ws.get ⟨j.1 + 1, hj2⟩ := by
      rw [Option.mem_def, List.head?_eq_getElem?, List.getElem?_drop] at hy
      simp only [Nat.add_zero] at hy
      rw [List.getElem?_eq_getElem hj2] at hy
      exact Option.some_inj.mp hy.symm
    have hchain := List.chain'_iff_get.mp h3 j.1 (by omega)
    rw [hxv, hyv, heq]
    exact hchain
  · rw [hlen2]
    have := i.2
    have := j.2
    omega

/-- Every reachable pair is joined by a duplicate-free trail of no greater
length. -/
theorem reachesIn_nodup {g : Graph} {a b : Nat} :
    ∀ n, ReachesIn g a b n →
      ∃ m ws, m ≤ n ∧ TrailFrom g a b ws ∧ ws.Nodup ∧ ws.length = m + 1 := by
  intro n
  induction n using Nat.strong_induction_on with
  | _ n ih =>
    intro h
    obtain ⟨ws, hw, hl⟩ := h
    by_cases hnd : ws.Nodup
    · exact ⟨n, ws, le_refl n, hw, hnd, hl⟩
    · obtain ⟨ws2, hw2, hlt⟩ := trail_cut hw hnd
      have hpos : ws2.length ≠ 0 := by
        intro hz
        exact trailFrom_ne_nil hw2 (List.length_eq_zero.mp hz)
      obtain ⟨m2, hm2⟩ : ∃ m2, ws2.length = m2 + 1 :=
        ⟨ws2.length - 1, by omega⟩
      obtain ⟨m3, ws3, hle3, hw3, hnd3, hl3⟩ := ih m2 (by omega) ⟨ws2, hw2, hm2⟩
      exact ⟨m3, ws3, by omega, hw3, hnd3, hl3⟩

theorem twoBlock_single (a d : Nat) : TwoBlock [(a, d)] :=
  ⟨d, [(a, d)], [], by simp, by simp, by simp⟩

theorem twoBlock_head_le {e : Nat × Nat} {q : List (Nat × Nat)}
    (h : TwoBlock (e :: q)) : ∀ f ∈ e :: q, e.2 ≤ f.2 := by
  obtain ⟨d, q1, q2, heq, h1, h2⟩ := h
  cases q1 with
  | nil =>
    have hall : ∀ f ∈ e :: q, f.2 = d + 1 := by
      intro f hf
      rw [heq] at hf
      exact h2 f (by simpa using hf)
    intro f hf
    rw [hall e (List.mem_cons_self e q), hall f hf]
  | cons x xs =>
    have hex : e = x := by
      have h' := congrArg List.head? heq
      simpa using h'
    have hed : e.2 = d := by rw [hex]; exact h1 x (List.mem_cons_self x xs)
    intro f hf
    rw [heq] at hf
    rcases List.mem_append.mp hf with hm | hm
    · rw [hed, h1 f hm]
    · rw [hed, h2 f hm]; omega

theorem twoBlock_head_le_mem {node dist : Nat} {rest : List (Nat × Nat)} {u du : Nat}
    (h : TwoBlock ((node, dist) :: rest)) (hm : (u, du) ∈ (node, dist) :: rest) :
    dist ≤ du :=
  twoBlock_head_le h (u, du) hm

/-- Popping the front and appending one-deeper entries preserves the
two-block shape. -/
theorem twoBlock_step {node dist : Nat} {rest : List (Nat × Nat)}
    (h : TwoBlock ((node, dist) :: rest)) {pushes : List (Nat × Nat)}
    (hp : ∀ e ∈ pushes, e.2 = dist + 1) : TwoBlock (rest ++ pushes) := by
  obtain ⟨d, q1, q2, heq, h1, h2⟩ := h
  cases q1 with
  | nil =>
    simp only [List.nil_append] at heq
    have hdd : dist = d + 1 := by
      have := h2 (node, dist) (heq ▸ List.mem_cons_self _ rest)
      simpa using this
    have hrest : ∀ e ∈ rest, e.2 = d + 1 := by
      intro e he
      exact h2 e (heq ▸ List.mem_cons_of_mem _ he)
    refine ⟨d + 1, rest, pushes, rfl, fun e he => hrest e he, ?_⟩
    intro e he
    rw [hp e he, hdd]
  | cons x xs =>
    have hex : (node, dist) = x := by
      have h' := congrArg List.head? heq
      simpa using h'
    have hdd : dist = d := by
      have := h1 x (List.mem_cons_self x xs)
      rw [← hex] at this
      simpa using this
    have hq : rest = xs ++ q2 := by
      have := congrArg List.tail heq
      simpa using this
    refine ⟨d, xs, q2 ++ pushes, by rw [hq, List.append_assoc],
      fun e he => h1 e (List.mem_cons_of_mem _ he), ?_⟩
    intro e he
    rcases List.mem_append.mp he with h2m | hpm
    · exact h2 e h2m
    · rw [hp e hpm, hdd]

theorem twoBlock_tail {e : Nat × Nat} {q : List (Nat × Nat)}
    (h : TwoBlock (e :: q)) : TwoBlock q := by
  obtain ⟨node, dist⟩ := e
  have := @twoBlock_step node dist q h [] (by simp)
  simpa using this

theorem filter_cons_not_mem {v : Nat} {vis l : List Nat} (hv : v ∉ l) :
    l.filter (fun x => !((v :: vis).contains x)) = l.filter (fun x => !(vis.contains x)) := by
  apply List.filter_congr
  intro x hx
  have hxv : x ≠ v := fun hc => hv (hc ▸ hx)
  simp [List.contains_cons, hxv]

theorem sum_filter_cons_mem {f : Nat → Nat} {v : Nat} {vis : List Nat} :
    ∀ {l : List Nat}, l.Nodup → v ∈ l → v ∉ vis →
    ((l.filter (fun x => !((v :: vis).contains x))).map f).sum + f v
      = ((l.filter (fun x => !(vis.contains x))).map f).sum := by
  intro l
  induction l with
  | nil => intro _ hvl _; cases hvl
  | cons x xs ih =>
    intro hnd hvl hvv
    rw [List.filter_cons, List.filter_cons]
    by_cases hxv : x = v
    · subst hxv
      have hvnot : x ∉ xs := (List.nodup_cons.mp hnd).1
      have hc1 : (!((x :: vis).contains x)) = false := by simp
      have hc2 : (!(vis.contains x)) = true := by simpa using hvv
      rw [hc1, hc2]
      simp only [Bool.false_eq_true, if_false, if_true]
      rw [filter_cons_not_mem hvnot, List.map_cons, List.sum_cons]
      omega
    · have hvxs : v ∈ xs := by
        rcases List.mem_cons.mp hvl with h | h
        · exact absurd h.symm hxv
        · exact h
      have hceq : (!((v :: vis).contains x)) = (!(vis.contains x)) := by
        simp [List.contains_cons, hxv]
      rw [hceq]
      have ihx := ih (List.nodup_cons.mp hnd).2 hvxs hvv
      cases hb : (!(vis.contains x)) with
      | false =>
        simp only [Bool.false_eq_true, if_false]
        exact ihx
      | true =>
        simp only [if_true]
        simp only [List.map_cons, List.sum_cons]
        omega

theorem unvisDeg_visit {g : Graph} {vis : List Nat} {v : Nat}
    (hvv : v ∉ vis) (hvl : v < g.length) :
    unvisDeg g (v :: vis) + (adjList g v).length = unvisDeg g vis :=
  sum_filter_cons_mem (List.nodup_range g.length) (List.mem_range.mpr hvl) hvv

theorem unvisDeg_out {g : Graph} {vis : List Nat} {v : Nat} (hvl : g.length ≤ v) :
    unvisDeg g (v :: vis) = unvisDeg g vis := by
  unfold unvisDeg
  congr 1
  congr 1
  apply List.filter_congr
  intro x hx
  have hxv : x ≠ v := by
    have := List.mem_range.mp hx
    omega
  simp [List.contains_cons, hxv]

theorem adjList_out {g : Graph} {v : Nat} (hvl : g.length ≤ v) : adjList g v = [] := by
  unfold adjList
  rw [List.getD_eq_getElem?_getD, List.getElem?_eq_none hvl]
  rfl

theorem unvisDeg_nil (g : Graph) : unvisDeg g [] = totalDeg g := by
  unfold unvisDeg totalDeg
  have h1 : (List.range g.length).filter (fun v => !(([] : List Nat).contains v))
      = List.range g.length := by
    apply List.filter_eq_self.mpr
    intro a _
    rfl
  rw [h1]
  congr 1
  apply List.ext_getElem
  · simp
  · intro n h₁ h₂
    simp only [List.getElem_map, List.getElem_range]
    unfold adjList
    rw [List.getD_eq_getElem?_getD]
    rw [List.getElem?_eq_getElem (by simpa using h₂)]
    rfl

theorem bfsDistAux_completes (g : Graph) (target : Nat) :
    ∀ fuel (queue : List (Nat × Nat)) (visited : List Nat),
      queue.length + unvisDeg g visited < fuel →
      bfsDistAux g target queue visited fuel ≠ none := by
  intro fuel
  induction fuel with
  | zero => intro queue visited h; omega
  | succ f ih =>
    intro queue visited h
    match queue with
    | [] => simp [bfsDistAux]
    | (node, dist) :: rest =>
      rw [bfsDistAux]
      by_cases ht : node = target
      · simp [ht]
      · rw [if_neg ht]
        by_cases hv : visited.contains node
        · rw [if_pos hv]
          apply ih
          simp only [List.length_cons] at h
          omega
        · rw [if_neg hv]
          apply ih
          have hnv : node ∉ visited := by
            intro hc
            exact hv (List.elem_eq_true_of_mem hc)
          simp only [List.length_append, List.length_cons] at h ⊢
          rcases Nat.lt_or_ge node g.length with hin | hout
          · have hud := unvisDeg_visit hnv hin
            have hpl : (((adjList g node).filter
                (fun w => !((node :: visited).contains w))).map (fun w => (w, dist + 1))).length
                ≤ (adjList g node).length := by
              rw [List.length_map]
              exact List.length_filter_le _ _
            omega
          · have hud := @unvisDeg_out g visited node hout
            rw [adjList_out hout]
            simp only [List.filter_nil, List.map_nil, List.length_nil]
            omega

theorem bfsDistAux_total (g : Graph) (a target : Nat) :
    ∃ r, bfsDistAux g target [(a, 0)] [] (bfsFuel g) = some r := by
  have h := bfsDistAux_completes g target (bfsFuel g) [(a, 0)] []
    (by rw [unvisDeg_nil]; unfold bfsFuel; simp only [List.length_cons, List.length_nil]; omega)
  cases hr : bfsDistAux g target [(a, 0)] [] (bfsFuel g) with
  | none => exact absurd hr h
  | some r => exact ⟨r, rfl⟩

/-! ## BFS soundness and completeness -/

theorem isConnected_of_mem_adjList {g : Graph} {u w : Nat} (h : w ∈ adjList g u) :
    isConnected g u w = true := by
  unfold isConnected
  exact List.elem_eq_true_of_mem h

theorem mem_adjList_of_isConnected {g : Graph} {u w : Nat}
    (h : isConnected g u w = true) : w ∈ adjList g u := by
  unfold isConnected at h
  exact List.mem_of_elem_eq_true h

/-- Every queue entry records the exact length of some trail from the源
start; the returned distance is therefore a trail length. -/
theorem bfsDistAux_sound (g : Graph) (a target : Nat) :
    ∀ fuel (queue : List (Nat × Nat)) (visited : List Nat) (d : Nat),
      (∀ e ∈ queue, ReachesIn g a e.1 e.2) →
      bfsDistAux g target queue visited fuel = some (some d) →
      ReachesIn g a target d := by
  intro fuel
  induction fuel with
  | zero =>
    intro queue visited d hq hr
    match queue with
    | [] => exact Option.noConfusion (Option.some_inj.mp hr)
    | e :: rest => exact Option.noConfusion hr
  | succ f ih =>
    intro queue visited d hq hr
    match queue with
    | [] => exact Option.noConfusion (Option.some_inj.mp hr)
    | (node, dist) :: rest =>
      rw [bfsDistAux] at hr
      by_cases ht : node = target
      · rw [if_pos ht] at hr
        have hd : dist = d := by
          have := Option.some_inj.mp hr
          exact Option.some_inj.mp this
        rw [← hd, ← ht]
        exact hq (node, dist) (List.mem_cons_self _ _)
      · rw [if_neg ht] at hr
        by_cases hv : visited.contains node
        · rw [if_pos hv] at hr
          exact ih rest visited d (fun e he => hq e (List.mem_cons_of_mem _ he)) hr
        · rw [if_neg hv] at hr
          refine ih _ _ d ?_ hr
          intro e he
          rcases List.mem_append.mp he with hrm | hpm
          · exact hq e (List.mem_cons_of_mem _ hrm)
          · obtain ⟨w, hw, hwe⟩ := List.mem_map.mp hpm
            have hwa : w ∈ adjList g node := List.mem_of_mem_filter hw
            have hnode : ReachesIn g a node dist := hq (node, dist) (List.mem_cons_self _ _)
            rw [← hwe]
            exact reachesIn_snoc g hnode (isConnected_of_mem_adjList hwa)

/-- A trail cannot leave a set of vertices that is closed under adjacency. -/
theorem trail_stays {g : Graph} {vis : List Nat}
    (hcl : ∀ u ∈ vis, ∀ w, isConnected g u w = true → w ∈ vis) :
    ∀ {ws : List Nat} {a b : Nat}, TrailFrom g a b ws → a ∈ vis → b ∈ vis := by
  intro ws
  induction ws with
  | nil => intro a b hw; exact absurd hw.1 (by simp)
  | cons x xs ih =>
    intro a b hw ha
    obtain ⟨h1, h2, h3⟩ := hw
    have hxa : x = a := by simpa using h1
    cases xs with
    | nil =>
      have hxb : x = b := by simpa using h2
      rw [← hxb, hxa]; exact ha
    | cons y ys =>
      have hadj : isConnected g x y = true := (List.chain'_cons.mp h3).1
      have hy : y ∈ vis := hcl x (hxa ▸ ha) y hadj
      refine ih ⟨rfl, ?_, (List.chain'_cons.mp h3).2⟩ hy
      rw [← h2, List.getLast?_cons_cons]

/-- When BFS exhausts its queue, the start cannot reach the target. -/
theorem bfsDistAux_unreachable (g : Graph) (a target : Nat) :
    ∀ fuel (queue : List (Nat × Nat)) (visited : List Nat),
      (∀ u ∈ visited, ∀ w, isConnected g u w = true →
        w ∈ visited ∨ w ∈ queue.map Prod.fst) →
      (a ∈ visited ∨ a ∈ queue.map Prod.fst) →
      target ∉ visited →
      bfsDistAux g target queue visited fuel = some none →
      ¬ Reaches g a target := by
  intro fuel
  induction fuel with
  | zero =>
    intro queue visited hcl ha ht hr
    match queue with
    | [] =>
      intro hre
      obtain ⟨n, ws, hw, hl⟩ := hre
      have hav : a ∈ visited := by
        rcases ha with h | h
        · exact h
        · simp at h
      have hclv : ∀ u ∈ visited, ∀ w, isConnected g u w = true → w ∈ visited := by
        intro u hu w hadj
        rcases hcl u hu w hadj with h | h
        · exact h
        · simp at h
      exact ht (trail_stays hclv hw hav)
    | e :: rest => exact Option.noConfusion hr
  | succ f ih =>
    intro queue visited hcl ha ht hr
    match queue with
    | [] =>
      intro hre
      obtain ⟨n, ws, hw, hl⟩ := hre
      have hav : a ∈ visited := by
        rcases ha with h | h
        · exact h
        · simp at h
      have hclv : ∀ u ∈ visited, ∀ w, isConnected g u w = true → w ∈ visited := by
        intro u hu w hadj
        rcases hcl u hu w hadj with h | h
        · exact h
        · simp at h
      exact ht (trail_stays hclv hw hav)
    | (node, dist) :: rest =>
      rw [bfsDistAux] at hr
      by_cases htn : node = target
      · rw [if_pos htn] at hr
        exact Option.noConfusion (Option.some_inj.mp hr)
      · rw [if_neg htn] at hr
        by_cases hv : visited.contains node
        · rw [if_pos hv] at hr
          have hnv : node ∈ visited := List.mem_of_elem_eq_true hv
          refine ih rest visited ?_ ?_ ht hr
          · intro u hu w hadj
            rcases hcl u hu w hadj with h | h
            · exact Or.inl h
            · simp only [List.map_cons, List.mem_cons] at h
              rcases h with h | h
              · exact Or.inl (h ▸ hnv)
              · exact Or.inr h
          · rcases ha with h | h
            · exact Or.inl h
            · simp only [List.map_cons, List.mem_cons] at h
              rcases h with h | h
              · exact Or.inl (h ▸ hnv)
              · exact Or.inr h
        · rw [if_neg hv] at hr
          have htn2 : target ∉ node :: visited := by
            intro hc
            rcases List.mem_cons.mp hc with h | h
            · exact htn h.symm
            · exact ht h
          refine ih _ (node :: visited) ?_ ?_ htn2 hr
          · intro u hu w hadj
            rcases List.mem_cons.mp hu with hun | huv
            · rw [hun] at hadj
              by_cases hwin : w ∈ node :: visited
              · exact Or.inl hwin
              · refine Or.inr ?_
                rw [List.map_append, List.mem_append]
                refine Or.inr ?_
                rw [List.map_map, List.mem_map]
                refine ⟨w, ?_, rfl⟩
                rw [List.mem_filter]
                refine ⟨mem_adjList_of_isConnected hadj, ?_⟩
                simpa using hwin
            · rcases hcl u huv w hadj with h | h
              · exact Or.inl (List.mem_cons_of_mem _ h)
              · simp only [List.map_cons, List.mem_cons] at h
                rcases h with h | h
                · exact Or.inl (h ▸ List.mem_cons_self _ _)
                · refine Or.inr ?_
                  rw [List.map_append, List.mem_append]
                  exact Or.inl h
          · rcases ha with h | h
            · exact Or.inl (List.mem_cons_of_mem _ h)
            · simp only [List.map_cons, List.mem_cons] at h
              rcases h with h | h
              · exact Or.inl (h ▸ List.mem_cons_self _ _)
              · refine Or.inr ?_
                rw [List.map_append, List.mem_append]
                exact Or.inl h

/-- The first pop of the target happens at the least trail length: whatever
duplicate-free trail to the target crosses the queue bounds the result. -/
theorem bfsDistAux_min (g : Graph) (target k : Nat) :
    ∀ fuel (queue : List (Nat × Nat)) (visited : List Nat) (r : Option Nat),
      TwoBlock queue →
      (∃ u du ws, (u, du) ∈ queue ∧ u ∉ visited ∧ TrailFrom g u target ws ∧
        ws.Nodup ∧ (∀ x ∈ ws.tail, x ∉ visited) ∧ du + (ws.length - 1) ≤ k) →
      bfsDistAux g target queue visited fuel = some r →
      ∃ d, r = some d ∧ d ≤ k := by
  intro fuel
  induction fuel with
  | zero =>
    intro queue visited r htb hwit hr
    match queue with
    | [] => obtain ⟨u, du, ws, hm, _⟩ := hwit; cases hm
    | e :: rest => exact Option.noConfusion hr
  | succ f ih =>
    intro queue visited r htb hwit hr
    match queue with
    | [] => obtain ⟨u, du, ws, hm, _⟩ := hwit; cases hm
    | (node, dist) :: rest =>
      rw [bfsDistAux] at hr
      obtain ⟨u, du, ws, hmem, hunv, htrail, hnd, havoid, hbound⟩ := hwit
      have hdistdu : dist ≤ du := twoBlock_head_le_mem htb hmem
      by_cases ht : node = target
      · rw [if_pos ht] at hr
        refine ⟨dist, (Option.some_inj.mp hr).symm, ?_⟩
        omega
      · rw [if_neg ht] at hr
        by_cases hv : visited.contains node
        · rw [if_pos hv] at hr
          have hnode : node ∈ visited := List.mem_of_elem_eq_true hv
          have hune : u ≠ node := fun hc => hunv (hc ▸ hnode)
          have hmem2 : (u, du) ∈ rest := by
            rcases List.mem_cons.mp hmem with h | h
            · exact absurd (congrArg Prod.fst h) (by simpa using hune)
            · exact h
          exact ih rest visited r (twoBlock_tail htb)
            ⟨u, du, ws, hmem2, hunv, htrail, hnd, havoid, hbound⟩ hr
        · rw [if_neg hv] at hr
          have hnodev : node ∉ visited := fun hc => hv (List.elem_eq_true_of_mem hc)
          have htb2 : TwoBlock (rest ++ ((adjList g node).filter
              (fun w => !((node :: visited).contains w))).map (fun w => (w, dist + 1))) := by
            refine twoBlock_step htb ?_
            intro e he
            obtain ⟨w, _, hwe⟩ := List.mem_map.mp he
            rw [← hwe]
          by_cases hins : node ∈ ws
          · obtain ⟨s, t, hst⟩ := List.append_of_mem hins
            have hsub : (node :: t).Sublist ws := by
              rw [hst]
              exact (List.suffix_append s (node :: t)).sublist
            have hndt : (node :: t).Nodup := hsub.nodup hnd
            cases t with
            | nil =>
              exfalso
              apply ht
              have h2 := htrail.2.1
              rw [hst, List.getLast?_append] at h2
              exact Option.some_inj.mp h2
            | cons w1 t2 =>
              have hchains : IsTrail g (node :: w1 :: t2) :=
                List.Chain'.suffix htrail.2.2 (hst ▸ List.suffix_append s (node :: w1 :: t2))
              have hadj : isConnected g node w1 = true := (List.chain'_cons.mp hchains).1
              have hlastt : (w1 :: t2).getLast? = some target := by
                have h2 := htrail.2.1
                rw [hst, List.getLast?_append, List.getLast?_cons_cons] at h2
                obtain ⟨z, hz⟩ : ∃ z, (w1 :: t2).getLast? = some z := by
                  rw [List.getLast?_eq_getElem?]
                  exact ⟨_, List.getElem?_eq_getElem (by simp)⟩
                rw [hz] at h2 ⊢
                exact h2
              have htrail2 : TrailFrom g w1 target (w1 :: t2) := ⟨rfl, hlastt, hchains.tail⟩
              have hmemtail : ∀ x ∈ w1 :: t2, x ∈ ws.tail := by
                intro x hx
                cases s with
                | nil =>
                  rw [hst]
                  exact hx
                | cons s0 s2 =>
                  rw [hst]
                  simp only [List.cons_append, List.tail_cons]
                  rw [List.mem_append]
                  exact Or.inr (List.mem_cons_of_mem node hx)
              have hw1nv : w1 ∉ visited := havoid w1 (hmemtail w1 (List.mem_cons_self _ _))
              have hw1nn : w1 ≠ node := by
                intro hc
                exact (List.nodup_cons.mp hndt).1 (hc ▸ List.mem_cons_self w1 t2)
              have hpush : (w1, dist + 1) ∈ ((adjList g node).filter
                  (fun w => !((node :: visited).contains w))).map (fun w => (w, dist + 1)) := by
                rw [List.mem_map]
                refine ⟨w1, ?_, rfl⟩
                rw [List.mem_filter]
                refine ⟨mem_adjList_of_isConnected hadj, ?_⟩
                have : w1 ∉ node :: visited := by
                  intro hc
                  rcases List.mem_cons.mp hc with h | h
                  · exact hw1nn h
                  · exact hw1nv h
                simpa using this
              have hwslen : ws.length = s.length + 1 + (t2.length + 1) := by
                rw [hst]; simp; omega
              refine ih _ (node :: visited) r htb2 ⟨w1, dist + 1, w1 :: t2, ?_, ?_, htrail2, ?_, ?_, ?_⟩ hr
              · exact List.mem_append.mpr (Or.inr hpush)
              · intro hc
                rcases List.mem_cons.mp hc with h | h
                · exact hw1nn h
                · exact hw1nv h
              · exact (List.nodup_cons.mp hndt).2
              · intro x hx
                intro hc
                have hxt : x ∈ w1 :: t2 := List.mem_cons_of_mem w1 hx
                rcases List.mem_cons.mp hc with h | h
                · exact (List.nodup_cons.mp hndt).1 (h ▸ hxt)
                · exact havoid x (hmemtail x hxt) h
              · simp only [List.length_cons]
                omega
          · have hune : u ≠ node := by
              intro hc
              apply hins
              rw [← hc]
              exact List.mem_of_mem_head? (by rw [htrail.1]; rfl)
            have hmem2 : (u, du) ∈ rest := by
              rcases List.mem_cons.mp hmem with h | h
              · exact absurd (congrArg Prod.fst h) (by simpa using hune)
              · exact h
            refine ih _ (node :: visited) r htb2 ⟨u, du, ws, ?_, ?_, htrail, hnd, ?_, hbound⟩ hr
            · exact List.mem_append.mpr (Or.inl hmem2)
            · intro hc
              rcases List.mem_cons.mp hc with h | h
              · exact hune h
              · exact hunv h
            · intro x hx
              intro hc
              rcases List.mem_cons.mp hc with h | h
              · exact hins (h ▸ List.mem_of_mem_tail hx)
              · exact havoid x hx h

theorem qrel_append : ∀ {qd qd2 : List (Nat × Nat)} {qp qp2 : List (Nat × List Nat)},
    QRel qd qp → QRel qd2 qp2 → QRel (qd ++ qd2) (qp ++ qp2) := by
  intro qd
  induction qd with
  | nil =>
    intro qd2 qp qp2 h1 h2
    match qp with
    | [] => exact h2
    | e :: l => exact absurd h1 (by simp [QRel])
  | cons e l ih =>
    intro qd2 qp qp2 h1 h2
    match qp with
    | [] => exact absurd h1 (by simp [QRel])
    | f :: m =>
      obtain ⟨ha, hb, hc⟩ := h1
      exact ⟨ha, hb, ih hc h2⟩

theorem qrel_pushes (l : List Nat) (d : Nat) (p : List Nat) (hp : p.length = d + 1) :
    QRel (l.map (fun w => (w, d + 1))) (l.map (fun w => (w, p ++ [w]))) := by
  induction l with
  | nil => trivial
  | cons x xs ih => exact ⟨rfl, by simp [hp], ih⟩

theorem bfs_lockstep (g : Graph) (target : Nat) :
    ∀ fuel (qd : List (Nat × Nat)) (qp : List (Nat × List Nat)) (visited : List Nat),
      QRel qd qp →
      (bfsDistAux g target qd visited fuel = none ∧
        bfsPathAux g target qp visited fuel = none) ∨
      (bfsDistAux g target qd visited fuel = some none ∧
        bfsPathAux g target qp visited fuel = some []) ∨
      (∃ d p, bfsDistAux g target qd visited fuel = some (some d) ∧
        bfsPathAux g target qp visited fuel = some p ∧ p.length = d + 1) := by
  intro fuel
  induction fuel with
  | zero =>
    intro qd qp visited hrel
    match qd, qp with
    | [], [] => exact Or.inr (Or.inl ⟨rfl, rfl⟩)
    | ed :: qd, ep :: qp => exact Or.inl ⟨rfl, rfl⟩
    | ed :: qd, [] => exact absurd hrel (by simp [QRel])
    | [], ep :: qp => exact absurd hrel (by simp [QRel])
  | succ f ih =>
    intro qd qp visited hrel
    match qd, qp with
    | [], [] => exact Or.inr (Or.inl ⟨rfl, rfl⟩)
    | ed :: qd, [] => exact absurd hrel (by simp [QRel])
    | [], ep :: qp => exact absurd hrel (by simp [QRel])
    | (node, dist) :: qd, (node2, path) :: qp =>
      obtain ⟨ha, hb, hc⟩ := hrel
      have ha2 : node = node2 := ha
      have hb2 : path.length = dist + 1 := hb
      rw [← ha2]
      rw [bfsDistAux, bfsPathAux]
      by_cases ht : node = target
      · rw [if_pos ht, if_pos ht]
        exact Or.inr (Or.inr ⟨dist, path, rfl, rfl, hb2⟩)
      · rw [if_neg ht, if_neg ht]
        by_cases hv : visited.contains node
        · rw [if_pos hv, if_pos hv]
          exact ih qd qp visited hc
        · rw [if_neg hv, if_neg hv]
          exact ih _ _ (node :: visited) (qrel_append hc (qrel_pushes _ dist path hb2))

/-- Every queue entry of the path BFS carries a genuine trail from the
start, so a returned nonempty path is a trail to the target. -/
theorem bfsPathAux_sound (g : Graph) (a target : Nat) :
    ∀ fuel (qp : List (Nat × List Nat)) (visited : List Nat) (p : List Nat),
      (∀ e ∈ qp, TrailFrom g a e.1 e.2) →
      bfsPathAux g target qp visited fuel = some p → p ≠ [] →
      TrailFrom g a target p := by
  intro fuel
  induction fuel with
  | zero =>
    intro qp visited p hq hr hne
    match qp with
    | [] => exact absurd (Option.some_inj.mp hr).symm hne
    | e :: rest => exact Option.noConfusion hr
  | succ f ih =>
    intro qp visited p hq hr hne
    match qp with
    | [] => exact absurd (Option.some_inj.mp hr).symm hne
    | (node, path) :: rest =>
      rw [bfsPathAux] at hr
      by_cases ht : node = target
      · rw [if_pos ht] at hr
        have hp : path = p := Option.some_inj.mp hr
        rw [← hp, ← ht]
        exact hq (node, path) (List.mem_cons_self _ _)
      · rw [if_neg ht] at hr
        by_cases hv : visited.contains node
        · rw [if_pos hv] at hr
          exact ih rest visited p (fun e he => hq e (List.mem_cons_of_mem _ he)) hr hne
        · rw [if_neg hv] at hr
          refine ih _ _ p ?_ hr hne
          intro e he
          rcases List.mem_append.mp he with hrm | hpm
          · exact hq e (List.mem_cons_of_mem _ hrm)
          · obtain ⟨w, hw, hwe⟩ := List.mem_map.mp hpm
            have hwa : w ∈ adjList g node := List.mem_of_mem_filter hw
            have hnode : TrailFrom g a node path := hq (node, path) (List.mem_cons_self _ _)
            rw [← hwe]
            exact trailFrom_snoc hnode (isConnected_of_mem_adjList hwa)

/-! ## The distance and shortest-path characterizations -/

theorem distance_self (g : Graph) (q : Nat) : distance g q q = some 0 := by
  unfold distance bfsFuel
  rw [bfsDistAux]
  simp

theorem distance_sound {g : Graph} {a b d : Nat} (h : distance g a b = some d) :
    ReachesIn g a b d := by
  obtain ⟨r, hr⟩ := bfsDistAux_total g a b
  unfold distance at h
  rw [hr] at h
  simp only [Option.getD_some] at h
  rw [h] at hr
  exact bfsDistAux_sound g a b (bfsFuel g) [(a, 0)] [] d
    (by
      intro e he
      simp only [List.mem_singleton] at he
      rw [he]
      exact reachesIn_self g a) hr

theorem distance_le {g : Graph} {a b m : Nat} (h : ReachesIn g a b m) :
    ∃ d, distance g a b = some d ∧ d ≤ m := by
  obtain ⟨m2, ws, hm2, hw, hnd, hlen⟩ := reachesIn_nodup m h
  obtain ⟨r, hr⟩ := bfsDistAux_total g a b
  have hmin := bfsDistAux_min g b m (bfsFuel g) [(a, 0)] [] r (twoBlock_single a 0)
    ⟨a, 0, ws, List.mem_singleton.mpr rfl, by simp, hw, hnd, by simp, by omega⟩ hr
  obtain ⟨d, hd, hdm⟩ := hmin
  refine ⟨d, ?_, hdm⟩
  unfold distance
  rw [hr, hd]
  rfl

theorem distance_unreachable {g : Graph} {a b : Nat} (h : ¬ Reaches g a b) :
    distance g a b = none := by
  obtain ⟨r, hr⟩ := bfsDistAux_total g a b
  match r with
  | none =>
    unfold distance
    rw [hr]
    rfl
  | some d =>
    exfalso
    apply h
    refine ⟨d, ?_⟩
    exact bfsDistAux_sound g a b (bfsFuel g) [(a, 0)] [] d
      (by
        intro e he
        simp only [List.mem_singleton] at he
        rw [he]
        exact reachesIn_self g a) hr

theorem distance_isSome {g : Graph} {a b : Nat} (h : Reaches g a b) :
    ∃ d, distance g a b = some d ∧ ReachesIn g a b d ∧ ∀ m, ReachesIn g a b m → d ≤ m := by
  obtain ⟨n, hn⟩ := h
  obtain ⟨d, hd, _⟩ := distance_le hn
  refine ⟨d, hd, distance_sound hd, ?_⟩
  intro m hm
  obtain ⟨d2, hd2, hdm2⟩ := distance_le hm
  rw [hd] at hd2
  rw [Option.some_inj.mp hd2]
  exact hdm2

/-- distance is symmetric on symmetric graphs (all generated shapes). -/
theorem distance_symm {g : Graph} (hs : Symm g) (a b : Nat) :
    distance g a b = distance g b a := by
  by_cases h : Reaches g a b
  · obtain ⟨d, hd, hre, hmin⟩ := distance_isSome h
    obtain ⟨d2, hd2, hre2, hmin2⟩ := distance_isSome (reaches_symm hs h)
    rw [hd, hd2]
    have h1 : d ≤ d2 := hmin d2 (reachesIn_symm hs hre2)
    have h2 : d2 ≤ d := hmin2 d (reachesIn_symm hs hre)
    rw [le_antisymm h1 h2]
  · rw [distance_unreachable h, distance_unreachable (fun hc => h (reaches_symm hs hc))]

/-- The two BFS functions agree: a reachable pair yields a path one longer
than the distance, an unreachable pair yields the sentinel and the empty
path. -/
theorem distance_getShortestPath (g : Graph) (a b : Nat) :
    (distance g a b = none ∧ getShortestPath g a b = []) ∨
    (∃ d, distance g a b = some d ∧ (getShortestPath g a b).length = d + 1 ∧
      TrailFrom g a b (getShortestPath g a b)) := by
  have hrel : QRel [(a, 0)] [(a, [a])] := ⟨rfl, rfl, trivial⟩
  rcases bfs_lockstep g b (bfsFuel g) [(a, 0)] [(a, [a])] [] hrel with h | h | h
  · obtain ⟨r, hr⟩ := bfsDistAux_total g a b
    rw [h.1] at hr
    exact Option.noConfusion hr
  · left
    constructor
    · unfold distance; rw [h.1]; rfl
    · unfold getShortestPath; rw [h.2]; rfl
  · right
    obtain ⟨d, p, hd, hp, hlen⟩ := h
    have hpne : p ≠ [] := by
      intro hc
      rw [hc] at hlen
      simp at hlen
    have hgp : getShortestPath g a b = p := by
      unfold getShortestPath; rw [hp]; rfl
    refine ⟨d, ?_, ?_, ?_⟩
    · unfold distance; rw [hd]; rfl
    · rw [hgp]; exact hlen
    · rw [hgp]
      exact bfsPathAux_sound g a b (bfsFuel g) [(a, [a])] [] p
        (by
          intro e he
          simp only [List.mem_singleton] at he
          rw [he]
          exact ⟨rfl, rfl, List.chain'_singleton a⟩) hp hpne

theorem reachesIn_zero_eq {g : Graph} {a b : Nat} (h : ReachesIn g a b 0) : a = b := by
  obtain ⟨ws, ⟨h1, h2, _⟩, hl⟩ := h
  obtain ⟨x, hx⟩ := List.length_eq_one.mp hl
  rw [hx] at h1 h2
  have ha : x = a := by simpa using h1
  have hb : x = b := by simpa using h2
  rw [← ha, ← hb]

theorem reachesIn_one_adj {g : Graph} {a b : Nat} (h : ReachesIn g a b 1) :
    isConnected g a b = true := by
  obtain ⟨ws, ⟨h1, h2, h3⟩, hl⟩ := h
  match ws, hl with
  | [x, y], _ =>
    have hxa : x = a := by simpa using h1
    have hyb : y = b := by simpa using h2
    have := List.chain'_pair.mp h3
    rw [← hxa, ← hyb]
    exact this

/-- On a loop-free graph an edge means distance exactly one. -/
theorem distance_adj {g : Graph} (hi : Irr g) {a b : Nat}
    (h : isConnected g a b = true) : distance g a b = some 1 := by
  have hne : a ≠ b := by
    intro hc
    rw [hc, hi b] at h
    exact Bool.noConfusion h
  obtain ⟨d, hd, hre, hmin⟩ := distance_isSome ⟨1, reachesIn_adj g h⟩
  have hd1 : d ≤ 1 := hmin 1 (reachesIn_adj g h)
  match d, hd1 with
  | 0, _ => exact absurd (reachesIn_zero_eq hre) hne
  | 1, _ => exact hd

/-- An unconnected distinct pair is at distance at least two (when the
distance is finite at all). -/
theorem distance_ge_two {g : Graph} {a b d : Nat} (hd : distance g a b = some d)
    (hne : isConnected g a b = false) (hab : a ≠ b) : 2 ≤ d := by
  match d with
  | 0 => exact absurd (reachesIn_zero_eq (distance_sound hd)) hab
  | 1 =>
    exfalso
    have := reachesIn_one_adj (distance_sound hd)
    rw [hne] at this
    exact Bool.noConfusion this
  | (k + 2) => omega

/-- Trail concatenation. -/
theorem reachesIn_trans {g : Graph} :
    ∀ (k : Nat) {b c : Nat}, ∀ {a m : Nat}, ReachesIn g a b m → ReachesIn g b c k →
      ReachesIn g a c (m + k) := by
  intro k
  induction k with
  | zero =>
    intro b c a m h1 h2
    rw [reachesIn_zero_eq h2] at h1
    exact h1
  | succ k ih =>
    intro b c a m h1 h2
    obtain ⟨ws, ⟨hh, hl, hch⟩, hlen⟩ := h2
    match ws, hlen with
    | x :: w1 :: rest, hlen =>
      have hxb : x = b := by simpa using hh
      have hadj : isConnected g x w1 = true := (List.chain'_cons.mp hch).1
      have h2b : ReachesIn g w1 c k := by
        refine ⟨w1 :: rest, ⟨rfl, ?_, (List.chain'_cons.mp hch).2⟩, by simpa using hlen⟩
        rw [← hl, List.getLast?_cons_cons]
      have h1b : ReachesIn g a w1 (m + 1) := reachesIn_snoc g h1 (hxb ▸ hadj)
      have := ih h1b h2b
      have harith : m + 1 + k = m + (k + 1) := by omega
      rw [← harith]
      exact this

theorem reaches_trans {g : Graph} {a b c : Nat}
    (h1 : Reaches g a b) (h2 : Reaches g b c) : Reaches g a c := by
  obtain ⟨m, hm⟩ := h1
  obtain ⟨k, hk⟩ := h2
  exact ⟨m + k, reachesIn_trans k hm hk⟩

/-! ## The three generated shapes: symmetric, loop-free, closed, connected -/

theorem adjList_rangeMap {n : Nat} {f : Nat → List Nat} {i : Nat} :
    adjList ((List.range n).map f) i = if i < n then f i else [] := by
  unfold adjList
  by_cases h : i < n
  · rw [if_pos h, List.getD_eq_getElem?_getD, List.getElem?_eq_getElem (by simpa using h)]
    simp
  · rw [if_neg h, List.getD_eq_getElem?_getD, List.getElem?_eq_none (by simpa using h)]
    rfl

theorem buildGraph_lnn (p : TopoParams) :
    buildGraph ("lnn") p = lnnG (jsOr p.qubits 5) := rfl

theorem buildGraph_grid (p : TopoParams) :
    buildGraph ("grid2d") p = gridG (jsOr p.rows 3) (jsOr p.cols 3) := rfl

theorem buildGraph_star (p : TopoParams) :
    buildGraph ("star") p = starG (jsOr p.qubits 5) := rfl

theorem lnnG_length (n : Nat) : (lnnG n).length = n := by simp [lnnG]

theorem gridG_length (rows cols : Nat) : (gridG rows cols).length = rows * cols := by
  simp [gridG]

theorem starG_length (n : Nat) : (starG n).length = n - 1 + 1 := by simp [starG]

theorem lnnG_mem {n a b : Nat} :
    b ∈ adjList (lnnG n) a ↔
      a < n ∧ ((0 < a ∧ b = a - 1) ∨ (a < n - 1 ∧ b = a + 1)) := by
  unfold lnnG
  rw [adjList_rangeMap]
  by_cases h : a < n
  · rw [if_pos h]
    by_cases h1 : 0 < a <;> by_cases h2 : a < n - 1 <;> simp [h, h1, h2]
  · rw [if_neg h]
    simp [h]

theorem lnnG_symm (n : Nat) : Symm (lnnG n) := by
  intro a b h
  have hm := lnnG_mem.mp (mem_adjList_of_isConnected h)
  apply isConnected_of_mem_adjList
  apply lnnG_mem.mpr
  obtain ⟨ha, hcase⟩ := hm
  rcases hcase with ⟨h1, hb⟩ | ⟨h2, hb⟩
  · exact ⟨by omega, Or.inr ⟨by omega, by omega⟩⟩
  · exact ⟨by omega, Or.inl ⟨by omega, by omega⟩⟩

theorem lnnG_irr (n : Nat) : Irr (lnnG n) := by
  intro a
  cases hc : isConnected (lnnG n) a a with
  | false => rfl
  | true =>
    exfalso
    have hm := lnnG_mem.mp (mem_adjList_of_isConnected hc)
    omega

theorem lnnG_closed (n : Nat) : Closed (lnnG n) := by
  intro a b hb
  have hm := lnnG_mem.mp hb
  rw [lnnG_length]
  omega

theorem lnnG_reach {n a b : Nat} (ha : a < n) (hb : b < n) : Reaches (lnnG n) a b := by
  have hstep : ∀ k x, x + k < n → Reaches (lnnG n) x (x + k) := by
    intro k
    induction k with
    | zero => intro x _; exact ⟨0, reachesIn_self _ x⟩
    | succ k ih =>
      intro x hx
      obtain ⟨m, hm⟩ := ih x (by omega)
      refine ⟨m + 1, reachesIn_snoc _ hm ?_⟩
      apply isConnected_of_mem_adjList
      apply lnnG_mem.mpr
      exact ⟨by omega, Or.inr ⟨by omega, by omega⟩⟩
  rcases Nat.le_total a b with hab | hab
  · have := hstep (b - a) a (by omega)
    have heq : a + (b - a) = b := by omega
    rw [heq] at this
    exact this
  · have := hstep (a - b) b (by omega)
    have heq : b + (a - b) = a := by omega
    rw [heq] at this
    exact reaches_symm (lnnG_symm n) this

theorem starG_adjList_zero (n : Nat) :
    adjList (starG n) 0 = (List.range (n - 1)).map (· + 1) := rfl

theorem starG_adjList_succ (n i : Nat) :
    adjList (starG n) (i + 1) = if i < n - 1 then [0] else [] := by
  unfold starG adjList
  simp only [List.getD_eq_getElem?_getD, List.getElem?_cons_succ]
  by_cases h : i < n - 1
  · rw [if_pos h]
    rw [List.getElem?_eq_getElem (by simpa using h)]
    simp
  · rw [if_neg h]
    rw [List.getElem?_eq_none (by simpa using h)]
    rfl

theorem starG_mem {n a b : Nat} :
    b ∈ adjList (starG n) a ↔
      (a = 0 ∧ 0 < b ∧ b < n) ∨ (0 < a ∧ a < n ∧ b = 0) := by
  match a with
  | 0 =>
    rw [starG_adjList_zero]
    simp only [List.mem_map, List.mem_range]
    constructor
    · rintro ⟨x, hx, hxb⟩
      exact Or.inl ⟨by trivial, by omega⟩
    · rintro (⟨_, hb1, hb2⟩ | ⟨h0, _, _⟩)
      · exact ⟨b - 1, by omega, by omega⟩
      · omega
  | a + 1 =>
    rw [starG_adjList_succ]
    by_cases h : a < n - 1
    · rw [if_pos h]
      simp only [List.mem_singleton]
      constructor
      · intro hb
        exact Or.inr ⟨by omega, by omega, hb⟩
      · rintro (⟨hc, _, _⟩ | ⟨_, _, hb⟩)
        · exact absurd hc (by omega)
        · exact hb
    · rw [if_neg h]
      simp only [List.not_mem_nil, false_iff]
      rintro (⟨hc, _, _⟩ | ⟨_, hc, _⟩)
      · exact absurd hc (by omega)
      · omega

theorem starG_symm (n : Nat) : Symm (starG n) := by
  intro a b h
  have hm := starG_mem.mp (mem_adjList_of_isConnected h)
  apply isConnected_of_mem_adjList
  apply starG_mem.mpr
  rcases hm with ⟨ha, hb1, hb2⟩ | ⟨ha1, ha2, hb⟩
  · exact Or.inr ⟨hb1, hb2, ha⟩
  · exact Or.inl ⟨hb, ha1, ha2⟩

theorem starG_irr (n : Nat) : Irr (starG n) := by
  intro a
  cases hc : isConnected (starG n) a a with
  | false => rfl
  | true =>
    exfalso
    have hm := starG_mem.mp (mem_adjList_of_isConnected hc)
    omega

theorem starG_closed (n : Nat) : Closed (starG n) := by
  intro a b hb
  have hm := starG_mem.mp hb
  rw [starG_length]
  omega

theorem starG_reach {n a b : Nat} (hn : 1 ≤ n) (ha : a < n) (hb : b < n) :
    Reaches (starG n) a b := by
  have hz : ∀ x, 0 < x → x < n → Reaches (starG n) 0 x := by
    intro x hx1 hx2
    exact ⟨1, reachesIn_adj _ (isConnected_of_mem_adjList
      (starG_mem.mpr (Or.inl ⟨rfl, hx1, hx2⟩)))⟩
  match a, b with
  | 0, 0 => exact ⟨0, reachesIn_self _ 0⟩
  | 0, b + 1 => exact hz (b + 1) (by omega) hb
  | a + 1, 0 => exact reaches_symm (starG_symm n) (hz (a + 1) (by omega) ha)
  | a + 1, b + 1 =>
    exact reaches_trans (reaches_symm (starG_symm n) (hz (a + 1) (by omega) ha))
      (hz (b + 1) (by omega) hb)

theorem gridG_mem {rows cols r c b : Nat} (hr : r < rows) (hc : c < cols) :
    b ∈ adjList (gridG rows cols) (r * cols + c) ↔
      ((0 < c ∧ b = r * cols + c - 1) ∨ (c < cols - 1 ∧ b = r * cols + c + 1) ∨
        (0 < r ∧ b = r * cols + c - cols) ∨ (r < rows - 1 ∧ b = r * cols + c + cols)) := by
  unfold gridG
  rw [adjList_rangeMap]
  have hlt : r * cols + c < rows * cols := by
    have h1 : r * cols + c < (r + 1) * cols := by
      rw [Nat.add_mul, Nat.one_mul]
      omega
    have h2 : (r + 1) * cols ≤ rows * cols := Nat.mul_le_mul_right cols (by omega)
    omega
  rw [if_pos hlt]
  have hdiv : (r * cols + c) / cols = r := by
    rw [Nat.add_comm, Nat.mul_comm, Nat.add_mul_div_left c r (by omega : 0 < cols),
      Nat.div_eq_of_lt hc, Nat.zero_add]
  have hmod : (r * cols + c) % cols = c := by
    rw [Nat.add_comm, Nat.mul_comm, Nat.add_mul_mod_self_left, Nat.mod_eq_of_lt hc]
  simp only [hdiv, hmod]
  by_cases h1 : 0 < c <;> by_cases h2 : c < cols - 1 <;>
    by_cases h3 : 0 < r <;> by_cases h4 : r < rows - 1 <;>
      simp [h1, h2, h3, h4]

theorem grid_decomp {rows cols a : Nat} (h : a < rows * cols) :
    ∃ r c, r < rows ∧ c < cols ∧ a = r * cols + c := by
  have hcols : 0 < cols := by
    by_contra hz
    have : cols = 0 := by omega
    rw [this, Nat.mul_zero] at h
    omega
  refine ⟨a / cols, a % cols, ?_, Nat.mod_lt a hcols, ?_⟩
  · rw [Nat.div_lt_iff_lt_mul hcols]
    have : rows * cols = cols * rows := Nat.mul_comm rows cols
    omega
  · have := Nat.div_add_mod a cols
    have hmc : cols * (a / cols) = (a / cols) * cols := Nat.mul_comm _ _
    omega

theorem gridG_symm (rows cols : Nat) : Symm (gridG rows cols) := by
  intro a b h
  have hm := mem_adjList_of_isConnected h
  have ha : a < rows * cols := by
    by_contra hout
    rw [show adjList (gridG rows cols) a = [] from ?_] at hm
    · cases hm
    · unfold gridG
      rw [adjList_rangeMap, if_neg hout]
  obtain ⟨r, c, hr, hc, hrc⟩ := grid_decomp ha
  rw [hrc] at hm
  rw [gridG_mem hr hc] at hm
  apply isConnected_of_mem_adjList
  rcases hm with ⟨h1, hb⟩ | ⟨h2, hb⟩ | ⟨h3, hb⟩ | ⟨h4, hb⟩
  · have hb2 : b = r * cols + (c - 1) := by omega
    rw [hb2, hrc]
    rw [gridG_mem hr (by omega : c - 1 < cols)]
    refine Or.inr (Or.inl ⟨by omega, by omega⟩)
  · have hb2 : b = r * cols + (c + 1) := by omega
    rw [hb2, hrc]
    rw [gridG_mem hr (by omega : c + 1 < cols)]
    exact Or.inl ⟨by omega, by omega⟩
  · obtain ⟨r0, hr0⟩ : ∃ r0, r = r0 + 1 := ⟨r - 1, by omega⟩
    have hb2 : b = r0 * cols + c := by
      rw [hr0] at hb
      rw [hb]
      rw [Nat.add_mul, Nat.one_mul]
      omega
    rw [hb2, hrc]
    rw [gridG_mem (by omega : r0 < rows) hc]
    refine Or.inr (Or.inr (Or.inr ⟨by omega, ?_⟩))
    rw [hr0, Nat.add_mul, Nat.one_mul]
    omega
  · have hb2 : b = (r + 1) * cols + c := by
      rw [hb, Nat.add_mul, Nat.one_mul]
      omega
    rw [hb2, hrc]
    rw [gridG_mem (by omega : r + 1 < rows) hc]
    refine Or.inr (Or.inr (Or.inl ⟨by omega, ?_⟩))
    rw [Nat.add_mul, Nat.one_mul]
    omega

theorem gridG_irr (rows cols : Nat) : Irr (gridG rows cols) := by
  intro a
  cases hcon : isConnected (gridG rows cols) a a with
  | false => rfl
  | true =>
    exfalso
    have hm := mem_adjList_of_isConnected hcon
    have ha : a < rows * cols := by
      by_contra hout
      rw [show adjList (gridG rows cols) a = [] from ?_] at hm
      · cases hm
      · unfold gridG
        rw [adjList_rangeMap, if_neg hout]
    obtain ⟨r, c, hr, hc, hrc⟩ := grid_decomp ha
    rw [hrc, gridG_mem hr hc] at hm
    have hcpos : 0 < cols := by omega
    have hge : 0 < r → cols ≤ r * cols := by
      intro hrp
      calc cols = 1 * cols := (Nat.one_mul cols).symm
      _ ≤ r * cols := Nat.mul_le_mul_right cols hrp
    rcases hm with ⟨h1, hb⟩ | ⟨h2, hb⟩ | ⟨h3, hb⟩ | ⟨h4, hb⟩
    · omega
    · omega
    · have := hge h3
      omega
    · omega

theorem gridG_closed (rows cols : Nat) : Closed (gridG rows cols) := by
  intro a b hb
  rw [gridG_length]
  have ha : a < rows * cols := by
    by_contra hout
    rw [show adjList (gridG rows cols) a = [] from ?_] at hb
    · cases hb
    · unfold gridG
      rw [adjList_rangeMap, if_neg hout]
  obtain ⟨r, c, hr, hc, hrc⟩ := grid_decomp ha
  rw [hrc, gridG_mem hr hc] at hb
  rcases hb with ⟨h1, hb⟩ | ⟨h2, hb⟩ | ⟨h3, hb⟩ | ⟨h4, hb⟩
  · omega
  · have h5 : (r + 1) * cols ≤ rows * cols := Nat.mul_le_mul_right cols (by omega)
    rw [Nat.add_mul, Nat.one_mul] at h5
    omega
  · omega
  · have h5 : (r + 2) * cols ≤ rows * cols := Nat.mul_le_mul_right cols (by omega)
    rw [Nat.add_mul] at h5
    have h6 : 2 * cols = cols + cols := by omega
    rw [h6] at h5
    omega

theorem gridG_reach {rows cols a b : Nat} (ha : a < rows * cols) (hb : b < rows * cols) :
    Reaches (gridG rows cols) a b := by
  obtain ⟨r1, c1, hr1, hc1, hrc1⟩ := grid_decomp ha
  obtain ⟨r2, c2, hr2, hc2, hrc2⟩ := grid_decomp hb
  have hrow : ∀ r, r < rows → ∀ c k, c + k < cols →
      Reaches (gridG rows cols) (r * cols + c) (r * cols + (c + k)) := by
    intro r hr c k
    induction k with
    | zero => intro _; exact ⟨0, reachesIn_self _ _⟩
    | succ k ih =>
      intro hk
      obtain ⟨m, hm⟩ := ih (by omega)
      refine ⟨m + 1, reachesIn_snoc _ hm ?_⟩
      apply isConnected_of_mem_adjList
      rw [gridG_mem hr (by omega : c + k < cols)]
      refine Or.inr (Or.inl ⟨by omega, by omega⟩)
  have hcol : ∀ c, c < cols → ∀ r k, r + k < rows →
      Reaches (gridG rows cols) (r * cols + c) ((r + k) * cols + c) := by
    intro c hc r k
    induction k with
    | zero => intro _; exact ⟨0, reachesIn_self _ _⟩
    | succ k ih =>
      intro hk
      obtain ⟨m, hm⟩ := ih (by omega)
      refine ⟨m + 1, reachesIn_snoc _ hm ?_⟩
      apply isConnected_of_mem_adjList
      rw [gridG_mem (by omega : r + k < rows) hc]
      refine Or.inr (Or.inr (Or.inr ⟨by omega, ?_⟩))
      ring
  have hrowAny : ∀ r, r < rows → ∀ c c2b, c < cols → c2b < cols →
      Reaches (gridG rows cols) (r * cols + c) (r * cols + c2b) := by
    intro r hr c c2b hc hc2
    rcases Nat.le_total c c2b with hle | hle
    · have := hrow r hr c (c2b - c) (by omega)
      rw [show c + (c2b - c) = c2b by omega] at this
      exact this
    · have := hrow r hr c2b (c - c2b) (by omega)
      rw [show c2b + (c - c2b) = c by omega] at this
      exact reaches_symm (gridG_symm rows cols) this
  have hcolAny : ∀ c, c < cols → ∀ r r2b, r < rows → r2b < rows →
      Reaches (gridG rows cols) (r * cols + c) (r2b * cols + c) := by
    intro c hc r r2b hrr hr2
    rcases Nat.le_total r r2b with hle | hle
    · have := hcol c hc r (r2b - r) (by omega)
      rw [show r + (r2b - r) = r2b by omega] at this
      exact this
    · have := hcol c hc r2b (r - r2b) (by omega)
      rw [show r2b + (r - r2b) = r by omega] at this
      exact reaches_symm (gridG_symm rows cols) this
  rw [hrc1, hrc2]
  exact reaches_trans (hrowAny r1 hr1 c1 c2 hc1 hc2) (hcolAny c2 hc2 r1 r2 hr1 hr2)

/-! ## The bundled shape facts used by the mapper proofs -/

theorem empty_isConnected (a b : Nat) : isConnected ([] : Graph) a b = false := rfl

theorem empty_symm : Symm ([] : Graph) := by
  intro a b h
  exact absurd h (by rw [empty_isConnected]; simp)

theorem empty_irr : Irr ([] : Graph) := fun a => rfl

theorem empty_closed : Closed ([] : Graph) := by
  intro a b hb
  exact absurd hb (by simp [adjList])

/-- Every HardwareTopology adjacency, whatever the tag, is symmetric. -/
theorem buildGraph_symm (type : String) (p : TopoParams) : Symm (buildGraph type p) := by
  unfold buildGraph
  split_ifs with h1 h2 h3
  · exact lnnG_symm _
  · exact gridG_symm _ _
  · exact starG_symm _
  · exact empty_symm

/-- Every HardwareTopology adjacency is loop-free. -/
theorem buildGraph_irr (type : String) (p : TopoParams) : Irr (buildGraph type p) := by
  unfold buildGraph
  split_ifs with h1 h2 h3
  · exact lnnG_irr _
  · exact gridG_irr _ _
  · exact starG_irr _
  · exact empty_irr

/-- Every HardwareTopology adjacency only mentions device qubits. -/
theorem buildGraph_closed (type : String) (p : TopoParams) : Closed (buildGraph type p) := by
  unfold buildGraph
  split_ifs with h1 h2 h3
  · exact lnnG_closed _
  · exact gridG_closed _ _
  · exact starG_closed _
  · exact empty_closed

theorem jsOr_pos (v : Option Nat) (d : Nat) (hd : 0 < d) : 0 < jsOr v d := by
  match v with
  | none => simpa [jsOr] using hd
  | some 0 => simpa [jsOr] using hd
  | some (k + 1) => simp [jsOr]

/-- The three recognized shapes are connected devices. -/
theorem buildGraph_reach (type : String) (p : TopoParams)
    (h : type = "lnn" ∨ type = "grid2d" ∨ type = "star") :
    ∀ a b, a < (buildGraph type p).length → b < (buildGraph type p).length →
      Reaches (buildGraph type p) a b := by
  rcases h with h | h | h
  · subst h
    rw [buildGraph_lnn]
    intro a b ha hb
    rw [lnnG_length] at ha hb
    exact lnnG_reach ha hb
  · subst h
    rw [buildGraph_grid]
    intro a b ha hb
    rw [gridG_length] at ha hb
    exact gridG_reach ha hb
  · subst h
    rw [buildGraph_star]
    intro a b ha hb
    rw [starG_length] at ha hb
    have hn : 0 < jsOr p.qubits 5 := jsOr_pos p.qubits 5 (by omega)
    exact starG_reach (by omega) (by omega) (by omega)

theorem transpose2_invol (p q x : Nat) : transpose2 p q (transpose2 p q x) = x := by
  unfold transpose2
  by_cases hp : x = p <;> by_cases hq : x = q <;> split_ifs <;> simp_all

theorem transpose2_inj (p q : Nat) : Function.Injective (transpose2 p q) := by
  intro a b hab
  rw [← transpose2_invol p q a, hab, transpose2_invol]

theorem transpose2_lt {n p q x : Nat} (hp : p < n) (hq : q < n) (hx : x < n) :
    transpose2 p q x < n := by
  unfold transpose2
  split_ifs <;> omega

theorem rangeMap_transpose_perm {n q1 q2 : Nat} (h1 : q1 < n) (h2 : q2 < n) :
    ((List.range n).map (transpose2 q1 q2)).Perm (List.range n) := by
  rw [List.perm_iff_count]
  intro x
  have hcm := List.count_map_of_injective (List.range n) (transpose2 q1 q2)
    (transpose2_inj q1 q2) (transpose2 q1 q2 x)
  rw [transpose2_invol] at hcm
  rw [hcm]
  by_cases hx : x < n
  · have hy : transpose2 q1 q2 x < n := transpose2_lt h1 h2 hx
    rw [List.count_eq_one_of_mem (List.nodup_range n) (List.mem_range.mpr hy),
      List.count_eq_one_of_mem (List.nodup_range n) (List.mem_range.mpr hx)]
  · have hy : ¬ transpose2 q1 q2 x < n := by
      unfold transpose2
      split_ifs <;> omega
    rw [List.count_eq_zero_of_not_mem (fun hc => hy (List.mem_range.mp hc)),
      List.count_eq_zero_of_not_mem (fun hc => hx (List.mem_range.mp hc))]

theorem swapAtValues_fst {layout : List Nat} {q1 q2 : Nat} (hnd : layout.Nodup)
    (h1 : q1 ∈ layout) (h2 : q2 ∈ layout) :
    (swapAtValues layout q1 q2).1 = layout.map (transpose2 q1 q2) := by
  unfold swapAtValues
  simp only []
  have hi : layout.indexOf q1 < layout.length := List.indexOf_lt_length.mpr h1
  have hj : layout.indexOf q2 < layout.length := List.indexOf_lt_length.mpr h2
  have hvi : layout[layout.indexOf q1] = q1 := List.getElem_indexOf hi
  have hvj : layout[layout.indexOf q2] = q2 := List.getElem_indexOf hj
  have hgi : layout.getD (layout.indexOf q1) 0 = q1 := by
    rw [List.getD_eq_getElem?_getD, List.getElem?_eq_getElem hi, hvi]
    rfl
  have hgj : layout.getD (layout.indexOf q2) 0 = q2 := by
    rw [List.getD_eq_getElem?_getD, List.getElem?_eq_getElem hj, hvj]
    rfl
  rw [hgi, hgj]
  apply List.ext_getElem
  · simp
  · intro m hm1 hm2
    simp only [List.getElem_map]
    by_cases hmj : m = layout.indexOf q2
    · subst hmj
      rw [List.getElem_set_self (by simpa using hj)]
      rw [hvj]
      unfold transpose2
      by_cases hq12 : q2 = q1
      · rw [if_pos hq12, hq12]
      · rw [if_neg hq12, if_pos rfl]
    · rw [List.getElem_set_ne (fun hc => hmj hc.symm)]
      by_cases hmi : m = layout.indexOf q1
      · subst hmi
        rw [List.getElem_set_self (by simpa using hi)]
        rw [hvi]
        unfold transpose2
        rw [if_pos rfl]
      · rw [List.getElem_set_ne (fun hc => hmi hc.symm)]
        have hm : m < layout.length := by simpa using hm2
        have hne1 : layout[m] ≠ q1 := by
          intro hc
          apply hmi
          have : layout.get ⟨m, hm⟩ = layout.get ⟨layout.indexOf q1, hi⟩ := by
            simp only [List.get_eq_getElem]
            rw [hc, hvi]
          have := (hnd.get_inj_iff.mp this)
          simpa using congrArg Fin.val this
        have hne2 : layout[m] ≠ q2 := by
          intro hc
          apply hmj
          have : layout.get ⟨m, hm⟩ = layout.get ⟨layout.indexOf q2, hj⟩ := by
            simp only [List.get_eq_getElem]
            rw [hc, hvj]
          have := (hnd.get_inj_iff.mp this)
          simpa using congrArg Fin.val this
        unfold transpose2
        rw [if_neg hne1, if_neg hne2]

theorem swapAtValues_perm {n : Nat} {layout : List Nat}
    (hperm : layout.Perm (List.range n)) {q1 q2 : Nat} (h1 : q1 < n) (h2 : q2 < n) :
    ((swapAtValues layout q1 q2).1).Perm (List.range n) := by
  have hnd : layout.Nodup := hperm.nodup_iff.mpr (List.nodup_range n)
  have hm1 : q1 ∈ layout := hperm.mem_iff.mpr (List.mem_range.mpr h1)
  have hm2 : q2 ∈ layout := hperm.mem_iff.mpr (List.mem_range.mpr h2)
  rw [swapAtValues_fst hnd hm1 hm2]
  exact (hperm.map (transpose2 q1 q2)).trans (rangeMap_transpose_perm h1 h2)

theorem stOk_init (n : Nat) : StOk n (initSt n) :=
  ⟨List.Perm.refl _, rfl, rfl, rfl, rfl, rfl, rfl⟩

theorem layoutChainB_append (init : List Nat) :
    ∀ (steps : List Step) (s : Step),
      layoutChainB init (steps ++ [s])
        = (layoutChainB init steps && stepFollowsB (lastLayout init steps) s) := by
  intro steps
  induction steps generalizing init with
  | nil =>
    intro s
    simp [layoutChainB, lastLayout, stepFollowsB]
  | cons x xs ih =>
    intro s
    simp only [List.cons_append, layoutChainB, List.append_eq]
    rw [ih x.layout s]
    have hlast : lastLayout init (x :: xs) = lastLayout x.layout xs := by
      unfold lastLayout
      cases xs with
      | nil => rfl
      | cons y ys => rw [List.getLast?_cons_cons]; rfl
    rw [hlast, Bool.and_assoc]

theorem lastLayout_append (init : List Nat) (steps : List Step) (s : Step) :
    lastLayout init (steps ++ [s]) = s.layout := by
  unfold lastLayout
  rw [List.getLast?_append]
  rfl

theorem perm_entry_lt {n : Nat} {layout : List Nat} (hperm : layout.Perm (List.range n))
    {i : Nat} (hi : i < n) : layout.getD i 0 < n ∧ layout.getD i 0 ∈ layout := by
  have hlen : layout.length = n := by
    have := hperm.length_eq
    simpa using this
  have hmem : layout.getD i 0 ∈ layout := by
    rw [List.getD_eq_getElem?_getD, List.getElem?_eq_getElem (by omega)]
    exact List.getElem_mem _
  exact ⟨List.mem_range.mp (hperm.mem_iff.mp hmem), hmem⟩

/-- Appending a Native step keeps the invariant. -/
theorem stOk_emitNative {n : Nat} {st : MapSt} (h : StOk n st) (gate : Gate) :
    StOk n (emitNative st gate) := by
  obtain ⟨hperm, hdep, hsw, hdepths, hchain, hlast, hins⟩ := h
  unfold emitNative
  refine ⟨hperm, ?_, ?_, ?_, ?_, ?_, ?_⟩
  · simp [hdep]
  · simp only [List.filter_append]
    rw [hsw]
    simp [Step.isSwap]
  · simp only [List.map_append, List.length_append]
    rw [hdepths, hdep]
    simp [Step.depth, List.range_succ]
  · rw [layoutChainB_append, hchain, hlast]
    simp [stepFollowsB]
  · rw [lastLayout_append]
    rfl
  · simp only [List.all_append]
    rw [hins]
    simp [Step.inserted, Step.isSwap]

/-- Appending a Swap step (the common push of the three inner loops) keeps
the invariant when both physical ids are device qubits. -/
theorem stOk_swapStep {n : Nat} {st : MapSt} (h : StOk n st) {q1 q2 : Nat}
    (h1 : q1 < n) (h2 : q2 < n) :
    StOk n
      { steps := st.steps ++ [.swap (q1, q2)
          ((swapAtValues st.layout q1 q2).2.1, (swapAtValues st.layout q1 q2).2.2)
          (swapAtValues st.layout q1 q2).1 true st.depth]
        layout := (swapAtValues st.layout q1 q2).1
        insertedSwaps := st.insertedSwaps + 1
        depth := st.depth + 1
        distancePenalty := st.distancePenalty } := by
  obtain ⟨hperm, hdep, hsw, hdepths, hchain, hlast, hins⟩ := h
  have hnd : st.layout.Nodup := hperm.nodup_iff.mpr (List.nodup_range n)
  have hm1 : q1 ∈ st.layout := hperm.mem_iff.mpr (List.mem_range.mpr h1)
  have hm2 : q2 ∈ st.layout := hperm.mem_iff.mpr (List.mem_range.mpr h2)
  refine ⟨swapAtValues_perm hperm h1 h2, ?_, ?_, ?_, ?_, ?_, ?_⟩
  · simp [hdep]
  · simp only [List.filter_append]
    rw [hsw]
    simp [Step.isSwap]
  · simp only [List.map_append, List.length_append]
    rw [hdepths, hdep]
    simp [Step.depth, List.range_succ]
  · rw [layoutChainB_append, hchain, hlast]
    simp only [stepFollowsB, Bool.true_and]
    rw [swapAtValues_fst hnd hm1 hm2]
    exact beq_self_eq_true _
  · rw [lastLayout_append]
    rfl
  · simp only [List.all_append]
    rw [hins]
    simp [Step.inserted, Step.isSwap]

/-- Adding the distance penalty does not touch the structural fields. -/
theorem stOk_addPenalty {n : Nat} {st : MapSt} (h : StOk n st) (g : Graph) (c t : Nat) :
    StOk n (addPenalty g st c t) := by
  obtain ⟨hperm, hdep, hsw, hdepths, hchain, hlast, hins⟩ := h
  exact ⟨hperm, hdep, hsw, hdepths, hchain, hlast, hins⟩

theorem getShortestPath_two {g : Graph} {a b : Nat}
    (h : 2 ≤ (getShortestPath g a b).length) :
    ∃ y rest, getShortestPath g a b = a :: y :: rest ∧ isConnected g a y = true := by
  rcases distance_getShortestPath g a b with ⟨_, hp⟩ | ⟨d, _, hlen, htr⟩
  · rw [hp] at h
    simp at h
  · obtain ⟨h1, h2, h3⟩ := htr
    cases hp : getShortestPath g a b with
    | nil => rw [hp] at h; simp at h
    | cons x q =>
      cases q with
      | nil => rw [hp] at h; simp at h
      | cons y rest =>
        rw [hp] at h1 h3
        have hxa : x = a := by simpa using h1
        refine ⟨y, rest, by rw [hxa], ?_⟩
        rw [← hxa]
        exact (List.chain'_cons.mp h3).1

theorem mem_getValidSwaps {g : Graph} {e : Nat × Nat} (h : e ∈ getValidSwaps g) :
    e.1 < g.length ∧ e.2 ∈ adjList g e.1 ∧ e.1 < e.2 := by
  unfold getValidSwaps at h
  rw [List.mem_flatten] at h
  obtain ⟨l, hl, hel⟩ := h
  rw [List.mem_map] at hl
  obtain ⟨q1, hq1, hq1l⟩ := hl
  rw [← hq1l] at hel
  rw [List.mem_filterMap] at hel
  obtain ⟨q2, hq2, hq2e⟩ := hel
  by_cases hlt : q1 < q2
  · rw [if_pos hlt] at hq2e
    have he : e = (q1, q2) := (Option.some_inj.mp hq2e).symm
    rw [he]
    exact ⟨List.mem_range.mp hq1, hq2, hlt⟩
  · rw [if_neg hlt] at hq2e
    exact Option.noConfusion hq2e

theorem findBestSwap_mem {g : Graph} {circuit : QuantumCircuit} {layout : List Nat}
    {gateIdx lookAhead : Nat} {e : Nat × Nat}
    (h : findBestSwap g circuit layout gateIdx lookAhead = some e) :
    e ∈ getValidSwaps g := by
  unfold findBestSwap at h
  have hgen : ∀ (l : List (Nat × Nat)) (init : Option (Nat × Nat) × Option Frac),
      (l.foldl (fun (best : Option (Nat × Nat) × Option Frac) f =>
        let testLayout := (swapAtValues layout f.1 f.2).1
        let score := swapScore g (getUpcomingInteractions circuit gateIdx lookAhead) testLayout
        if scoreLt best.2 score then (some f, score) else best) init).1 = some e →
      init.1 = some e ∨ e ∈ l := by
    intro l
    induction l with
    | nil => intro init hf; exact Or.inl hf
    | cons x xs ih =>
      intro init hf
      simp only [List.foldl_cons] at hf
      rcases ih _ hf with hx | hx
      · by_cases hc : scoreLt init.2 (swapScore g (getUpcomingInteractions circuit gateIdx lookAhead)
            (swapAtValues layout x.1 x.2).1) = true
        · rw [if_pos hc] at hx
          have : x = e := Option.some_inj.mp hx
          exact Or.inr (this ▸ List.mem_cons_self x xs)
        · rw [if_neg hc] at hx
          exact Or.inl hx
      · exact Or.inr (List.mem_cons_of_mem x hx)
  rcases hgen (getValidSwaps g) (none, none) h with hx | hx
  · exact Option.noConfusion hx
  · exact hx

/-! ## GreedyMapper: invariant propagation -/

theorem greedyLoop_stOk {g : Graph} {n c t : Nat} (hcl : Closed g) (hgl : g.length = n)
    (hc : c < n) (ht : t < n) :
    ∀ fuel (st st2 : MapSt), StOk n st →
      greedyLoop g c t st fuel = some st2 → StOk n st2 := by
  intro fuel
  induction fuel with
  | zero => intro st st2 hok hr; exact Option.noConfusion hr
  | succ f ih =>
    intro st st2 hok hr
    rw [greedyLoop] at hr
    by_cases hcon : isConnected g (st.layout.getD c 0) (st.layout.getD t 0) = true
    · rw [if_pos hcon] at hr
      rw [← Option.some_inj.mp hr]
      exact hok
    · rw [if_neg hcon] at hr
      by_cases hpl : (getShortestPath g (st.layout.getD c 0) (st.layout.getD t 0)).length < 2
      · rw [if_pos hpl] at hr
        rw [← Option.some_inj.mp hr]
        exact hok
      · rw [if_neg hpl] at hr
        obtain ⟨y, rest, hpeq, hadj⟩ := @getShortestPath_two g
          (st.layout.getD c 0) (st.layout.getD t 0) (by omega)
        have hphysC : st.layout.getD c 0 < n := (perm_entry_lt hok.perm hc).1
        have hy : y < n := by
          rw [← hgl]
          exact hcl _ y (mem_adjList_of_isConnected hadj)
        have hq1 : (getShortestPath g (st.layout.getD c 0) (st.layout.getD t 0)).getD 0 0
            = st.layout.getD c 0 := by rw [hpeq]; rfl
        have hq2 : (getShortestPath g (st.layout.getD c 0) (st.layout.getD t 0)).getD 1 0
            = y := by rw [hpeq]; rfl
        rw [hq1, hq2] at hr
        exact ih _ st2 (stOk_swapStep hok hphysC hy) hr

theorem greedyGate_stOk {g : Graph} {n : Nat} (hcl : Closed g) (hgl : g.length = n)
    {st st2 : MapSt} {gate : Gate} (hok : StOk n st)
    (hq : ∀ q ∈ gate.qubits, q < n)
    (h : greedyGate g st gate = some st2) : StOk n st2 := by
  unfold greedyGate at h
  by_cases h2 : gate.qubits.length == 2
  · rw [if_pos h2] at h
    simp only [] at h
    cases hl : greedyLoop g (gate.qubits.getD 0 0) (gate.qubits.getD 1 0) st (g.length + 1) with
    | none => rw [hl] at h; exact Option.noConfusion h
    | some st3 =>
      rw [hl] at h
      have hlen : gate.qubits.length = 2 := by simpa using h2
      have hc : gate.qubits.getD 0 0 < n := by
        apply hq
        rw [List.getD_eq_getElem?_getD, List.getElem?_eq_getElem (by omega)]
        exact List.getElem_mem _
      have ht : gate.qubits.getD 1 0 < n := by
        apply hq
        rw [List.getD_eq_getElem?_getD, List.getElem?_eq_getElem (by omega)]
        exact List.getElem_mem _
      have hok3 : StOk n st3 := greedyLoop_stOk hcl hgl hc ht _ st st3 hok hl
      rw [← Option.some_inj.mp h]
      exact stOk_emitNative (stOk_addPenalty hok3 g _ _) gate
  · rw [if_neg h2] at h
    rw [← Option.some_inj.mp h]
    exact stOk_emitNative hok gate

theorem greedyMapAux_stOk {g : Graph} {n : Nat} (hcl : Closed g) (hgl : g.length = n) :
    ∀ (gs : List Gate) (st st2 : MapSt), StOk n st →
      (∀ gate ∈ gs, ∀ q ∈ gate.qubits, q < n) →
      greedyMapAux g gs st = some st2 → StOk n st2 := by
  intro gs
  induction gs with
  | nil =>
    intro st st2 hok _ h
    rw [← Option.some_inj.mp h]
    exact hok
  | cons gate gs ih =>
    intro st st2 hok hq h
    unfold greedyMapAux at h
    cases hg : greedyGate g st gate with
    | none => rw [hg] at h; exact Option.noConfusion h
    | some st3 =>
      rw [hg] at h
      exact ih st3 st2 (greedyGate_stOk hcl hgl hok (hq gate (List.mem_cons_self _ _)) hg)
        (fun gate2 hg2 => hq gate2 (List.mem_cons_of_mem _ hg2)) h

/-! ## LookAheadMapper: invariant propagation -/

theorem lookAheadLoop_stOk {g : Graph} {circuit : QuantumCircuit}
    {n c t gateIdx lookAhead : Nat} (hcl : Closed g) (hgl : g.length = n) :
    ∀ fuel (st st2 : MapSt), StOk n st →
      lookAheadLoop g circuit c t gateIdx lookAhead st fuel = some st2 → StOk n st2 := by
  intro fuel
  induction fuel with
  | zero => intro st st2 hok hr; exact Option.noConfusion hr
  | succ f ih =>
    intro st st2 hok hr
    rw [lookAheadLoop] at hr
    by_cases hcon : isConnected g (st.layout.getD c 0) (st.layout.getD t 0) = true
    · rw [if_pos hcon] at hr
      rw [← Option.some_inj.mp hr]
      exact hok
    · rw [if_neg hcon] at hr
      cases hb : findBestSwap g circuit st.layout gateIdx lookAhead with
      | none =>
        rw [hb] at hr
        rw [← Option.some_inj.mp hr]
        exact hok
      | some e =>
        rw [hb] at hr
        obtain ⟨he1, he2, he3⟩ := mem_getValidSwaps (findBestSwap_mem hb)
        have hq1 : e.1 < n := by omega
        have hq2 : e.2 < n := by
          rw [← hgl]
          exact hcl e.1 e.2 he2
        cases e with
        | mk q1 q2 => exact ih _ st2 (stOk_swapStep hok hq1 hq2) hr

theorem lookAheadGate_stOk {g : Graph} {circuit : QuantumCircuit}
    {n lookAhead fuel : Nat} (hcl : Closed g) (hgl : g.length = n)
    {st st2 : MapSt} {gateIdx : Nat} {gate : Gate} (hok : StOk n st)
    (hq : ∀ q ∈ gate.qubits, q < n)
    (h : lookAheadGate g circuit lookAhead fuel st gateIdx gate = some st2) : StOk n st2 := by
  unfold lookAheadGate at h
  by_cases h2 : gate.qubits.length == 2
  · rw [if_pos h2] at h
    simp only [] at h
    cases hl : lookAheadLoop g circuit (gate.qubits.getD 0 0) (gate.qubits.getD 1 0)
        gateIdx lookAhead st fuel with
    | none => rw [hl] at h; exact Option.noConfusion h
    | some st3 =>
      rw [hl] at h
      have hok3 : StOk n st3 := lookAheadLoop_stOk hcl hgl fuel st st3 hok hl
      rw [← Option.some_inj.mp h]
      exact stOk_emitNative (stOk_addPenalty hok3 g _ _) gate
  · rw [if_neg h2] at h
    rw [← Option.some_inj.mp h]
    exact stOk_emitNative hok gate

theorem lookAheadMapAux_stOk {g : Graph} {circuit : QuantumCircuit}
    {n lookAhead fuel : Nat} (hcl : Closed g) (hgl : g.length = n) :
    ∀ (gs : List (Nat × Gate)) (st st2 : MapSt), StOk n st →
      (∀ p ∈ gs, ∀ q ∈ (Prod.snd p).qubits, q < n) →
      lookAheadMapAux g circuit lookAhead fuel gs st = some st2 → StOk n st2 := by
  intro gs
  induction gs with
  | nil =>
    intro st st2 hok _ h
    rw [← Option.some_inj.mp h]
    exact hok
  | cons p gs ih =>
    intro st st2 hok hq h
    obtain ⟨gateIdx, gate⟩ := p
    unfold lookAheadMapAux at h
    cases hg : lookAheadGate g circuit lookAhead fuel st gateIdx gate with
    | none => rw [hg] at h; exact Option.noConfusion h
    | some st3 =>
      rw [hg] at h
      exact ih st3 st2
        (lookAheadGate_stOk hcl hgl hok (hq (gateIdx, gate) (List.mem_cons_self _ _)) hg)
        (fun p2 hp2 => hq p2 (List.mem_cons_of_mem _ hp2)) h

/-! ## Genetic replay: invariant propagation -/

theorem applyChromosomeLoop_stOk {g : Graph} {chromosome : Chromosome} {n c t : Nat}
    (hgl : g.length = n) :
    ∀ (fuel : Nat) (st : MapSt) (swapIndex : Nat) (st2 : MapSt) (si2 : Nat), StOk n st →
      applyChromosomeLoop g chromosome c t fuel st swapIndex = .ok (st2, si2) → StOk n st2 := by
  intro fuel
  induction fuel with
  | zero =>
    intro st swapIndex st2 si2 hok hr
    have heq := Except.ok.inj hr
    have hst : st = st2 := congrArg Prod.fst heq
    rw [← hst]
    exact hok
  | succ fuel ih =>
    intro st swapIndex st2 si2 hok hr
    rw [applyChromosomeLoop] at hr
    by_cases hg : isConnected g (st.layout.getD c 0) (st.layout.getD t 0) = false ∧
        swapIndex < chromosome.length
    · rw [if_pos hg] at hr
      cases hget : chromosome.getD swapIndex none with
      | none =>
        rw [hget] at hr
        exact Except.noConfusion hr
      | some p =>
        obtain ⟨swapQ1, swapQ2⟩ := p
        rw [hget] at hr
        replace hr : (if (st.layout.contains swapQ1 && st.layout.contains swapQ2) = true then
            applyChromosomeLoop g chromosome c t fuel
              { steps := st.steps ++ [Step.swap (swapQ1, swapQ2)
                  ((swapAtValues st.layout swapQ1 swapQ2).2.1,
                    (swapAtValues st.layout swapQ1 swapQ2).2.2)
                  (swapAtValues st.layout swapQ1 swapQ2).1 true st.depth]
                layout := (swapAtValues st.layout swapQ1 swapQ2).1
                insertedSwaps := st.insertedSwaps + 1
                depth := st.depth + 1
                distancePenalty := st.distancePenalty } (swapIndex + 1)
          else applyChromosomeLoop g chromosome c t fuel st (swapIndex + 1))
            = Except.ok (st2, si2) := hr
        by_cases hcont : (st.layout.contains swapQ1 && st.layout.contains swapQ2) = true
        · rw [if_pos hcont] at hr
          have hcand := hcont
          rw [Bool.and_eq_true] at hcand
          have hm1 : swapQ1 ∈ st.layout := List.mem_of_elem_eq_true hcand.1
          have hm2 : swapQ2 ∈ st.layout := List.mem_of_elem_eq_true hcand.2
          have hq1 : swapQ1 < n := List.mem_range.mp (hok.perm.mem_iff.mp hm1)
          have hq2 : swapQ2 < n := List.mem_range.mp (hok.perm.mem_iff.mp hm2)
          exact ih _ (swapIndex + 1) st2 si2 (stOk_swapStep hok hq1 hq2) hr
        · rw [if_neg hcont] at hr
          exact ih st (swapIndex + 1) st2 si2 hok hr
    · rw [if_neg hg] at hr
      have heq := Except.ok.inj hr
      have hst : st = st2 := congrArg Prod.fst heq
      rw [← hst]
      exact hok

theorem applyChromosomeAux_stOk {g : Graph} {chromosome : Chromosome} {n : Nat}
    (hgl : g.length = n) :
    ∀ (gs : List Gate) (st : MapSt) (si : Nat) (st2 : MapSt) (si2 : Nat), StOk n st →
      applyChromosomeAux g chromosome gs (st, si) = .ok (st2, si2) → StOk n st2 := by
  intro gs
  induction gs with
  | nil =>
    intro st si st2 si2 hok h
    have heq := Except.ok.inj h
    have hst : st = st2 := congrArg Prod.fst heq
    rw [← hst]
    exact hok
  | cons gate gs ih =>
    intro st si st2 si2 hok h
    unfold applyChromosomeAux at h
    by_cases h2 : gate.qubits.length == 2
    · rw [if_pos h2] at h
      simp only [] at h
      cases hl : applyChromosomeLoop g chromosome (gate.qubits.getD 0 0)
          (gate.qubits.getD 1 0) (chromosome.length - si) st si with
      | error e => rw [hl] at h; exact Except.noConfusion h
      | ok p =>
        obtain ⟨st3, si3⟩ := p
        rw [hl] at h
        have hok3 : StOk n st3 := applyChromosomeLoop_stOk hgl _ st si st3 si3 hok hl
        exact ih _ si3 st2 si2 (stOk_emitNative (stOk_addPenalty hok3 g _ _) gate) h
    · rw [if_neg h2] at h
      exact ih _ si st2 si2 (stOk_emitNative hok gate) h

theorem validPair_closed {circuit : QuantumCircuit} {hw : HardwareTopology}
    (h : ValidPair circuit hw) : Closed hw.graph := by
  rw [h.2.2.1]
  exact buildGraph_closed _ _

theorem validPair_symm {circuit : QuantumCircuit} {hw : HardwareTopology}
    (h : ValidPair circuit hw) : Symm hw.graph := by
  rw [h.2.2.1]
  exact buildGraph_symm _ _

theorem validPair_irr {circuit : QuantumCircuit} {hw : HardwareTopology}
    (h : ValidPair circuit hw) : Irr hw.graph := by
  rw [h.2.2.1]
  exact buildGraph_irr _ _

theorem stOk_result {n : Nat} {st : MapSt} (h : StOk n st) :
    (finishResult st).finalLayout.Perm (List.range n) ∧
      resultChainOk n (finishResult st) = true ∧ resultShapeOk (finishResult st) = true := by
  obtain ⟨hperm, hdep, hsw, hdepths, hchain, hlast, hins⟩ := h
  refine ⟨hperm, ?_, ?_⟩
  · unfold resultChainOk finishResult
    simp only [Bool.and_eq_true, beq_iff_eq]
    exact ⟨hchain, hlast.symm⟩
  · unfold resultShapeOk finishResult
    simp only [Bool.and_eq_true, beq_iff_eq]
    exact ⟨⟨⟨hdepths, hdep⟩, hsw⟩, hins⟩

theorem greedyMap_stOk {circuit : QuantumCircuit} {hw : HardwareTopology}
    (h : ValidPair circuit hw) {res : MappingResult}
    (hr : greedyMap circuit hw = some res) :
    ∃ st, greedyMapAux hw.graph circuit.gates (initSt circuit.nQubits) = some st ∧
      res = finishResult st ∧ StOk circuit.nQubits st := by
  unfold greedyMap at hr
  cases ha : greedyMapAux hw.graph circuit.gates (initSt circuit.nQubits) with
  | none => rw [ha] at hr; exact Option.noConfusion hr
  | some st =>
    rw [ha] at hr
    refine ⟨st, rfl, (Option.some_inj.mp hr).symm, ?_⟩
    exact greedyMapAux_stOk (validPair_closed h) h.2.2.2 circuit.gates _ st
      (stOk_init circuit.nQubits) (fun gate hg q hq => h.1.2 gate hg q hq) ha

theorem lookAheadMap_stOk {circuit : QuantumCircuit} {hw : HardwareTopology}
    {lookAhead fuel : Nat} (h : ValidPair circuit hw) {res : MappingResult}
    (hr : lookAheadMap circuit hw lookAhead fuel = some res) :
    ∃ st, res = finishResult st ∧ StOk circuit.nQubits st := by
  unfold lookAheadMap at hr
  cases ha : lookAheadMapAux hw.graph circuit lookAhead fuel circuit.gates.enum
      (initSt circuit.nQubits) with
  | none => rw [ha] at hr; exact Option.noConfusion hr
  | some st =>
    rw [ha] at hr
    refine ⟨st, (Option.some_inj.mp hr).symm, ?_⟩
    refine lookAheadMapAux_stOk (validPair_closed h) h.2.2.2 circuit.gates.enum _ st
      (stOk_init circuit.nQubits) ?_ ha
    intro p hp q hq
    exact h.1.2 p.2 (List.snd_mem_of_mem_enum hp) q hq

theorem applyChromosome_stOk {circuit : QuantumCircuit} {g : Graph}
    {chromosome : Chromosome} (hgl : g.length = circuit.nQubits) {res : MappingResult}
    (hr : applyChromosome circuit g chromosome = .ok res) :
    ∃ st, res = finishResult st ∧ StOk circuit.nQubits st := by
  unfold applyChromosome at hr
  cases ha : applyChromosomeAux g chromosome circuit.gates (initSt circuit.nQubits, 0) with
  | error e => rw [ha] at hr; exact Except.noConfusion hr
  | ok p =>
    obtain ⟨st, si⟩ := p
    rw [ha] at hr
    refine ⟨st, ?_, ?_⟩
    · have := Except.ok.inj hr
      rw [← this]
    · exact applyChromosomeAux_stOk hgl circuit.gates _ 0 st si (stOk_init circuit.nQubits) ha

/-- C3: for every strategy and every valid (circuit, topology), the replay
starts from the identity layout, mutates it only by transpositions, and so
the returned finalLayout is a permutation of 0..n-1; between consecutive
step snapshots the layout changes exactly by the transposition of the
recorded physical pair at Swap steps and not at all at Native steps
(resultChainOk checks the whole chain starting from the identity
List.range n, and that finalLayout is the last snapshot). -/
theorem C3_layout_discipline :
    ∀ (circuit : QuantumCircuit) (hw : HardwareTopology), ValidPair circuit hw →
      (∀ res, greedyMap circuit hw = some res →
        res.finalLayout.Perm (List.range circuit.nQubits) ∧
          resultChainOk circuit.nQubits res = true) ∧
      (∀ lookAhead fuel res, lookAheadMap circuit hw lookAhead fuel = some res →
        res.finalLayout.Perm (List.range circuit.nQubits) ∧
          resultChainOk circuit.nQubits res = true) ∧
      (∀ chromosome res, applyChromosome circuit hw.graph chromosome = .ok res →
        res.finalLayout.Perm (List.range circuit.nQubits) ∧
          resultChainOk circuit.nQubits res = true) := by
  intro circuit hw h
  refine ⟨?_, ?_, ?_⟩
  · intro res hr
    obtain ⟨st, _, hres, hok⟩ := greedyMap_stOk h hr
    have := stOk_result hok
    rw [hres]
    exact ⟨this.1, this.2.1⟩
  · intro lookAhead fuel res hr
    obtain ⟨st, hres, hok⟩ := lookAheadMap_stOk h hr
    have := stOk_result hok
    rw [hres]
    exact ⟨this.1, this.2.1⟩
  · intro chromosome res hr
    obtain ⟨st, hres, hok⟩ := applyChromosome_stOk h.2.2.2 hr
    have := stOk_result hok
    rw [hres]
    exact ⟨this.1, this.2.1⟩

theorem C3_layout_discipline_witness :
    ((greedyMap sampleCircuit sampleTopo).map (fun res =>
      decide (res.finalLayout.Perm (List.range 3)) && resultChainOk 3 res)).getD false
        = true ∧
    ((lookAheadMap sampleCircuit sampleTopo 3 10).map (fun res =>
      decide (res.finalLayout.Perm (List.range 3)) && resultChainOk 3 res)).getD false
        = true ∧
    ((applyChromosome sampleCircuit sampleTopo.graph [some (0, 1)]).toOption.map (fun res =>
      decide (res.finalLayout.Perm (List.range 3)) && resultChainOk 3 res)).getD false
        = true := by
  have hth := C3_layout_discipline sampleCircuit sampleTopo (by decide)
  refine ⟨?_, ?_, ?_⟩
  · cases hr : greedyMap sampleCircuit sampleTopo with
    | none => exact absurd hr (by decide)
    | some res =>
      obtain ⟨h1, h2⟩ := hth.1 res hr
      have h1b : res.finalLayout.Perm (List.range 3) := h1
      have h2b : resultChainOk 3 res = true := h2
      simp [decide_eq_true h1b, h2b]
  · cases hr : lookAheadMap sampleCircuit sampleTopo 3 10 with
    | none => exact absurd hr (by decide)
    | some res =>
      obtain ⟨h1, h2⟩ := hth.2.1 3 10 res hr
      have h1b : res.finalLayout.Perm (List.range 3) := h1
      have h2b : resultChainOk 3 res = true := h2
      simp [decide_eq_true h1b, h2b]
  · cases hr : applyChromosome sampleCircuit sampleTopo.graph [some (0, 1)] with
    | error e =>
      exfalso
      have hne : (applyChromosome sampleCircuit sampleTopo.graph [some (0, 1)]).toOption ≠
          none := by decide
      exact hne (by rw [hr]; rfl)
    | ok res =>
      obtain ⟨h1, h2⟩ := hth.2.2 [some (0, 1)] res hr
      have h1b : res.finalLayout.Perm (List.range 3) := h1
      have h2b : resultChainOk 3 res = true := h2
      simp [Except.toOption, decide_eq_true h1b, h2b]

/-- C4: for every strategy and every valid (circuit, topology), the returned
MappingResult satisfies insertedSwaps = number of Swap steps, depth = total
number of steps, the per-step depth indices are exactly 0,1,2,... and
inserted = true exactly on Swap steps (resultShapeOk). -/
theorem C4_counters_shape :
    ∀ (circuit : QuantumCircuit) (hw : HardwareTopology), ValidPair circuit hw →
      (∀ res, greedyMap circuit hw = some res → resultShapeOk res = true) ∧
      (∀ lookAhead fuel res, lookAheadMap circuit hw lookAhead fuel = some res →
        resultShapeOk res = true) ∧
      (∀ chromosome res, applyChromosome circuit hw.graph chromosome = .ok res →
        resultShapeOk res = true) := by
  intro circuit hw h
  refine ⟨?_, ?_, ?_⟩
  · intro res hr
    obtain ⟨st, _, hres, hok⟩ := greedyMap_stOk h hr
    rw [hres]
    exact (stOk_result hok).2.2
  · intro lookAhead fuel res hr
    obtain ⟨st, hres, hok⟩ := lookAheadMap_stOk h hr
    rw [hres]
    exact (stOk_result hok).2.2
  · intro chromosome res hr
    obtain ⟨st, hres, hok⟩ := applyChromosome_stOk h.2.2.2 hr
    rw [hres]
    exact (stOk_result hok).2.2

theorem C4_counters_shape_witness :
    ((greedyMap sampleCircuit sampleTopo).map resultShapeOk).getD false = true ∧
    ((lookAheadMap sampleCircuit sampleTopo 3 10).map resultShapeOk).getD false = true ∧
    ((applyChromosome sampleCircuit sampleTopo.graph [some (0, 1)]).toOption.map
      resultShapeOk).getD false = true := by
  have hth := C4_counters_shape sampleCircuit sampleTopo (by decide)
  refine ⟨?_, ?_, ?_⟩
  · cases hr : greedyMap sampleCircuit sampleTopo with
    | none => exact absurd hr (by decide)
    | some res => simpa using hth.1 res hr
  · cases hr : lookAheadMap sampleCircuit sampleTopo 3 10 with
    | none => exact absurd hr (by decide)
    | some res => simpa using hth.2.1 3 10 res hr
  · cases hr : applyChromosome sampleCircuit sampleTopo.graph [some (0, 1)] with
    | error e =>
      exfalso
      have hne : (applyChromosome sampleCircuit sampleTopo.graph [some (0, 1)]).toOption ≠
          none := by decide
      exact hne (by rw [hr]; rfl)
    | ok res => simpa [Except.toOption] using hth.2.2 [some (0, 1)] res hr

/-- A vertex with no outgoing edges reaches nothing but itself. -/
theorem not_reaches_no_edges {g : Graph} {a b : Nat} (hadj : adjList g a = [])
    (hne : a ≠ b) : ¬ Reaches g a b := by
  rintro ⟨n, ws, ⟨h1, h2, h3⟩, hl⟩
  match ws, hl with
  | x :: rest, _ =>
    have hxa : x = a := by simpa using h1
    cases rest with
    | nil =>
      have hxb : x = b := by simpa using h2
      exact hne (hxa ▸ hxb ▸ rfl)
    | cons y rest2 =>
      have hy : isConnected g x y = true := (List.chain'_cons.mp h3).1
      rw [hxa] at hy
      unfold isConnected at hy
      rw [hadj] at hy
      exact Bool.noConfusion hy

/-- The one-vertex shortest path of a self pair. -/
theorem getShortestPath_self_length (g : Graph) (q : Nat) :
    (getShortestPath g q q).length = 1 := by
  rcases distance_getShortestPath g q q with ⟨hd, _⟩ | ⟨d, hd, hlen, _⟩
  · rw [distance_self] at hd
    exact Option.noConfusion hd
  · rw [distance_self] at hd
    have hd0 : d = 0 := (Option.some_inj.mp hd).symm
    rw [hd0] at hlen
    exact hlen

/-- The self-pair penalty contribution is exactly -1. -/
theorem distMinusOne_self (g : Graph) (p : Nat) :
    distMinusOne g p p = ((-1 : Int) : WithTop Int) := by
  unfold distMinusOne
  rw [distance_self]
  norm_num

/-- The chromosome-replay inner loop never touches distancePenalty. -/
theorem applyChromosomeLoop_penalty {g : Graph} {chromosome : Chromosome} {c t : Nat} :
    ∀ (fuel : Nat) (st : MapSt) (si : Nat) (st2 : MapSt) (si2 : Nat),
      applyChromosomeLoop g chromosome c t fuel st si = .ok (st2, si2) →
      st2.distancePenalty = st.distancePenalty := by
  intro fuel
  induction fuel with
  | zero =>
    intro st si st2 si2 hr
    have hst : st = st2 := congrArg Prod.fst (Except.ok.inj hr)
    rw [← hst]
  | succ fuel ih =>
    intro st si st2 si2 hr
    rw [applyChromosomeLoop] at hr
    by_cases hg : isConnected g (st.layout.getD c 0) (st.layout.getD t 0) = false ∧
        si < chromosome.length
    · rw [if_pos hg] at hr
      cases hget : chromosome.getD si none with
      | none =>
        rw [hget] at hr
        exact Except.noConfusion hr
      | some p =>
        obtain ⟨swapQ1, swapQ2⟩ := p
        rw [hget] at hr
        replace hr : (if (st.layout.contains swapQ1 && st.layout.contains swapQ2) = true then
            applyChromosomeLoop g chromosome c t fuel
              { steps := st.steps ++ [Step.swap (swapQ1, swapQ2)
                  ((swapAtValues st.layout swapQ1 swapQ2).2.1,
                    (swapAtValues st.layout swapQ1 swapQ2).2.2)
                  (swapAtValues st.layout swapQ1 swapQ2).1 true st.depth]
                layout := (swapAtValues st.layout swapQ1 swapQ2).1
                insertedSwaps := st.insertedSwaps + 1
                depth := st.depth + 1
                distancePenalty := st.distancePenalty } (si + 1)
          else applyChromosomeLoop g chromosome c t fuel st (si + 1))
            = Except.ok (st2, si2) := hr
        by_cases hcont : (st.layout.contains swapQ1 && st.layout.contains swapQ2) = true
        · rw [if_pos hcont] at hr
          have h2 := ih _ (si + 1) st2 si2 hr
          exact h2
        · rw [if_neg hcont] at hr
          exact ih st (si + 1) st2 si2 hr
    · rw [if_neg hg] at hr
      have hst : st = st2 := congrArg Prod.fst (Except.ok.inj hr)
      rw [← hst]

/-- C1 (corrected): contrary to the spec, no constructor validates anything:
a circuit with nQubits < 1 is built, addGate stores any operand list
unchecked, an unrecognized shape tag silently yields the empty graph, and a
zero-qubit request is replaced by the 5-qubit default, so none of the four
"fatal" inputs raises an error. -/
theorem C1_no_validation :
    (∀ n : Nat, (mkQuantumCircuit n).nQubits = n ∧ (mkQuantumCircuit n).gates = []) ∧
    (∀ (c : QuantumCircuit) (ty : String) (qs : List Nat),
      (c.addGate ty qs).nQubits = c.nQubits ∧
      (c.addGate ty qs).gates.length = c.gates.length + 1 ∧
      (c.addGate ty qs).gates.map (fun gate => gate.qubits) =
        c.gates.map (fun gate => gate.qubits) ++ [qs]) ∧
    (∀ (type : String) (params : TopoParams), ¬ ShapeTag type →
      (mkHardwareTopology type params).graph = []) ∧
    (∀ params : TopoParams, params.qubits = some 0 →
      (mkHardwareTopology ("lnn") params).graph.length = 5 ∧
      (mkHardwareTopology ("star") params).graph.length = 5) := by
  refine ⟨fun n => ⟨rfl, rfl⟩, fun c ty qs => ⟨rfl, by simp [QuantumCircuit.addGate],
    by simp [QuantumCircuit.addGate]⟩, ?_, ?_⟩
  · intro type params hsh
    show buildGraph type params = []
    unfold buildGraph
    rw [if_neg (fun h => hsh (Or.inl h)), if_neg (fun h => hsh (Or.inr (Or.inl h))),
      if_neg (fun h => hsh (Or.inr (Or.inr h)))]
  · intro params hq
    constructor
    · show (buildGraph ("lnn") params).length = 5
      rw [buildGraph_lnn, lnnG_length, hq]
      rfl
    · show (buildGraph ("star") params).length = 5
      rw [buildGraph_star, starG_length, hq]
      rfl

theorem C1_no_validation_witness :
    ¬ ShapeTag ("ring") ∧
    (mkHardwareTopology ("ring") ⟨some 4, none, none⟩).graph = [] ∧
    (mkHardwareTopology ("lnn") ⟨some 0, none, none⟩).graph.length = 5 :=
  ⟨by decide, C1_no_validation.2.2.1 ("ring") ⟨some 4, none, none⟩ (by decide),
    (C1_no_validation.2.2.2 ⟨some 0, none, none⟩ rfl).1⟩

/-- C1 counterexample to the spec's sentence: each of the four allegedly
fatal inputs produces an ordinary value instead of an error. -/
theorem C1_counterexample :
    (mkQuantumCircuit 0).nQubits = 0 ∧
    ((mkQuantumCircuit 3).addGate ("cx") [0, 7]).gates.map (fun gate => gate.qubits)
      = [[0, 7]] ∧
    (mkHardwareTopology ("ring") ⟨some 4, none, none⟩).graph = [] ∧
    (mkHardwareTopology ("lnn") ⟨some 0, none, none⟩).graph.length = 5 :=
  ⟨rfl, by decide, by decide, by decide⟩

/-- C9: options read with JS || turn explicit zeros into the defaults: a
zero CostModel weight becomes 10/1/5, zero generations become 50, and a
zero-qubit lnn or star request builds the 5-qubit default device; no
configuration can make these quantities zero. -/
theorem C9_zero_defaults :
    (∀ cfg : CostModelConfig,
      (cfg.alpha = some 0 → (mkCostModel cfg).alpha = 10) ∧
      (cfg.beta = some 0 → (mkCostModel cfg).beta = 1) ∧
      (cfg.gamma = some 0 → (mkCostModel cfg).gamma = 5) ∧
      (mkCostModel cfg).alpha ≠ 0 ∧ (mkCostModel cfg).beta ≠ 0 ∧
        (mkCostModel cfg).gamma ≠ 0) ∧
    (∀ gc : GeneticConfig,
      (gc.generations = some 0 → (resolveConfig gc).generations = 50) ∧
      (resolveConfig gc).generations ≠ 0) ∧
    (∀ params : TopoParams, params.qubits = some 0 →
      (buildGraph ("lnn") params).length = 5 ∧ (buildGraph ("star") params).length = 5) ∧
    (∀ params : TopoParams,
      (buildGraph ("lnn") params).length ≠ 0 ∧ (buildGraph ("star") params).length ≠ 0) := by
  have hjs : ∀ (v : Option Int) (d : Int), d ≠ 0 → jsOrInt v d ≠ 0 := by
    intro v d hd
    unfold jsOrInt
    split
    · exact hd
    · exact hd
    · rename_i x h1
      exact h1
  refine ⟨?_, ?_, ?_, ?_⟩
  · intro cfg
    refine ⟨fun h => by show jsOrInt cfg.alpha 10 = 10; rw [h]; rfl,
      fun h => by show jsOrInt cfg.beta 1 = 1; rw [h]; rfl,
      fun h => by show jsOrInt cfg.gamma 5 = 5; rw [h]; rfl,
      hjs cfg.alpha 10 (by decide), hjs cfg.beta 1 (by decide), hjs cfg.gamma 5 (by decide)⟩
  · intro gc
    refine ⟨fun h => by show jsOr gc.generations 50 = 50; rw [h]; rfl, ?_⟩
    show jsOr gc.generations 50 ≠ 0
    have := jsOr_pos gc.generations 50 (by omega)
    omega
  · intro params hq
    constructor
    · rw [buildGraph_lnn, lnnG_length, hq]; rfl
    · rw [buildGraph_star, starG_length, hq]; rfl
  · intro params
    constructor
    · rw [buildGraph_lnn, lnnG_length]
      have := jsOr_pos params.qubits 5 (by omega)
      omega
    · rw [buildGraph_star, starG_length]
      omega

theorem C9_zero_defaults_witness :
    (mkCostModel ⟨some 0, some 0, some 0⟩).alpha = 10 ∧
    (resolveConfig { generations := some 0 }).generations = 50 ∧
    (buildGraph ("lnn") ⟨some 0, none, none⟩).length = 5 :=
  ⟨(C9_zero_defaults.1 ⟨some 0, some 0, some 0⟩).1 rfl,
    (C9_zero_defaults.2.1 { generations := some 0 }).1 rfl,
    (C9_zero_defaults.2.2.1 ⟨some 0, none, none⟩ rfl).1⟩

/-- C7: on every constructed topology, distance is 0 on the diagonal and
symmetric; a reachable pair's distance is the shortest-path length minus
one; an unreachable pair gets the Infinity sentinel (none) and the empty
path. -/
theorem C7_distance_algebra :
    ∀ (type : String) (params : TopoParams),
      (∀ q : Nat, distance (mkHardwareTopology type params).graph q q = some 0) ∧
      (∀ a b : Nat, distance (mkHardwareTopology type params).graph a b =
        distance (mkHardwareTopology type params).graph b a) ∧
      (∀ a b : Nat, Reaches (mkHardwareTopology type params).graph a b →
        ∃ d, distance (mkHardwareTopology type params).graph a b = some d ∧
          (getShortestPath (mkHardwareTopology type params).graph a b).length = d + 1) ∧
      (∀ a b : Nat, ¬ Reaches (mkHardwareTopology type params).graph a b →
        distance (mkHardwareTopology type params).graph a b = none ∧
          getShortestPath (mkHardwareTopology type params).graph a b = []) := by
  intro type params
  refine ⟨fun q => distance_self _ q, fun a b => distance_symm (buildGraph_symm type params) a b,
    ?_, ?_⟩
  · intro a b hre
    rcases distance_getShortestPath (mkHardwareTopology type params).graph a b with
      ⟨hd, _⟩ | ⟨d, hd, hlen, _⟩
    · obtain ⟨d2, hd2, _⟩ := distance_isSome hre
      rw [hd] at hd2
      exact Option.noConfusion hd2
    · exact ⟨d, hd, hlen⟩
  · intro a b hun
    rcases distance_getShortestPath (mkHardwareTopology type params).graph a b with
      ⟨hd, hp⟩ | ⟨d, hd, hlen, htr⟩
    · exact ⟨hd, hp⟩
    · exact absurd ⟨d, getShortestPath (mkHardwareTopology type params).graph a b,
        htr, hlen⟩ hun

theorem C7_distance_algebra_witness :
    distance sampleTopo.graph 0 0 = some 0 ∧
    distance sampleTopo.graph 0 2 = distance sampleTopo.graph 2 0 ∧
    (distance sampleTopo.graph 0 2 = some 2 ∧
      (getShortestPath sampleTopo.graph 0 2).length = 2 + 1) ∧
    (distance sampleTopo.graph 5 0 = none ∧ getShortestPath sampleTopo.graph 5 0 = []) := by
  have h := C7_distance_algebra ("lnn") ⟨some 3, none, none⟩
  have hre : Reaches sampleTopo.graph 0 2 :=
    ⟨2, [0, 1, 2], ⟨rfl, rfl,
      List.chain'_cons.mpr ⟨by decide, List.chain'_pair.mpr (by decide)⟩⟩, rfl⟩
  have hun : ¬ Reaches sampleTopo.graph 5 0 :=
    not_reaches_no_edges (by decide) (by decide)
  obtain ⟨d, hd, hlen⟩ := h.2.2.1 0 2 hre
  have hd' : distance sampleTopo.graph 0 2 = some d := hd
  have hlen' : (getShortestPath sampleTopo.graph 0 2).length = d + 1 := hlen
  have hd2 : distance sampleTopo.graph 0 2 = some 2 := by decide
  have hdd : d = 2 := by
    rw [hd2] at hd'
    exact (Option.some_inj.mp hd').symm
  subst hdd
  exact ⟨h.1 0, h.2.1 0 2, ⟨hd2, hlen'⟩, h.2.2.2 5 0 hun⟩

/-- C10: a two-qubit gate whose operands are the same in-range logical qubit
contributes distance(p,p) - 1 = -1 to distancePenalty in GreedyMapper (its
one-vertex shortest path exits the loop at once) and in the genetic replay
(the pair is never connected, so the cursor drains, but the final penalty
term is still -1), so the returned distancePenalty can be negative. -/
theorem C10_self_pair_penalty {g : Graph} (hi : Irr g) :
    (∀ (st : MapSt) (gate : Gate) (q : Nat) (st2 : MapSt), gate.qubits = [q, q] →
      greedyGate g st gate = some st2 →
      st2.distancePenalty = st.distancePenalty + ((-1 : Int) : WithTop Int)) ∧
    (∀ (chromosome : Chromosome) (st : MapSt) (si : Nat) (gate : Gate) (q : Nat)
        (r : MapSt × Nat), gate.qubits = [q, q] →
      applyChromosomeAux g chromosome [gate] (st, si) = .ok r →
      r.1.distancePenalty = st.distancePenalty + ((-1 : Int) : WithTop Int)) := by
  constructor
  · intro st gate q st2 hq hr
    obtain ⟨gty, gq, gid⟩ := gate
    simp only at hq
    subst hq
    unfold greedyGate at hr
    replace hr : (match greedyLoop g q q st (g.length + 1) with
      | none => none
      | some stx => some (emitNative (addPenalty g stx q q) ⟨gty, [q, q], gid⟩)) =
        some st2 := hr
    have hloop : greedyLoop g q q st (g.length + 1) = some st := by
      rw [greedyLoop]
      rw [if_neg (by rw [hi (st.layout.getD q 0)]; exact fun hx => Bool.noConfusion hx)]
      rw [if_pos (by rw [getShortestPath_self_length]; omega)]
    rw [hloop] at hr
    replace hr : some (emitNative (addPenalty g st q q) ⟨gty, [q, q], gid⟩) = some st2 := hr
    have hst := Option.some_inj.mp hr
    rw [← hst]
    show (addPenalty g st q q).distancePenalty = st.distancePenalty + ((-1 : Int) : WithTop Int)
    show st.distancePenalty + distMinusOne g (st.layout.getD q 0) (st.layout.getD q 0) =
      st.distancePenalty + ((-1 : Int) : WithTop Int)
    rw [distMinusOne_self]
  · intro chromosome st si gate q r hq hr
    obtain ⟨gty, gq, gid⟩ := gate
    simp only at hq
    subst hq
    unfold applyChromosomeAux at hr
    replace hr : (match applyChromosomeLoop g chromosome q q (chromosome.length - si) st si with
      | Except.error e => Except.error e
      | Except.ok (stx, six) => applyChromosomeAux g chromosome []
          (emitNative (addPenalty g stx q q) ⟨gty, [q, q], gid⟩, six)) = Except.ok r := hr
    cases hl : applyChromosomeLoop g chromosome q q (chromosome.length - si) st si with
    | error e =>
      rw [hl] at hr
      exact Except.noConfusion hr
    | ok p =>
      obtain ⟨st3, si3⟩ := p
      rw [hl] at hr
      replace hr : applyChromosomeAux g chromosome []
          (emitNative (addPenalty g st3 q q) ⟨gty, [q, q], gid⟩, si3) = Except.ok r := hr
      have hr2 : (Except.ok (emitNative (addPenalty g st3 q q) ⟨gty, [q, q], gid⟩, si3) :
          Except JsError (MapSt × Nat)) = Except.ok r := hr
      have h1 : emitNative (addPenalty g st3 q q) (⟨gty, [q, q], gid⟩ : Gate) = r.1 :=
        congrArg Prod.fst (Except.ok.inj hr2)
      rw [← h1]
      show (addPenalty g st3 q q).distancePenalty =
        st.distancePenalty + ((-1 : Int) : WithTop Int)
      show st3.distancePenalty + distMinusOne g (st3.layout.getD q 0) (st3.layout.getD q 0) =
        st.distancePenalty + ((-1 : Int) : WithTop Int)
      rw [distMinusOne_self, applyChromosomeLoop_penalty _ st si st3 si3 hl]

theorem C10_self_pair_penalty_witness :
    ((greedyGate sampleTopo.graph (initSt 3) ⟨("cx"), [1, 1], ("g0")⟩).map
      (fun st2 => st2.distancePenalty)).getD 0 =
      (initSt 3).distancePenalty + ((-1 : Int) : WithTop Int) := by
  have hth := (C10_self_pair_penalty (buildGraph_irr ("lnn") ⟨some 3, none, none⟩)).1
  cases hr : greedyGate sampleTopo.graph (initSt 3) ⟨("cx"), [1, 1], ("g0")⟩ with
  | none => exact absurd hr (by decide)
  | some st2 =>
    have hp := hth (initSt 3) ⟨("cx"), [1, 1], ("g0")⟩ 1 st2 rfl hr
    simp [hp]

/-- The greedy loop only answers when the pair is connected or the
shortest path has degenerated. -/
theorem greedyLoop_exit {g : Graph} {c t : Nat} :
    ∀ (fuel : Nat) (st st2 : MapSt), greedyLoop g c t st fuel = some st2 →
      isConnected g (st2.layout.getD c 0) (st2.layout.getD t 0) = true ∨
        (getShortestPath g (st2.layout.getD c 0) (st2.layout.getD t 0)).length < 2 := by
  intro fuel
  induction fuel with
  | zero =>
    intro st st2 hr
    exact Option.noConfusion hr
  | succ fuel ih =>
    intro st st2 hr
    rw [greedyLoop] at hr
    by_cases hc : isConnected g (st.layout.getD c 0) (st.layout.getD t 0) = true
    · rw [if_pos hc] at hr
      rw [← Option.some_inj.mp hr]
      exact Or.inl hc
    · rw [if_neg hc] at hr
      by_cases hp : (getShortestPath g (st.layout.getD c 0) (st.layout.getD t 0)).length < 2
      · rw [if_pos hp] at hr
        rw [← Option.some_inj.mp hr]
        exact Or.inr hp
      · rw [if_neg hp] at hr
        exact ih _ st2 hr

/-- The look-ahead loop only answers when the pair is connected or
findBestSwap returned null. -/
theorem lookAheadLoop_exit {g : Graph} {circuit : QuantumCircuit} {c t gateIdx lookAhead : Nat} :
    ∀ (fuel : Nat) (st st2 : MapSt),
      lookAheadLoop g circuit c t gateIdx lookAhead st fuel = some st2 →
      isConnected g (st2.layout.getD c 0) (st2.layout.getD t 0) = true ∨
        findBestSwap g circuit st2.layout gateIdx lookAhead = none := by
  intro fuel
  induction fuel with
  | zero =>
    intro st st2 hr
    exact Option.noConfusion hr
  | succ fuel ih =>
    intro st st2 hr
    rw [lookAheadLoop] at hr
    by_cases hc : isConnected g (st.layout.getD c 0) (st.layout.getD t 0) = true
    · rw [if_pos hc] at hr
      rw [← Option.some_inj.mp hr]
      exact Or.inl hc
    · rw [if_neg hc] at hr
      cases hb : findBestSwap g circuit st.layout gateIdx lookAhead with
      | none =>
        rw [hb] at hr
        rw [← Option.some_inj.mp hr]
        exact Or.inr hb
      | some e =>
        obtain ⟨swapQ1, swapQ2⟩ := e
        rw [hb] at hr
        exact ih _ st2 hr

/-- The chromosome loop's structural fuel is exact: under the fuel every
caller supplies, an answer means the real loop guard failed, i.e. the pair
is connected or the cursor is exhausted. -/
theorem applyChromosomeLoop_exit {g : Graph} {chromosome : Chromosome} {c t : Nat} :
    ∀ (fuel : Nat) (st : MapSt) (si : Nat) (st2 : MapSt) (si2 : Nat),
      chromosome.length ≤ si + fuel →
      applyChromosomeLoop g chromosome c t fuel st si = .ok (st2, si2) →
      isConnected g (st2.layout.getD c 0) (st2.layout.getD t 0) = true ∨
        chromosome.length ≤ si2 := by
  intro fuel
  induction fuel with
  | zero =>
    intro st si st2 si2 hfu hr
    have heq := Except.ok.inj hr
    have hsi : si = si2 := congrArg Prod.snd heq
    rw [← hsi]
    right
    omega
  | succ fuel ih =>
    intro st si st2 si2 hfu hr
    rw [applyChromosomeLoop] at hr
    by_cases hg : isConnected g (st.layout.getD c 0) (st.layout.getD t 0) = false ∧
        si < chromosome.length
    · rw [if_pos hg] at hr
      cases hget : chromosome.getD si none with
      | none =>
        rw [hget] at hr
        exact Except.noConfusion hr
      | some p =>
        obtain ⟨swapQ1, swapQ2⟩ := p
        rw [hget] at hr
        replace hr : (if (st.layout.contains swapQ1 && st.layout.contains swapQ2) = true then
            applyChromosomeLoop g chromosome c t fuel
              { steps := st.steps ++ [Step.swap (swapQ1, swapQ2)
                  ((swapAtValues st.layout swapQ1 swapQ2).2.1,
                    (swapAtValues st.layout swapQ1 swapQ2).2.2)
                  (swapAtValues st.layout swapQ1 swapQ2).1 true st.depth]
                layout := (swapAtValues st.layout swapQ1 swapQ2).1
                insertedSwaps := st.insertedSwaps + 1
                depth := st.depth + 1
                distancePenalty := st.distancePenalty } (si + 1)
          else applyChromosomeLoop g chromosome c t fuel st (si + 1))
            = Except.ok (st2, si2) := hr
        by_cases hcont : (st.layout.contains swapQ1 && st.layout.contains swapQ2) = true
        · rw [if_pos hcont] at hr
          exact ih _ (si + 1) st2 si2 (by omega) hr
        · rw [if_neg hcont] at hr
          exact ih st (si + 1) st2 si2 (by omega) hr
    · rw [if_neg hg] at hr
      have heq := Except.ok.inj hr
      have hst : st = st2 := congrArg Prod.fst heq
      have hsi : si = si2 := congrArg Prod.snd heq
      rw [← hst, ← hsi]
      rcases Decidable.not_and_iff_or_not.mp hg with h | h
      · left
        cases hx : isConnected g (st.layout.getD c 0) (st.layout.getD t 0) with
        | false => exact absurd hx h
        | true => rfl
      · right
        omega

/-- The chromosome cursor only moves forward. -/
theorem applyChromosomeLoop_cursor {g : Graph} {chromosome : Chromosome} {c t : Nat} :
    ∀ (fuel : Nat) (st : MapSt) (si : Nat) (st2 : MapSt) (si2 : Nat),
      applyChromosomeLoop g chromosome c t fuel st si = .ok (st2, si2) → si ≤ si2 := by
  intro fuel
  induction fuel with
  | zero =>
    intro st si st2 si2 hr
    have hsi : si = si2 := congrArg Prod.snd (Except.ok.inj hr)
    omega
  | succ fuel ih =>
    intro st si st2 si2 hr
    rw [applyChromosomeLoop] at hr
    by_cases hg : isConnected g (st.layout.getD c 0) (st.layout.getD t 0) = false ∧
        si < chromosome.length
    · rw [if_pos hg] at hr
      cases hget : chromosome.getD si none with
      | none =>
        rw [hget] at hr
        exact Except.noConfusion hr
      | some p =>
        obtain ⟨swapQ1, swapQ2⟩ := p
        rw [hget] at hr
        replace hr : (if (st.layout.contains swapQ1 && st.layout.contains swapQ2) = true then
            applyChromosomeLoop g chromosome c t fuel
              { steps := st.steps ++ [Step.swap (swapQ1, swapQ2)
                  ((swapAtValues st.layout swapQ1 swapQ2).2.1,
                    (swapAtValues st.layout swapQ1 swapQ2).2.2)
                  (swapAtValues st.layout swapQ1 swapQ2).1 true st.depth]
                layout := (swapAtValues st.layout swapQ1 swapQ2).1
                insertedSwaps := st.insertedSwaps + 1
                depth := st.depth + 1
                distancePenalty := st.distancePenalty } (si + 1)
          else applyChromosomeLoop g chromosome c t fuel st (si + 1))
            = Except.ok (st2, si2) := hr
        by_cases hcont : (st.layout.contains swapQ1 && st.layout.contains swapQ2) = true
        · rw [if_pos hcont] at hr
          have := ih _ (si + 1) st2 si2 hr
          omega
        · rw [if_neg hcont] at hr
          have := ih st (si + 1) st2 si2 hr
          omega
    · rw [if_neg hg] at hr
      have hsi : si = si2 := congrArg Prod.snd (Except.ok.inj hr)
      omega

/-- With the cursor already past the end the loop is the identity. -/
theorem applyChromosomeLoop_exhausted {g : Graph} {chromosome : Chromosome} {c t : Nat}
    (fuel : Nat) (st : MapSt) (si : Nat) (h : chromosome.length ≤ si) :
    applyChromosomeLoop g chromosome c t fuel st si = .ok (st, si) := by
  cases fuel with
  | zero => rfl
  | succ fuel =>
    rw [applyChromosomeLoop]
    rw [if_neg (by omega)]

/-- The cursor moves forward across whole-gate iterations as well. -/
theorem applyChromosomeAux_cursor {g : Graph} {chromosome : Chromosome} :
    ∀ (gs : List Gate) (st : MapSt) (si : Nat) (st2 : MapSt) (si2 : Nat),
      applyChromosomeAux g chromosome gs (st, si) = .ok (st2, si2) → si ≤ si2 := by
  intro gs
  induction gs with
  | nil =>
    intro st si st2 si2 hr
    have hsi : si = si2 := congrArg Prod.snd (Except.ok.inj hr)
    omega
  | cons gate gs ih =>
    intro st si st2 si2 hr
    unfold applyChromosomeAux at hr
    by_cases h2 : gate.qubits.length == 2
    · rw [if_pos h2] at hr
      simp only [] at hr
      cases hl : applyChromosomeLoop g chromosome (gate.qubits.getD 0 0)
          (gate.qubits.getD 1 0) (chromosome.length - si) st si with
      | error e => rw [hl] at hr; exact Except.noConfusion hr
      | ok p =>
        obtain ⟨st3, si3⟩ := p
        rw [hl] at hr
        have h1 := applyChromosomeLoop_cursor _ st si st3 si3 hl
        have h2 := ih _ si3 st2 si2 hr
        omega
    · rw [if_neg h2] at hr
      exact ih _ si st2 si2 hr

/-- Once the cursor has run past the chromosome, the rest of the replay is
frozen: it cannot fail, inserts no swap, keeps the layout, and only adds
the residual distance - 1 of each remaining two-qubit gate. -/
theorem applyChromosomeAux_frozen {g : Graph} {chromosome : Chromosome} :
    ∀ (gs : List Gate) (st : MapSt) (si : Nat), chromosome.length ≤ si →
      ∃ st2, applyChromosomeAux g chromosome gs (st, si) = .ok (st2, si) ∧
        st2.insertedSwaps = st.insertedSwaps ∧ st2.layout = st.layout ∧
        (∃ tail, st2.steps = st.steps ++ tail ∧ ∀ step ∈ tail, step.isSwap = false) ∧
        st2.distancePenalty = st.distancePenalty + residualSum g st.layout gs := by
  intro gs
  induction gs with
  | nil =>
    intro st si hsi
    refine ⟨st, rfl, rfl, rfl, ⟨[], by simp, by simp⟩, ?_⟩
    show st.distancePenalty = st.distancePenalty + ((0 : Int) : WithTop Int)
    simp
  | cons gate gs ih =>
    intro st si hsi
    by_cases h2 : (gate.qubits.length == 2) = true
    · have hl := @applyChromosomeLoop_exhausted g chromosome (gate.qubits.getD 0 0)
        (gate.qubits.getD 1 0) (chromosome.length - si) st si hsi
      have hstep : applyChromosomeAux g chromosome (gate :: gs) (st, si) =
          applyChromosomeAux g chromosome gs
            (emitNative (addPenalty g st (gate.qubits.getD 0 0) (gate.qubits.getD 1 0)) gate,
              si) := by
        show (if (gate.qubits.length == 2) = true then
            match applyChromosomeLoop g chromosome (gate.qubits.getD 0 0)
                (gate.qubits.getD 1 0) (chromosome.length - si) st si with
            | Except.error e => Except.error e
            | Except.ok (st2, si2) => applyChromosomeAux g chromosome gs
                (emitNative (addPenalty g st2 (gate.qubits.getD 0 0)
                  (gate.qubits.getD 1 0)) gate, si2)
          else applyChromosomeAux g chromosome gs (emitNative st gate, si)) =
          applyChromosomeAux g chromosome gs
            (emitNative (addPenalty g st (gate.qubits.getD 0 0) (gate.qubits.getD 1 0)) gate,
              si)
        rw [if_pos h2, hl]
      obtain ⟨st2, haux, hins, hlay, ⟨tail, hsteps, htail⟩, hpen⟩ :=
        ih (emitNative (addPenalty g st (gate.qubits.getD 0 0) (gate.qubits.getD 1 0)) gate)
          si hsi
      have hmid : ∃ ns : Step,
          (emitNative (addPenalty g st (gate.qubits.getD 0 0) (gate.qubits.getD 1 0))
            gate).steps = st.steps ++ [ns] ∧ ns.isSwap = false := ⟨_, rfl, rfl⟩
      obtain ⟨ns, hns, hnsf⟩ := hmid
      refine ⟨st2, by rw [hstep]; exact haux, hins, hlay, ⟨ns :: tail, ?_, ?_⟩, ?_⟩
      · rw [hsteps, hns, List.append_assoc]
        rfl
      · intro step hs
        rcases List.mem_cons.mp hs with h | h
        · rw [h]; exact hnsf
        · exact htail step h
      · rw [hpen]
        show st.distancePenalty + distMinusOne g (st.layout.getD (gate.qubits.getD 0 0) 0)
            (st.layout.getD (gate.qubits.getD 1 0) 0) + residualSum g st.layout gs =
          st.distancePenalty + residualSum g st.layout (gate :: gs)
        simp only [residualSum]
        rw [if_pos h2, add_assoc]
    · have hstep : applyChromosomeAux g chromosome (gate :: gs) (st, si) =
          applyChromosomeAux g chromosome gs (emitNative st gate, si) := by
        show (if (gate.qubits.length == 2) = true then
            match applyChromosomeLoop g chromosome (gate.qubits.getD 0 0)
                (gate.qubits.getD 1 0) (chromosome.length - si) st si with
            | Except.error e => Except.error e
            | Except.ok (st2, si2) => applyChromosomeAux g chromosome gs
                (emitNative (addPenalty g st2 (gate.qubits.getD 0 0)
                  (gate.qubits.getD 1 0)) gate, si2)
          else applyChromosomeAux g chromosome gs (emitNative st gate, si)) =
          applyChromosomeAux g chromosome gs (emitNative st gate, si)
        rw [if_neg h2]
      obtain ⟨st2, haux, hins, hlay, ⟨tail, hsteps, htail⟩, hpen⟩ :=
        ih (emitNative st gate) si hsi
      have hmid : ∃ ns : Step, (emitNative st gate).steps = st.steps ++ [ns] ∧
          ns.isSwap = false := ⟨_, rfl, rfl⟩
      obtain ⟨ns, hns, hnsf⟩ := hmid
      refine ⟨st2, by rw [hstep]; exact haux, hins, hlay, ⟨ns :: tail, ?_, ?_⟩, ?_⟩
      · rw [hsteps, hns, List.append_assoc]
        rfl
      · intro step hs
        rcases List.mem_cons.mp hs with h | h
        · rw [h]; exact hnsf
        · exact htail step h
      · rw [hpen]
        show st.distancePenalty + residualSum g st.layout gs =
          st.distancePenalty + residualSum g st.layout (gate :: gs)
        simp only [residualSum]
        rw [if_neg h2]

/-- C6: the chromosome is consumed through one forward-only cursor shared
across the whole circuit - it only ever advances, and is never reset
between gates - and once it has run past the chromosome's end the rest of
the replay inserts no swap, keeps the layout frozen and cannot fail: every
later gate is still emitted, each two-qubit one adding its residual
distance - 1 to distancePenalty. -/
theorem C6_shared_cursor {g : Graph} {chromosome : Chromosome} :
    (∀ (gs : List Gate) (st : MapSt) (si : Nat) (st2 : MapSt) (si2 : Nat),
      applyChromosomeAux g chromosome gs (st, si) = .ok (st2, si2) → si ≤ si2) ∧
    (∀ (gs : List Gate) (st : MapSt) (si : Nat), chromosome.length ≤ si →
      ∃ st2, applyChromosomeAux g chromosome gs (st, si) = .ok (st2, si) ∧
        st2.insertedSwaps = st.insertedSwaps ∧ st2.layout = st.layout ∧
        (∃ tail, st2.steps = st.steps ++ tail ∧ ∀ step ∈ tail, step.isSwap = false) ∧
        st2.distancePenalty = st.distancePenalty + residualSum g st.layout gs) :=
  ⟨fun gs st si st2 si2 h => applyChromosomeAux_cursor gs st si st2 si2 h,
    fun gs st si h => applyChromosomeAux_frozen gs st si h⟩

theorem C6_shared_cursor_witness :
    ((applyChromosomeAux sampleTopo.graph [some (0, 1)] sampleCircuit.gates
        (initSt 3, 1)).toOption.map (fun r => decide (1 ≤ r.2) &&
          decide (r.1.insertedSwaps = (initSt 3).insertedSwaps) &&
          decide (r.1.distancePenalty = (initSt 3).distancePenalty +
            residualSum sampleTopo.graph (initSt 3).layout sampleCircuit.gates))).getD false
      = true := by
  obtain ⟨st2, haux, hins, hlay, _, hpen⟩ :=
    (@C6_shared_cursor sampleTopo.graph [some (0, 1)]).2 sampleCircuit.gates (initSt 3) 1
      (by decide)
  have hc := (@C6_shared_cursor sampleTopo.graph [some (0, 1)]).1 sampleCircuit.gates
    (initSt 3) 1 st2 1 haux
  rw [haux]
  simp [Except.toOption, hins, hpen, hc]

/-- C2: in all three mappers, a two-qubit gate always ends in an emitted
Native step with the pair's two physical qubits at the then-current layout;
if the pair came out connected the distance is exactly 1 and the gate adds
nothing to distancePenalty, and otherwise the strategy's exhaustion
condition holds (degenerate shortest path / null findBestSwap / drained
cursor) and distance - 1 at the current layout is added. -/
theorem C2_gate_resolution {g : Graph} (hi : Irr g) :
    (∀ (st : MapSt) (gty gid : String) (c t : Nat) (st2 : MapSt),
      greedyGate g st ⟨gty, [c, t], gid⟩ = some st2 →
      ∃ stMid, greedyLoop g c t st (g.length + 1) = some stMid ∧
        st2.steps = stMid.steps ++ [Step.native gty
          [stMid.layout.getD c 0, stMid.layout.getD t 0] [c, t] stMid.layout false
          stMid.depth] ∧
        ((isConnected g (stMid.layout.getD c 0) (stMid.layout.getD t 0) = true ∧
            distance g (stMid.layout.getD c 0) (stMid.layout.getD t 0) = some 1 ∧
            st2.distancePenalty = stMid.distancePenalty) ∨
          (isConnected g (stMid.layout.getD c 0) (stMid.layout.getD t 0) = false ∧
            (getShortestPath g (stMid.layout.getD c 0) (stMid.layout.getD t 0)).length < 2 ∧
            st2.distancePenalty = stMid.distancePenalty +
              distMinusOne g (stMid.layout.getD c 0) (stMid.layout.getD t 0)))) ∧
    (∀ (circuit : QuantumCircuit) (lookAhead fuel : Nat) (st : MapSt) (gateIdx : Nat)
        (gty gid : String) (c t : Nat) (st2 : MapSt),
      lookAheadGate g circuit lookAhead fuel st gateIdx ⟨gty, [c, t], gid⟩ = some st2 →
      ∃ stMid, lookAheadLoop g circuit c t gateIdx lookAhead st fuel = some stMid ∧
        st2.steps = stMid.steps ++ [Step.native gty
          [stMid.layout.getD c 0, stMid.layout.getD t 0] [c, t] stMid.layout false
          stMid.depth] ∧
        ((isConnected g (stMid.layout.getD c 0) (stMid.layout.getD t 0) = true ∧
            distance g (stMid.layout.getD c 0) (stMid.layout.getD t 0) = some 1 ∧
            st2.distancePenalty = stMid.distancePenalty) ∨
          (isConnected g (stMid.layout.getD c 0) (stMid.layout.getD t 0) = false ∧
            findBestSwap g circuit stMid.layout gateIdx lookAhead = none ∧
            st2.distancePenalty = stMid.distancePenalty +
              distMinusOne g (stMid.layout.getD c 0) (stMid.layout.getD t 0)))) ∧
    (∀ (chromosome : Chromosome) (st : MapSt) (si : Nat) (gty gid : String) (c t : Nat)
        (gs : List Gate) (stMid : MapSt) (si2 : Nat),
      applyChromosomeLoop g chromosome c t (chromosome.length - si) st si = .ok (stMid, si2) →
      applyChromosomeAux g chromosome ((⟨gty, [c, t], gid⟩ : Gate) :: gs) (st, si) =
        applyChromosomeAux g chromosome gs
          (emitNative (addPenalty g stMid c t) ⟨gty, [c, t], gid⟩, si2) ∧
      (emitNative (addPenalty g stMid c t) (⟨gty, [c, t], gid⟩ : Gate)).steps =
        stMid.steps ++ [Step.native gty
          [stMid.layout.getD c 0, stMid.layout.getD t 0] [c, t] stMid.layout false
          stMid.depth] ∧
      ((isConnected g (stMid.layout.getD c 0) (stMid.layout.getD t 0) = true ∧
          distance g (stMid.layout.getD c 0) (stMid.layout.getD t 0) = some 1 ∧
          (emitNative (addPenalty g stMid c t)
            (⟨gty, [c, t], gid⟩ : Gate)).distancePenalty = stMid.distancePenalty) ∨
        (isConnected g (stMid.layout.getD c 0) (stMid.layout.getD t 0) = false ∧
          chromosome.length ≤ si2 ∧
          (emitNative (addPenalty g stMid c t)
            (⟨gty, [c, t], gid⟩ : Gate)).distancePenalty = stMid.distancePenalty +
            distMinusOne g (stMid.layout.getD c 0) (stMid.layout.getD t 0)))) := by
  have hdm0 : ∀ a b : Nat, distance g a b = some 1 →
      distMinusOne g a b = ((0 : Int) : WithTop Int) := by
    intro a b hd
    unfold distMinusOne
    rw [hd]
    norm_num
  refine ⟨?_, ?_, ?_⟩
  · intro st gty gid c t st2 hr
    unfold greedyGate at hr
    replace hr : (match greedyLoop g c t st (g.length + 1) with
      | none => none
      | some stx => some (emitNative (addPenalty g stx c t) ⟨gty, [c, t], gid⟩)) =
        some st2 := hr
    cases hl : greedyLoop g c t st (g.length + 1) with
    | none => rw [hl] at hr; exact Option.noConfusion hr
    | some stMid =>
      rw [hl] at hr
      replace hr : some (emitNative (addPenalty g stMid c t) ⟨gty, [c, t], gid⟩) =
        some st2 := hr
      have hst := Option.some_inj.mp hr
      refine ⟨stMid, rfl, by rw [← hst]; rfl, ?_⟩
      cases hcon : isConnected g (stMid.layout.getD c 0) (stMid.layout.getD t 0) with
      | true =>
        left
        refine ⟨rfl, distance_adj hi hcon, ?_⟩
        rw [← hst]
        show stMid.distancePenalty +
          distMinusOne g (stMid.layout.getD c 0) (stMid.layout.getD t 0) =
          stMid.distancePenalty
        rw [hdm0 _ _ (distance_adj hi hcon)]
        simp
      | false =>
        right
        rcases greedyLoop_exit _ st stMid hl with h | h
        · rw [hcon] at h
          exact Bool.noConfusion h
        · exact ⟨rfl, h, by rw [← hst]; rfl⟩
  · intro circuit lookAhead fuel st gateIdx gty gid c t st2 hr
    unfold lookAheadGate at hr
    replace hr : (match lookAheadLoop g circuit c t gateIdx lookAhead st fuel with
      | none => none
      | some stx => some (emitNative (addPenalty g stx c t) ⟨gty, [c, t], gid⟩)) =
        some st2 := hr
    cases hl : lookAheadLoop g circuit c t gateIdx lookAhead st fuel with
    | none => rw [hl] at hr; exact Option.noConfusion hr
    | some stMid =>
      rw [hl] at hr
      replace hr : some (emitNative (addPenalty g stMid c t) ⟨gty, [c, t], gid⟩) =
        some st2 := hr
      have hst := Option.some_inj.mp hr
      refine ⟨stMid, rfl, by rw [← hst]; rfl, ?_⟩
      cases hcon : isConnected g (stMid.layout.getD c 0) (stMid.layout.getD t 0) with
      | true =>
        left
        refine ⟨rfl, distance_adj hi hcon, ?_⟩
        rw [← hst]
        show stMid.distancePenalty +
          distMinusOne g (stMid.layout.getD c 0) (stMid.layout.getD t 0) =
          stMid.distancePenalty
        rw [hdm0 _ _ (distance_adj hi hcon)]
        simp
      | false =>
        right
        rcases lookAheadLoop_exit _ st stMid hl with h | h
        · rw [hcon] at h
          exact Bool.noConfusion h
        · exact ⟨rfl, h, by rw [← hst]; rfl⟩
  · intro chromosome st si gty gid c t gs stMid si2 hl
    refine ⟨?_, rfl, ?_⟩
    · show (if (([c, t] : List Nat).length == 2) = true then
          match applyChromosomeLoop g chromosome c t (chromosome.length - si) st si with
          | Except.error e => Except.error e
          | Except.ok (stx, six) => applyChromosomeAux g chromosome gs
              (emitNative (addPenalty g stx c t) ⟨gty, [c, t], gid⟩, six)
        else applyChromosomeAux g chromosome gs
          (emitNative st ⟨gty, [c, t], gid⟩, si)) =
        applyChromosomeAux g chromosome gs
          (emitNative (addPenalty g stMid c t) ⟨gty, [c, t], gid⟩, si2)
      rw [if_pos (show (([c, t] : List Nat).length == 2) = true from rfl), hl]
    · cases hcon : isConnected g (stMid.layout.getD c 0) (stMid.layout.getD t 0) with
      | true =>
        left
        refine ⟨rfl, distance_adj hi hcon, ?_⟩
        show stMid.distancePenalty +
          distMinusOne g (stMid.layout.getD c 0) (stMid.layout.getD t 0) =
          stMid.distancePenalty
        rw [hdm0 _ _ (distance_adj hi hcon)]
        simp
      | false =>
        right
        rcases applyChromosomeLoop_exit _ st si stMid si2 (by omega) hl with h | h
        · rw [hcon] at h
          exact Bool.noConfusion h
        · exact ⟨rfl, h, rfl⟩

theorem C2_gate_resolution_witness :
    ((greedyGate sampleTopo.graph (initSt 3) ⟨("cx"), [0, 1], ("g0")⟩).map
      (fun st2 => decide (st2.distancePenalty = (initSt 3).distancePenalty))).getD false
        = true ∧
    ((lookAheadGate sampleTopo.graph sampleCircuit 0 5 (initSt 3) 0
        ⟨("cx"), [0, 1], ("g0")⟩).map
      (fun st2 => decide (st2.distancePenalty = (initSt 3).distancePenalty))).getD false
        = true ∧
    (emitNative (addPenalty sampleTopo.graph (initSt 3) 0 1)
      (⟨("cx"), [0, 1], ("g0")⟩ : Gate)).distancePenalty = (initSt 3).distancePenalty := by
  have hth := C2_gate_resolution (buildGraph_irr ("lnn") ⟨some 3, none, none⟩)
  refine ⟨?_, ?_, ?_⟩
  · cases hr : greedyGate sampleTopo.graph (initSt 3) ⟨("cx"), [0, 1], ("g0")⟩ with
    | none => exact absurd hr (by decide)
    | some st2 =>
      obtain ⟨stMid, hloop, hsteps, hdi⟩ := hth.1 (initSt 3) ("cx") ("g0") 0 1 st2 hr
      have hloop2 : greedyLoop sampleTopo.graph 0 1 (initSt 3)
          (sampleTopo.graph.length + 1) = some stMid := hloop
      have hlc : greedyLoop sampleTopo.graph 0 1 (initSt 3) (sampleTopo.graph.length + 1) =
          some (initSt 3) := by decide
      rw [hlc] at hloop2
      have hmid : initSt 3 = stMid := Option.some_inj.mp hloop2
      rw [← hmid] at hdi
      rcases hdi with ⟨_, _, hp⟩ | ⟨hcon, _, _⟩
      · simp [hp]
      · exact absurd hcon (by decide)
  · cases hr : lookAheadGate sampleTopo.graph sampleCircuit 0 5 (initSt 3) 0
        ⟨("cx"), [0, 1], ("g0")⟩ with
    | none => exact absurd hr (by decide)
    | some st2 =>
      obtain ⟨stMid, hloop, hsteps, hdi⟩ :=
        hth.2.1 sampleCircuit 0 5 (initSt 3) 0 ("cx") ("g0") 0 1 st2 hr
      have hloop2 : lookAheadLoop sampleTopo.graph sampleCircuit 0 1 0 0 (initSt 3) 5 =
          some stMid := hloop
      have hlc : lookAheadLoop sampleTopo.graph sampleCircuit 0 1 0 0 (initSt 3) 5 =
          some (initSt 3) := by decide
      rw [hlc] at hloop2
      have hmid : initSt 3 = stMid := Option.some_inj.mp hloop2
      rw [← hmid] at hdi
      rcases hdi with ⟨_, _, hp⟩ | ⟨hcon, _, _⟩
      · simp [hp]
      · exact absurd hcon (by decide)
  · obtain ⟨hstep, hsteps, hdi⟩ :=
      hth.2.2 [] (initSt 3) 0 ("cx") ("g0") 0 1 [] (initSt 3) 0 rfl
    rcases hdi with ⟨_, _, hp⟩ | ⟨hcon, _, _⟩
    · exact hp
    · exact absurd hcon (by decide)

/-! ## Greedy termination -/

theorem getD_map_lt {f : Nat → Nat} {l : List Nat} {i : Nat} (h : i < l.length) :
    (l.map f).getD i 0 = f (l.getD i 0) := by
  rw [List.getD_eq_getElem?_getD, List.getD_eq_getElem?_getD,
    List.getElem?_eq_getElem (by simpa using h), List.getElem?_eq_getElem h]
  simp

/-- Every vertex of a trail is a device qubit when the start is. -/
theorem trail_entries_lt {g : Graph} {n : Nat} (hcl : Closed g) (hgl : g.length = n) :
    ∀ (ws : List Nat) (a b : Nat), TrailFrom g a b ws → a < n → ∀ x ∈ ws, x < n := by
  intro ws
  induction ws with
  | nil =>
    intro a b hw ha x hx
    exact absurd hx (by simp)
  | cons u us ih =>
    intro a b hw ha x hx
    obtain ⟨h1, h2, h3⟩ := hw
    have hua : u = a := by simpa using h1
    rcases List.mem_cons.mp hx with hxu | hxus
    · rw [hxu, hua]; exact ha
    · cases us with
      | nil => exact absurd hxus (by simp)
      | cons y ys =>
        have hadj : isConnected g u y = true := (List.chain'_cons.mp h3).1
        have hy : y < n := by
          rw [← hgl]
          exact hcl u y (mem_adjList_of_isConnected hadj)
        refine ih y b ⟨rfl, ?_, (List.chain'_cons.mp h3).2⟩ hy x hxus
        rw [← h2, List.getLast?_cons_cons]

/-- BFS distances are below the device size. -/
theorem distance_lt_length {g : Graph} {n a b d : Nat} (hcl : Closed g)
    (hgl : g.length = n) (ha : a < n) (hd : distance g a b = some d) : d < n := by
  obtain ⟨m, ws, hm, hw, hnd, hlen⟩ := reachesIn_nodup d (distance_sound hd)
  obtain ⟨d2, hd2, _, hmin⟩ := distance_isSome ⟨d, distance_sound hd⟩
  rw [hd] at hd2
  have hdd2 : d = d2 := Option.some_inj.mp hd2
  have hdm : d ≤ m := by
    rw [hdd2]
    exact hmin m ⟨ws, hw, hlen⟩
  have hsub : ws ⊆ List.range n := by
    intro x hx
    exact List.mem_range.mpr (trail_entries_lt hcl hgl ws a b hw ha x hx)
  have hle : ws.length ≤ n := by
    have := (hnd.subperm hsub).length_le
    simpa using this
  omega

/-- One fuel unit per unit of distance completes the greedy inner loop: each
iteration walks the first edge of the current shortest path, which brings
the pair's distance strictly down. -/
theorem greedyLoop_completes {g : Graph} {n c t : Nat} (hcl : Closed g) (hgl : g.length = n)
    (hc : c < n) (ht : t < n) :
    ∀ (fuel : Nat) (st : MapSt), StOk n st →
      (∀ d, distance g (st.layout.getD c 0) (st.layout.getD t 0) = some d → d + 1 ≤ fuel) →
      1 ≤ fuel → ∃ st2, greedyLoop g c t st fuel = some st2 := by
  intro fuel
  induction fuel with
  | zero =>
    intro st hok hbound hpos
    omega
  | succ f ih =>
    intro st hok hbound hpos
    rw [greedyLoop]
    by_cases hcon : isConnected g (st.layout.getD c 0) (st.layout.getD t 0) = true
    · rw [if_pos hcon]
      exact ⟨st, rfl⟩
    · rw [if_neg hcon]
      by_cases hp2 : (getShortestPath g (st.layout.getD c 0) (st.layout.getD t 0)).length < 2
      · rw [if_pos hp2]
        exact ⟨st, rfl⟩
      · rw [if_neg hp2]
        simp only []
        have hplen : 2 ≤ (getShortestPath g (st.layout.getD c 0)
            (st.layout.getD t 0)).length := by omega
        obtain ⟨y, rest, hpath, hadj⟩ := getShortestPath_two hplen
        rcases distance_getShortestPath g (st.layout.getD c 0) (st.layout.getD t 0) with
          ⟨_, hnil⟩ | ⟨d, hd, hlen, htr⟩
        · rw [hnil] at hplen
          simp at hplen
        · have hne : st.layout.getD c 0 ≠ st.layout.getD t 0 := by
            intro hcc
            rw [hcc, getShortestPath_self_length] at hplen
            omega
          have hd1 : d ≠ 0 := by
            intro h0
            rw [h0] at hd
            exact hne (reachesIn_zero_eq (distance_sound hd))
          have hd2 : d ≠ 1 := by
            intro h1
            rw [h1] at hd
            rw [reachesIn_one_adj (distance_sound hd)] at hcon
            exact hcon rfl
          have hdge : 2 ≤ d := by omega
          have hyne : y ≠ st.layout.getD t 0 := by
            intro hyc
            rw [hyc] at hadj
            exact hcon hadj
          have hcne : st.layout.getD t 0 ≠ st.layout.getD c 0 := fun hx => hne hx.symm
          have hperm := hok.perm
          have hnd : st.layout.Nodup := hperm.nodup_iff.mpr (List.nodup_range n)
          have hlenl : st.layout.length = n := by
            have := hperm.length_eq
            simpa using this
          have hp1n : st.layout.getD c 0 < n := (perm_entry_lt hperm hc).1
          have hm1 : st.layout.getD c 0 ∈ st.layout := (perm_entry_lt hperm hc).2
          have hyn : y < n := by
            rw [← hgl]
            exact hcl (st.layout.getD c 0) y (mem_adjList_of_isConnected hadj)
          have hmy : y ∈ st.layout := hperm.mem_iff.mpr (List.mem_range.mpr hyn)
          have hfst := swapAtValues_fst hnd hm1 hmy
          have hq1 : (getShortestPath g (st.layout.getD c 0) (st.layout.getD t 0)).getD 0 0 =
              st.layout.getD c 0 := by rw [hpath]; rfl
          have hq2 : (getShortestPath g (st.layout.getD c 0) (st.layout.getD t 0)).getD 1 0 =
              y := by rw [hpath]; rfl
          rw [hq1, hq2]
          have hc2 : ((swapAtValues st.layout (st.layout.getD c 0) y).1).getD c 0 = y := by
            rw [hfst, getD_map_lt (by omega)]
            unfold transpose2
            rw [if_pos rfl]
          have ht2 : ((swapAtValues st.layout (st.layout.getD c 0) y).1).getD t 0 =
              st.layout.getD t 0 := by
            rw [hfst, getD_map_lt (by omega)]
            unfold transpose2
            rw [if_neg hcne, if_neg (fun hx => hyne hx.symm)]
          have htail : TrailFrom g y (st.layout.getD t 0) (y :: rest) := by
            obtain ⟨h1, h2, h3⟩ := htr
            rw [hpath] at h2 h3
            refine ⟨rfl, ?_, (List.chain'_cons.mp h3).2⟩
            rw [← h2, List.getLast?_cons_cons]
          have htlen : (y :: rest).length = (d - 1) + 1 := by
            rw [hpath] at hlen
            simp only [List.length_cons] at hlen ⊢
            omega
          obtain ⟨d3, hd3, hd3le⟩ := distance_le ⟨y :: rest, htail, htlen⟩
          have hdb := hbound d hd
          refine ih _ (stOk_swapStep hok hp1n hyn) ?_ (by omega)
          intro d4 hd4
          have hd4b : distance g
              (((swapAtValues st.layout (st.layout.getD c 0) y).1).getD c 0)
              (((swapAtValues st.layout (st.layout.getD c 0) y).1).getD t 0) =
              some d4 := hd4
          rw [hc2, ht2] at hd4b
          rw [hd3] at hd4b
          have : d3 = d4 := Option.some_inj.mp hd4b
          omega

theorem greedyGate_total {g : Graph} {n : Nat} (hcl : Closed g) (hgl : g.length = n)
    {st : MapSt} (hok : StOk n st) {gate : Gate} (hq : ∀ q ∈ gate.qubits, q < n) :
    ∃ st2, greedyGate g st gate = some st2 := by
  unfold greedyGate
  by_cases h2 : (gate.qubits.length == 2) = true
  · rw [if_pos h2]
    simp only []
    have hlen : gate.qubits.length = 2 := by simpa using h2
    have hc : gate.qubits.getD 0 0 < n := by
      apply hq
      rw [List.getD_eq_getElem?_getD, List.getElem?_eq_getElem (by omega)]
      exact List.getElem_mem _
    have ht : gate.qubits.getD 1 0 < n := by
      apply hq
      rw [List.getD_eq_getElem?_getD, List.getElem?_eq_getElem (by omega)]
      exact List.getElem_mem _
    obtain ⟨st2, h3⟩ := greedyLoop_completes hcl hgl hc ht (g.length + 1) st hok
      (fun d hd => by
        have := distance_lt_length hcl hgl (perm_entry_lt hok.perm hc).1 hd
        omega)
      (by omega)
    rw [h3]
    exact ⟨_, rfl⟩
  · rw [if_neg h2]
    exact ⟨_, rfl⟩

theorem greedyMapAux_total {g : Graph} {n : Nat} (hcl : Closed g) (hgl : g.length = n) :
    ∀ (gs : List Gate) (st : MapSt), StOk n st →
      (∀ gate ∈ gs, ∀ q ∈ gate.qubits, q < n) →
      ∃ st2, greedyMapAux g gs st = some st2 := by
  intro gs
  induction gs with
  | nil =>
    intro st hok _
    exact ⟨st, rfl⟩
  | cons gate gs ih =>
    intro st hok hq
    unfold greedyMapAux
    obtain ⟨st2, h2⟩ := greedyGate_total hcl hgl hok (hq gate (List.mem_cons_self _ _))
    rw [h2]
    exact ih st2 (greedyGate_stOk hcl hgl hok (hq gate (List.mem_cons_self _ _)) h2)
      (fun gate2 hg2 => hq gate2 (List.mem_cons_of_mem _ hg2))

theorem greedyMap_total {circuit : QuantumCircuit} {hw : HardwareTopology}
    (h : ValidPair circuit hw) : ∃ res, greedyMap circuit hw = some res := by
  obtain ⟨st2, h2⟩ := greedyMapAux_total (validPair_closed h) h.2.2.2 circuit.gates
    (initSt circuit.nQubits) (stOk_init _) (fun gate hg q hq2 => h.1.2 gate hg q hq2)
  refine ⟨finishResult st2, ?_⟩
  unfold greedyMap
  rw [h2]
  rfl

/-- Any two sufficient fuels agree: the chromosome loop genuinely stops
within its cursor budget. -/
theorem applyChromosomeLoop_fuel_irrel {g : Graph} {chromosome : Chromosome} {c t : Nat} :
    ∀ (fuel fuel2 : Nat) (st : MapSt) (si : Nat),
      chromosome.length ≤ si + fuel → chromosome.length ≤ si + fuel2 →
      applyChromosomeLoop g chromosome c t fuel st si =
        applyChromosomeLoop g chromosome c t fuel2 st si := by
  intro fuel
  induction fuel with
  | zero =>
    intro fuel2 st si h1 h2
    rw [@applyChromosomeLoop_exhausted g chromosome c t fuel2 st si (by omega)]
    rfl
  | succ f ih =>
    intro fuel2 st si h1 h2
    cases fuel2 with
    | zero =>
      rw [@applyChromosomeLoop_exhausted g chromosome c t (f + 1) st si (by omega)]
      rfl
    | succ f2 =>
      rw [applyChromosomeLoop]
      conv_rhs => rw [applyChromosomeLoop]
      by_cases hg : isConnected g (st.layout.getD c 0) (st.layout.getD t 0) = false ∧
          si < chromosome.length
      · rw [if_pos hg, if_pos hg]
        cases hget : chromosome.getD si none with
        | none => rfl
        | some p =>
          obtain ⟨swapQ1, swapQ2⟩ := p
          show (if (st.layout.contains swapQ1 && st.layout.contains swapQ2) = true then
              applyChromosomeLoop g chromosome c t f
                { steps := st.steps ++ [Step.swap (swapQ1, swapQ2)
                    ((swapAtValues st.layout swapQ1 swapQ2).2.1,
                      (swapAtValues st.layout swapQ1 swapQ2).2.2)
                    (swapAtValues st.layout swapQ1 swapQ2).1 true st.depth]
                  layout := (swapAtValues st.layout swapQ1 swapQ2).1
                  insertedSwaps := st.insertedSwaps + 1
                  depth := st.depth + 1
                  distancePenalty := st.distancePenalty } (si + 1)
            else applyChromosomeLoop g chromosome c t f st (si + 1)) =
            (if (st.layout.contains swapQ1 && st.layout.contains swapQ2) = true then
              applyChromosomeLoop g chromosome c t f2
                { steps := st.steps ++ [Step.swap (swapQ1, swapQ2)
                    ((swapAtValues st.layout swapQ1 swapQ2).2.1,
                      (swapAtValues st.layout swapQ1 swapQ2).2.2)
                    (swapAtValues st.layout swapQ1 swapQ2).1 true st.depth]
                  layout := (swapAtValues st.layout swapQ1 swapQ2).1
                  insertedSwaps := st.insertedSwaps + 1
                  depth := st.depth + 1
                  distancePenalty := st.distancePenalty } (si + 1)
            else applyChromosomeLoop g chromosome c t f2 st (si + 1))
          by_cases hcont : (st.layout.contains swapQ1 && st.layout.contains swapQ2) = true
          · rw [if_pos hcont, if_pos hcont]
            exact ih f2 _ (si + 1) (by omega) (by omega)
          · rw [if_neg hcont, if_neg hcont]
            exact ih f2 st (si + 1) (by omega) (by omega)
      · rw [if_neg hg, if_neg hg]

/-- With window 0 every candidate swap scores 0, so findBestSwap always
answers the first edge (0,1) and the loop swaps it back and forth forever:
no fuel makes it stop. -/
theorem lookAheadLoop_c5_none :
    ∀ (fuel : Nat) (st : MapSt), st.layout = [0, 1, 2, 3] ∨ st.layout = [1, 0, 2, 3] →
      lookAheadLoop c5Topo.graph c5Circuit 0 3 0 0 st fuel = none := by
  intro fuel
  induction fuel with
  | zero =>
    intro st _
    rfl
  | succ f ih =>
    intro st hlay
    rw [lookAheadLoop]
    rcases hlay with h | h
    · rw [if_neg (by rw [h]; decide)]
      have hfb : findBestSwap c5Topo.graph c5Circuit st.layout 0 0 = some (0, 1) := by
        rw [h]
        decide
      rw [hfb]
      apply ih
      right
      show (swapAtValues st.layout 0 1).1 = [1, 0, 2, 3]
      rw [h]
      decide
    · rw [if_neg (by rw [h]; decide)]
      have hfb : findBestSwap c5Topo.graph c5Circuit st.layout 0 0 = some (0, 1) := by
        rw [h]
        decide
      rw [hfb]
      apply ih
      left
      show (swapAtValues st.layout 0 1).1 = [0, 1, 2, 3]
      rw [h]
      decide

/-- C5 counterexample: on the 4-qubit line with the single gate (0,3) and
lookAhead 0, LookAheadMapper's swap loop never terminates (the Lean map
returns none for every fuel), although the device has edges. -/
theorem C5_counterexample : lookAheadNeverReturns c5Circuit c5Topo 0 := by
  intro fuel
  have hloop := lookAheadLoop_c5_none fuel (initSt 4) (Or.inl (by decide))
  show (lookAheadMapAux c5Topo.graph c5Circuit 0 fuel c5Circuit.gates.enum
    (initSt 4)).map finishResult = none
  have hgate : lookAheadGate c5Topo.graph c5Circuit 0 fuel (initSt 4) 0
      ⟨("cx"), [0, 3], ("cx_0_3_0")⟩ = none := by
    show (match lookAheadLoop c5Topo.graph c5Circuit 0 3 0 0 (initSt 4) fuel with
      | none => none
      | some st2 => some (emitNative (addPenalty c5Topo.graph st2 0 3)
          ⟨("cx"), [0, 3], ("cx_0_3_0")⟩)) = none
    rw [hloop]
  have haux : lookAheadMapAux c5Topo.graph c5Circuit 0 fuel c5Circuit.gates.enum
      (initSt 4) = none := by
    show (match lookAheadGate c5Topo.graph c5Circuit 0 fuel (initSt 4) 0
        ⟨("cx"), [0, 3], ("cx_0_3_0")⟩ with
      | none => none
      | some st2 => lookAheadMapAux c5Topo.graph c5Circuit 0 fuel [] st2) = none
    rw [hgate]
  rw [haux]
  rfl

/-- C5 (corrected): the greedy loop always stops - each iteration walks one
edge of the current shortest path, so it resolves or degenerates within the
device size, and greedyMap returns a result on every valid pair - and the
genetic replay loop stops within its cursor budget (any two sufficient
fuels agree).  The spec's sentence fails only for LookAheadMapper, whose
loop can oscillate forever even on a device with an edge
(C5_counterexample). -/
theorem C5_loop_termination :
    (∀ (circuit : QuantumCircuit) (hw : HardwareTopology), ValidPair circuit hw →
      ∃ res, greedyMap circuit hw = some res) ∧
    (∀ (g : Graph) (chromosome : Chromosome) (c t fuel fuel2 : Nat) (st : MapSt) (si : Nat),
      chromosome.length ≤ si + fuel → chromosome.length ≤ si + fuel2 →
      applyChromosomeLoop g chromosome c t fuel st si =
        applyChromosomeLoop g chromosome c t fuel2 st si) :=
  ⟨fun circuit hw h => greedyMap_total h,
    fun g chromosome c t fuel fuel2 st si h1 h2 =>
      applyChromosomeLoop_fuel_irrel fuel fuel2 st si h1 h2⟩

theorem C5_loop_termination_witness :
    ValidPair sampleCircuit sampleTopo ∧
    (greedyMap sampleCircuit sampleTopo).isSome = true ∧
    applyChromosomeLoop sampleTopo.graph [some (0, 1)] 0 2 5 (initSt 3) 0 =
      applyChromosomeLoop sampleTopo.graph [some (0, 1)] 0 2 1 (initSt 3) 0 := by
  refine ⟨by decide, ?_,
    C5_loop_termination.2 sampleTopo.graph [some (0, 1)] 0 2 5 1 (initSt 3) 0 (by decide)
      (by decide)⟩
  obtain ⟨res, hres⟩ := C5_loop_termination.1 sampleCircuit sampleTopo (by decide)
  rw [hres]
  rfl

theorem getValidSwaps_intro {g : Graph} {u v : Nat} (hu : u < g.length)
    (hv : v ∈ adjList g u) (huv : u < v) : (u, v) ∈ getValidSwaps g := by
  unfold getValidSwaps
  rw [List.mem_flatten]
  refine ⟨(adjList g u).filterMap (fun q2 => if u < q2 then some (u, q2) else none), ?_, ?_⟩
  · rw [List.mem_map]
    exact ⟨u, List.mem_range.mpr hu, rfl⟩
  · rw [List.mem_filterMap]
    exact ⟨v, hv, by rw [if_pos huv]⟩

/-- A connected device with two qubits has a hardware edge to pick from. -/
theorem getValidSwaps_ne_nil {g : Graph} (hs : Symm g) (hi : Irr g) (hcl : Closed g)
    {a b : Nat} (hab : a ≠ b) (hre : Reaches g a b) : getValidSwaps g ≠ [] := by
  obtain ⟨n0, ws, ⟨h1, h2, h3⟩, hlen⟩ := hre
  cases ws with
  | nil => exact absurd h1 (by simp)
  | cons x rest =>
    have hxa : x = a := by simpa using h1
    cases rest with
    | nil =>
      have hxb : x = b := by simpa using h2
      exact absurd (hxa ▸ hxb ▸ rfl) hab
    | cons y ys =>
      have hadj : isConnected g x y = true := (List.chain'_cons.mp h3).1
      rw [hxa] at hadj
      have hya : y ≠ a := by
        intro hc
        rw [hc, hi a] at hadj
        exact Bool.noConfusion hadj
      have hmemy : y ∈ adjList g a := mem_adjList_of_isConnected hadj
      have hmema : a ∈ adjList g y := mem_adjList_of_isConnected (hs a y hadj)
      have hyl : y < g.length := hcl a y hmemy
      have hal : a < g.length := hcl y a hmema
      rcases Nat.lt_or_ge a y with hlt | hge
      · exact List.ne_nil_of_mem (getValidSwaps_intro hal hmemy hlt)
      · have hlt2 : y < a := by omega
        exact List.ne_nil_of_mem (getValidSwaps_intro hyl hmema hlt2)

theorem pick_isSome {validSwaps : List (Nat × Nat)} (h : validSwaps ≠ []) (rng : Rng) :
    ((rng.pick validSwaps).1).isSome = true := by
  unfold Rng.pick
  simp only []
  have hlen : 0 < validSwaps.length := List.length_pos.mpr h
  rw [List.get?_eq_getElem?, List.getElem?_eq_getElem (Nat.mod_lt _ hlen)]
  rfl

theorem pickMany_allSome {validSwaps : List (Nat × Nat)} (h : validSwaps ≠ []) :
    ∀ (n : Nat) (rng : Rng), allSome (pickMany validSwaps n rng).1 := by
  intro n
  induction n with
  | zero =>
    intro rng e he
    exact absurd he (by simp [pickMany])
  | succ m ih =>
    intro rng e he
    rw [pickMany] at he
    simp only [List.mem_cons] at he
    rcases he with he | he
    · rw [he]
      exact pick_isSome h rng
    · exact ih _ e he

theorem initPopAux_allSome {validSwaps : List (Nat × Nat)} (h : validSwaps ≠ [])
    (ms : Nat) : ∀ (n : Nat) (rng : Rng),
      ∀ ch ∈ (initPopAux validSwaps ms n rng).1, allSome ch := by
  intro n
  induction n with
  | zero =>
    intro rng ch hch
    exact absurd hch (by simp [initPopAux])
  | succ m ih =>
    intro rng ch hch
    rw [initPopAux] at hch
    simp only [List.mem_cons] at hch
    rcases hch with hch | hch
    · rw [hch]
      exact pickMany_allSome h _ _
    · exact ih _ ch hch

theorem initPopAux_length (validSwaps : List (Nat × Nat)) (ms : Nat) :
    ∀ (n : Nat) (rng : Rng), (initPopAux validSwaps ms n rng).1.length = n := by
  intro n
  induction n with
  | zero => intro rng; rfl
  | succ m ih =>
    intro rng
    rw [initPopAux]
    simp only [List.length_cons]
    rw [ih]

theorem chromosomeKey_ok {ch : Chromosome} (h : allSome ch) :
    ∃ s, chromosomeKey ch = .ok s := by
  unfold chromosomeKey
  rw [if_pos (List.all_eq_true.mpr h)]
  exact ⟨_, rfl⟩

/-- With no undefined entry the replay loop cannot throw. -/
theorem applyChromosomeLoop_total {g : Graph} {chromosome : Chromosome} {c t : Nat}
    (h : allSome chromosome) :
    ∀ (fuel : Nat) (st : MapSt) (si : Nat),
      ∃ r, applyChromosomeLoop g chromosome c t fuel st si = .ok r := by
  intro fuel
  induction fuel with
  | zero =>
    intro st si
    exact ⟨(st, si), rfl⟩
  | succ f ih =>
    intro st si
    rw [applyChromosomeLoop]
    by_cases hg : isConnected g (st.layout.getD c 0) (st.layout.getD t 0) = false ∧
        si < chromosome.length
    · rw [if_pos hg]
      have hget : ∃ p, chromosome.getD si none = some p := by
        have hm : chromosome.getD si none ∈ chromosome := by
          rw [List.getD_eq_getElem?_getD, List.getElem?_eq_getElem hg.2]
          exact List.getElem_mem _
        exact Option.isSome_iff_exists.mp (h _ hm)
      obtain ⟨⟨swapQ1, swapQ2⟩, hp⟩ := hget
      rw [hp]
      show ∃ r, (if (st.layout.contains swapQ1 && st.layout.contains swapQ2) = true then
          applyChromosomeLoop g chromosome c t f
            { steps := st.steps ++ [Step.swap (swapQ1, swapQ2)
                ((swapAtValues st.layout swapQ1 swapQ2).2.1,
                  (swapAtValues st.layout swapQ1 swapQ2).2.2)
                (swapAtValues st.layout swapQ1 swapQ2).1 true st.depth]
              layout := (swapAtValues st.layout swapQ1 swapQ2).1
              insertedSwaps := st.insertedSwaps + 1
              depth := st.depth + 1
              distancePenalty := st.distancePenalty } (si + 1)
        else applyChromosomeLoop g chromosome c t f st (si + 1)) = Except.ok r
      by_cases hcont : (st.layout.contains swapQ1 && st.layout.contains swapQ2) = true
      · rw [if_pos hcont]
        exact ih _ (si + 1)
      · rw [if_neg hcont]
        exact ih st (si + 1)
    · rw [if_neg hg]
      exact ⟨(st, si), rfl⟩

theorem applyChromosomeAux_total {g : Graph} {chromosome : Chromosome}
    (h : allSome chromosome) :
    ∀ (gs : List Gate) (st : MapSt) (si : Nat),
      ∃ r, applyChromosomeAux g chromosome gs (st, si) = .ok r := by
  intro gs
  induction gs with
  | nil =>
    intro st si
    exact ⟨(st, si), rfl⟩
  | cons gate gs ih =>
    intro st si
    unfold applyChromosomeAux
    by_cases h2 : (gate.qubits.length == 2) = true
    · rw [if_pos h2]
      simp only []
      obtain ⟨⟨st3, si3⟩, h3⟩ := applyChromosomeLoop_total h (chromosome.length - si) st si
      rw [h3]
      exact ih _ si3
    · rw [if_neg h2]
      exact ih _ si

theorem applyChromosome_total {g : Graph} {chromosome : Chromosome}
    (h : allSome chromosome) (circuit : QuantumCircuit) :
    ∃ res, applyChromosome circuit g chromosome = .ok res := by
  obtain ⟨r, hr⟩ := applyChromosomeAux_total h circuit.gates (initSt circuit.nQubits) 0
  refine ⟨finishResult r.1, ?_⟩
  unfold applyChromosome
  rw [hr]
  rfl

/-- On a connected device a valid replay accumulates only finite penalty. -/
theorem applyChromosomeAux_finite {g : Graph} {n : Nat} (hgl : g.length = n)
    (hre : ∀ a b, a < n → b < n → Reaches g a b) {chromosome : Chromosome} :
    ∀ (gs : List Gate) (st : MapSt) (si : Nat) (r : MapSt × Nat),
      (∀ gate ∈ gs, ∀ q ∈ gate.qubits, q < n) → StOk n st →
      st.distancePenalty ≠ ⊤ →
      applyChromosomeAux g chromosome gs (st, si) = .ok r → r.1.distancePenalty ≠ ⊤ := by
  intro gs
  induction gs with
  | nil =>
    intro st si r _ _ hfin hr
    have hst : st = r.1 := congrArg Prod.fst (Except.ok.inj hr)
    rw [← hst]
    exact hfin
  | cons gate gs ih =>
    intro st si r hq hok hfin hr
    unfold applyChromosomeAux at hr
    by_cases h2 : (gate.qubits.length == 2) = true
    · rw [if_pos h2] at hr
      simp only [] at hr
      cases hl : applyChromosomeLoop g chromosome (gate.qubits.getD 0 0)
          (gate.qubits.getD 1 0) (chromosome.length - si) st si with
      | error e => rw [hl] at hr; exact Except.noConfusion hr
      | ok p =>
        obtain ⟨st3, si3⟩ := p
        rw [hl] at hr
        have hlen : gate.qubits.length = 2 := by simpa using h2
        have hc : gate.qubits.getD 0 0 < n := by
          apply hq gate (List.mem_cons_self _ _)
          rw [List.getD_eq_getElem?_getD, List.getElem?_eq_getElem (by omega)]
          exact List.getElem_mem _
        have ht : gate.qubits.getD 1 0 < n := by
          apply hq gate (List.mem_cons_self _ _)
          rw [List.getD_eq_getElem?_getD, List.getElem?_eq_getElem (by omega)]
          exact List.getElem_mem _
        have hok3 : StOk n st3 := applyChromosomeLoop_stOk hgl _ st si st3 si3 hok hl
        have hfin3 : st3.distancePenalty ≠ ⊤ := by
          rw [applyChromosomeLoop_penalty _ st si st3 si3 hl]
          exact hfin
        have hp1 : st3.layout.getD (gate.qubits.getD 0 0) 0 < n :=
          (perm_entry_lt hok3.perm hc).1
        have hp2 : st3.layout.getD (gate.qubits.getD 1 0) 0 < n :=
          (perm_entry_lt hok3.perm ht).1
        obtain ⟨d, hd, _, _⟩ := distance_isSome (hre _ _ hp1 hp2)
        have hdm : distMinusOne g (st3.layout.getD (gate.qubits.getD 0 0) 0)
            (st3.layout.getD (gate.qubits.getD 1 0) 0) = (((d : Int) - 1 : Int) : WithTop Int)
            := by
          unfold distMinusOne
          rw [hd]
        have hfin4 : (emitNative (addPenalty g st3 (gate.qubits.getD 0 0)
            (gate.qubits.getD 1 0)) gate).distancePenalty ≠ ⊤ := by
          show st3.distancePenalty + distMinusOne g (st3.layout.getD (gate.qubits.getD 0 0) 0)
            (st3.layout.getD (gate.qubits.getD 1 0) 0) ≠ ⊤
          rw [hdm]
          exact WithTop.add_ne_top.mpr ⟨hfin3, WithTop.coe_ne_top⟩
        exact ih _ si3 r (fun gate2 hg2 => hq gate2 (List.mem_cons_of_mem _ hg2))
          (stOk_emitNative (stOk_addPenalty hok3 g _ _) gate) hfin4 hr
    · rw [if_neg h2] at hr
      exact ih _ si r (fun gate2 hg2 => hq gate2 (List.mem_cons_of_mem _ hg2))
        (stOk_emitNative hok gate) hfin hr

/-- On a connected device every defined chromosome has a finite fitness. -/
theorem evaluateFitness_some {g : Graph} {circuit : QuantumCircuit}
    (hgl : g.length = circuit.nQubits)
    (hre : ∀ a b, a < circuit.nQubits → b < circuit.nQubits → Reaches g a b)
    (hq : ∀ gate ∈ circuit.gates, ∀ q ∈ gate.qubits, q < circuit.nQubits)
    {ch : Chromosome} (h : allSome ch) :
    ∃ v, evaluateFitness circuit g ch = .ok (some v) := by
  obtain ⟨⟨st2, si2⟩, hr⟩ := applyChromosomeAux_total h circuit.gates
    (initSt circuit.nQubits) 0
  have hfin : st2.distancePenalty ≠ ⊤ :=
    applyChromosomeAux_finite hgl hre circuit.gates (initSt circuit.nQubits) 0 (st2, si2)
      hq (stOk_init _) (by
        show ((0 : Int) : WithTop Int) ≠ ⊤
        exact WithTop.coe_ne_top) hr
  have happ : applyChromosome circuit g ch = .ok (finishResult st2) := by
    unfold applyChromosome
    rw [hr]
    rfl
  unfold evaluateFitness
  rw [happ]
  show ∃ v, (Except.ok (match (finishResult st2).distancePenalty with
      | none => (none : Option Int)
      | some p => some (-(((finishResult st2).insertedSwaps : Int) * 10 +
          ((finishResult st2).depth : Int) + p * 3))) : Except JsError (Option Int)) =
    .ok (some v)
  cases hp : (finishResult st2).distancePenalty with
  | top => exact absurd hp hfin
  | coe p => exact ⟨_, rfl⟩

theorem evalPopulation_ok {circuit : QuantumCircuit} {g : Graph}
    (hkey : ∀ ch : Chromosome, allSome ch → ∃ s, chromosomeKey ch = .ok s)
    (hfit : ∀ ch : Chromosome, allSome ch → ∃ v, evaluateFitness circuit g ch = .ok (some v)) :
    ∀ pop : List Chromosome, (∀ ch ∈ pop, allSome ch) →
      ∃ evs, evalPopulation circuit g pop = .ok evs ∧ evs.length = pop.length ∧
        ∀ ev ∈ evs, allSome ev.chromosome ∧ ∃ v, ev.fitness = some v := by
  intro pop
  induction pop with
  | nil =>
    intro hall
    exact ⟨[], rfl, rfl, fun ev hev => absurd hev (by simp)⟩
  | cons c cs ih =>
    intro hall
    obtain ⟨s, hs⟩ := hkey c (hall c (List.mem_cons_self _ _))
    obtain ⟨v, hv⟩ := hfit c (hall c (List.mem_cons_self _ _))
    obtain ⟨evs, hevs, hlen, hprop⟩ := ih (fun ch hch => hall ch (List.mem_cons_of_mem _ hch))
    refine ⟨⟨c, some v⟩ :: evs, ?_, by simp [hlen], ?_⟩
    · unfold evalPopulation
      rw [hs, hv, hevs]
    · intro ev hev
      rcases List.mem_cons.mp hev with hev | hev
      · rw [hev]
        exact ⟨hall c (List.mem_cons_self _ _), v, rfl⟩
      · exact hprop ev hev

theorem insertFitDesc_perm (x : Evaluated) : ∀ l : List Evaluated,
    (insertFitDesc x l).Perm (x :: l) := by
  intro l
  induction l with
  | nil => exact List.Perm.refl _
  | cons y ys ih =>
    rw [insertFitDesc]
    by_cases hc : fitnessLe y.fitness x.fitness = true
    · rw [if_pos hc]
    · rw [if_neg hc]
      exact (ih.cons y).trans (List.Perm.swap x y ys)

theorem sortByFitnessDesc_perm : ∀ l : List Evaluated, (sortByFitnessDesc l).Perm l := by
  intro l
  induction l with
  | nil => exact List.Perm.refl _
  | cons x xs ih =>
    rw [sortByFitnessDesc]
    exact (insertFitDesc_perm x (sortByFitnessDesc xs)).trans (ih.cons x)

theorem tournamentDraw_mem (evaluated : List Evaluated) :
    ∀ (k : Nat) (rng : Rng) (ev : Evaluated),
      ev ∈ (tournamentDraw evaluated k rng).1 → ev ∈ evaluated ∨ ev = ⟨[], none⟩ := by
  intro k
  induction k with
  | zero =>
    intro rng ev hev
    exact absurd hev (by simp [tournamentDraw])
  | succ m ih =>
    intro rng ev hev
    rw [tournamentDraw] at hev
    simp only [List.mem_cons] at hev
    rcases hev with hev | hev
    · rw [hev]
      by_cases hi : ((rng.floorMul evaluated.length).1) < evaluated.length
      · left
        rw [List.getD_eq_getElem?_getD, List.getElem?_eq_getElem hi]
        exact List.getElem_mem _
      · right
        rw [List.getD_eq_getElem?_getD, List.getElem?_eq_none (by omega)]
        rfl
    · exact ih _ ev hev

theorem tournamentSelect_allSome {evaluated : List Evaluated}
    (hev : ∀ ev ∈ evaluated, allSome ev.chromosome) (ts : Nat) (rng : Rng) :
    allSome (tournamentSelect evaluated ts rng).1 := by
  unfold tournamentSelect
  simp only []
  cases hs : sortByFitnessDesc (tournamentDraw evaluated ts rng).1 with
  | nil =>
    intro e he
    exact absurd he (by simp)
  | cons top rest =>
    show allSome top.chromosome
    have hmem : top ∈ (tournamentDraw evaluated ts rng).1 := by
      have := (sortByFitnessDesc_perm (tournamentDraw evaluated ts rng).1).mem_iff.mp
        (by rw [hs]; exact List.mem_cons_self _ _)
      exact this
    rcases tournamentDraw_mem evaluated ts rng top hmem with h | h
    · exact hev top h
    · rw [h]
      intro e he
      exact absurd he (by simp)

theorem crossover_allSome {p1 p2 : Chromosome} (h1 : allSome p1) (h2 : allSome p2)
    (rng : Rng) : allSome (crossover p1 p2 rng).1 := by
  unfold crossover
  by_cases hc : (p1.length == 0 || p2.length == 0) = true
  · rw [if_pos hc]
    by_cases hl : p1.length > 0
    · rw [if_pos hl]; exact h1
    · rw [if_neg hl]; exact h2
  · rw [if_neg hc]
    intro e he
    simp only [] at he
    rcases List.mem_append.mp he with he | he
    · exact h1 e (List.mem_of_mem_take he)
    · exact h2 e (List.mem_of_mem_drop he)

theorem mutate_allSome {g : Graph} (hv : getValidSwaps g ≠ []) (ms : Nat)
    {ch : Chromosome} (h : allSome ch) (rng : Rng) :
    allSome (mutate g ms ch rng).1 := by
  unfold mutate
  simp only []
  by_cases hb1 : ((rng.bucket3.1 == 0) && decide (ch.length > 0)) = true
  · rw [if_pos hb1]
    intro e he
    simp only [] at he
    rcases List.mem_or_eq_of_mem_set he with he | he
    · exact h e he
    · rw [he]
      exact pick_isSome hv _
  · rw [if_neg hb1]
    by_cases hb2 : (((rng.bucket3.1 == 0) || (rng.bucket3.1 == 1)) &&
        decide (ch.length < ms)) = true
    · rw [if_pos hb2]
      intro e he
      simp only [] at he
      rcases List.mem_append.mp he with he | he
      · exact h e he
      · rw [List.mem_singleton.mp he]
        exact pick_isSome hv _
    · rw [if_neg hb2]
      by_cases hb3 : ch.length > 1
      · rw [if_pos hb3]
        intro e he
        exact h e (List.mem_of_mem_eraseIdx he)
      · rw [if_neg hb3]
        exact h

theorem fillOffspring_allSome {g : Graph} (hv : getValidSwaps g ≠ [])
    {evaluated : List Evaluated} (hev : ∀ ev ∈ evaluated, allSome ev.chromosome)
    (ms ts : Nat) : ∀ (k : Nat) (rng : Rng),
      (∀ ch ∈ (fillOffspring g evaluated ms ts k rng).1, allSome ch) ∧
        (fillOffspring g evaluated ms ts k rng).1.length = k := by
  intro k
  induction k with
  | zero =>
    intro rng
    exact ⟨fun ch hch => absurd hch (by simp [fillOffspring]), rfl⟩
  | succ m ih =>
    intro rng
    rw [fillOffspring]
    simp only [List.length_cons]
    constructor
    · intro ch hch
      rcases List.mem_cons.mp hch with hch | hch
      · rw [hch]
        by_cases hm : ((crossover (tournamentSelect evaluated ts rng).1
            (tournamentSelect evaluated ts (tournamentSelect evaluated ts rng).2).1
            (tournamentSelect evaluated ts (tournamentSelect evaluated ts rng).2).2).2.bool).1
            = true
        · rw [if_pos hm]
          exact mutate_allSome hv ms (crossover_allSome
            (tournamentSelect_allSome hev ts rng)
            (tournamentSelect_allSome hev ts (tournamentSelect evaluated ts rng).2) _) _
        · rw [if_neg hm]
          exact crossover_allSome (tournamentSelect_allSome hev ts rng)
            (tournamentSelect_allSome hev ts (tournamentSelect evaluated ts rng).2) _
      · exact ((ih _).1) ch hch
    · rw [(ih _).2]

/-- The generation loop always succeeds on a device with an edge, and some
generation sets bestEver (the first one already does). -/
theorem genLoop_ok {circuit : QuantumCircuit} {g : Graph} {cfg : GeneticResolved}
    (hv : getValidSwaps g ≠ []) (hsize : 1 ≤ cfg.populationSize)
    (hkey : ∀ ch : Chromosome, allSome ch → ∃ s, chromosomeKey ch = .ok s)
    (hfit : ∀ ch : Chromosome, allSome ch → ∃ v, evaluateFitness circuit g ch = .ok (some v)) :
    ∀ (gens : Nat) (s : GenState),
      (∀ ch ∈ s.population, allSome ch) → s.population ≠ [] →
      ((∃ ch, s.bestEver = some ch ∧ allSome ch) ∨
        (1 ≤ gens ∧ s.bestEverFitness = none)) →
      ∃ s2, genLoop circuit g cfg gens s = .ok s2 ∧
        ∃ ch, s2.bestEver = some ch ∧ allSome ch := by
  intro gens
  induction gens with
  | zero =>
    intro s hall hne hbest
    rcases hbest with hb | ⟨h1, _⟩
    · exact ⟨s, rfl, hb⟩
    · omega
  | succ m ih =>
    intro s hall hne hbest
    obtain ⟨evs, hevs, hlen, hprop⟩ := evalPopulation_ok hkey hfit s.population hall
    rw [genLoop, hevs]
    show ∃ s2, (match sortByFitnessDesc evs with
        | [] => Except.error JsError.typeError
        | top :: _ =>
          if cfg.plateauThreshold ≤ (if fitnessLt s.bestEverFitness top.fitness then 0
              else s.plateauCounter + 1) then
            Except.ok ⟨s.population,
              (if fitnessLt s.bestEverFitness top.fitness then some top.chromosome
                else s.bestEver),
              (if fitnessLt s.bestEverFitness top.fitness then top.fitness
                else s.bestEverFitness),
              (if fitnessLt s.bestEverFitness top.fitness then 0 else s.plateauCounter + 1),
              s.rng⟩
          else
            genLoop circuit g cfg m ⟨(((sortByFitnessDesc evs).take
                (Frac.mul ⟨(cfg.populationSize : Int), 1⟩ cfg.eliteRatio).floorNat).map
                (fun e => e.chromosome)) ++
              (fillOffspring g (sortByFitnessDesc evs) cfg.maxSwapsPerChromosome
                cfg.tournamentSize (cfg.populationSize - (((sortByFitnessDesc evs).take
                  (Frac.mul ⟨(cfg.populationSize : Int), 1⟩ cfg.eliteRatio).floorNat).map
                  (fun e => e.chromosome)).length) s.rng).1,
              (if fitnessLt s.bestEverFitness top.fitness then some top.chromosome
                else s.bestEver),
              (if fitnessLt s.bestEverFitness top.fitness then top.fitness
                else s.bestEverFitness),
              (if fitnessLt s.bestEverFitness top.fitness then 0 else s.plateauCounter + 1),
              (fillOffspring g (sortByFitnessDesc evs) cfg.maxSwapsPerChromosome
                cfg.tournamentSize (cfg.populationSize - (((sortByFitnessDesc evs).take
                  (Frac.mul ⟨(cfg.populationSize : Int), 1⟩ cfg.eliteRatio).floorNat).map
                  (fun e => e.chromosome)).length) s.rng).2⟩)
      = Except.ok s2 ∧ ∃ ch, s2.bestEver = some ch ∧ allSome ch
    cases hsort : sortByFitnessDesc evs with
    | nil =>
      exfalso
      have hplen : evs.length = 0 := by
        have := (sortByFitnessDesc_perm evs).length_eq
        rw [hsort] at this
        simpa using this.symm
      have hpos : 0 < s.population.length := List.length_pos.mpr hne
      omega
    | cons top rest =>
      show ∃ s2, (if cfg.plateauThreshold ≤ (if fitnessLt s.bestEverFitness top.fitness
            then 0 else s.plateauCounter + 1) then
          Except.ok (⟨s.population,
            (if fitnessLt s.bestEverFitness top.fitness then some top.chromosome
              else s.bestEver),
            (if fitnessLt s.bestEverFitness top.fitness then top.fitness
              else s.bestEverFitness),
            (if fitnessLt s.bestEverFitness top.fitness then 0 else s.plateauCounter + 1),
            s.rng⟩ : GenState)
        else
          genLoop circuit g cfg m ⟨(((top :: rest).take
              (Frac.mul ⟨(cfg.populationSize : Int), 1⟩ cfg.eliteRatio).floorNat).map
              (fun e => e.chromosome)) ++
            (fillOffspring g (top :: rest) cfg.maxSwapsPerChromosome
              cfg.tournamentSize (cfg.populationSize - (((top :: rest).take
                (Frac.mul ⟨(cfg.populationSize : Int), 1⟩ cfg.eliteRatio).floorNat).map
                (fun e => e.chromosome)).length) s.rng).1,
            (if fitnessLt s.bestEverFitness top.fitness then some top.chromosome
              else s.bestEver),
            (if fitnessLt s.bestEverFitness top.fitness then top.fitness
              else s.bestEverFitness),
            (if fitnessLt s.bestEverFitness top.fitness then 0 else s.plateauCounter + 1),
            (fillOffspring g (top :: rest) cfg.maxSwapsPerChromosome
              cfg.tournamentSize (cfg.populationSize - (((top :: rest).take
                (Frac.mul ⟨(cfg.populationSize : Int), 1⟩ cfg.eliteRatio).floorNat).map
                (fun e => e.chromosome)).length) s.rng).2⟩)
        = Except.ok s2 ∧ ∃ ch, s2.bestEver = some ch ∧ allSome ch
      have htop : top ∈ evs := (sortByFitnessDesc_perm evs).mem_iff.mp
        (by rw [hsort]; exact List.mem_cons_self _ _)
      have hbe : ∃ ch, (if fitnessLt s.bestEverFitness top.fitness = true then
          some top.chromosome else s.bestEver) = some ch ∧ allSome ch := by
        by_cases himp : fitnessLt s.bestEverFitness top.fitness = true
        · rw [if_pos himp]
          exact ⟨top.chromosome, rfl, (hprop top htop).1⟩
        · rw [if_neg himp]
          rcases hbest with ⟨ch, hch, hchs⟩ | ⟨_, hfn⟩
          · exact ⟨ch, hch, hchs⟩
          · exfalso
            obtain ⟨v, hvv⟩ := (hprop top htop).2
            rw [hfn, hvv] at himp
            exact himp rfl
      obtain ⟨ch2, hch2, hchs2⟩ := hbe
      by_cases hpl : cfg.plateauThreshold ≤ (if fitnessLt s.bestEverFitness top.fitness
          then 0 else s.plateauCounter + 1)
      · rw [if_pos hpl]
        exact ⟨_, rfl, ch2, hch2, hchs2⟩
      · rw [if_neg hpl]
        have hsortp : ∀ ev ∈ (top :: rest), allSome ev.chromosome := by
          intro ev hev
          refine (hprop ev ?_).1
          refine (sortByFitnessDesc_perm evs).mem_iff.mp ?_
          rw [hsort]
          exact hev
        have hoff := fillOffspring_allSome hv hsortp cfg.maxSwapsPerChromosome
          cfg.tournamentSize (cfg.populationSize - (((top :: rest).take
            (Frac.mul ⟨(cfg.populationSize : Int), 1⟩ cfg.eliteRatio).floorNat).map
            (fun e => e.chromosome)).length) s.rng
        refine ih _ ?_ ?_ (Or.inl ⟨ch2, hch2, hchs2⟩)
        · intro ch hch
          rcases List.mem_append.mp hch with hch | hch
          · obtain ⟨ev, hev, hevc⟩ := List.mem_map.mp hch
            rw [← hevc]
            exact hsortp ev (List.mem_of_mem_take hev)
          · exact hoff.1 ch hch
        · intro hc
          obtain ⟨h1, h2⟩ := List.append_eq_nil.mp hc
          have := hoff.2
          rw [h2] at this
          simp only [List.length_nil] at this
          have hel : (((top :: rest).take
              (Frac.mul ⟨(cfg.populationSize : Int), 1⟩ cfg.eliteRatio).floorNat).map
              (fun e => e.chromosome)).length = 0 := by
            rw [h1]
            rfl
          omega

/-- C8 (corrected): on every valid pair whose device has at least two
qubits (hence at least one hardware edge), geneticMap returns a well-formed
MappingResult for every configuration - including generations = 0 (which
the || default turns into 50) and populationSize = 1 - and every
randomness stream. -/
theorem C8_genetic_safety :
    ∀ (circuit : QuantumCircuit) (hw : HardwareTopology) (config : GeneticConfig)
      (rng0 : Rng), ValidPair circuit hw → 2 ≤ circuit.nQubits →
      ∃ res, geneticMap circuit hw config rng0 = .ok res ∧ resultShapeOk res = true ∧
        res.finalLayout.Perm (List.range circuit.nQubits) := by
  intro circuit hw config rng0 h h2
  have hgl : hw.graph.length = circuit.nQubits := h.2.2.2
  have hre : ∀ a b, a < circuit.nQubits → b < circuit.nQubits → Reaches hw.graph a b := by
    intro a b ha hb
    rw [h.2.2.1]
    refine buildGraph_reach hw.type hw.params h.2.1 a b ?_ ?_
    · rw [← h.2.2.1, hgl]
      exact ha
    · rw [← h.2.2.1, hgl]
      exact hb
  have hv : getValidSwaps hw.graph ≠ [] :=
    getValidSwaps_ne_nil (validPair_symm h) (validPair_irr h) (validPair_closed h)
      (show (0 : Nat) ≠ 1 by decide) (hre 0 1 (by omega) (by omega))
  have hkey : ∀ ch : Chromosome, allSome ch → ∃ s, chromosomeKey ch = .ok s :=
    fun ch h3 => chromosomeKey_ok h3
  have hfit : ∀ ch : Chromosome, allSome ch →
      ∃ v, evaluateFitness circuit hw.graph ch = .ok (some v) :=
    fun ch h3 => evaluateFitness_some hgl hre h.1.2 h3
  have hsize : 1 ≤ (resolveConfig config).populationSize := by
    show 1 ≤ jsOr config.populationSize 30
    have := jsOr_pos config.populationSize 30 (by omega)
    omega
  have hgens : 1 ≤ (resolveConfig config).generations := by
    show 1 ≤ jsOr config.generations 50
    have := jsOr_pos config.generations 50 (by omega)
    omega
  have hlenpop : (initializePopulation hw.graph (resolveConfig config) rng0).1.length =
      (resolveConfig config).populationSize :=
    initPopAux_length _ _ _ _
  obtain ⟨s2, hgen, ch, hch, hchs⟩ := genLoop_ok hv hsize hkey hfit
    (resolveConfig config).generations
    ⟨(initializePopulation hw.graph (resolveConfig config) rng0).1, none, none, 0,
      (initializePopulation hw.graph (resolveConfig config) rng0).2⟩
    (initPopAux_allSome hv _ _ _)
    (by
      intro hc
      have hc2 : (initializePopulation hw.graph (resolveConfig config) rng0).1 = [] := hc
      rw [hc2] at hlenpop
      simp only [List.length_nil] at hlenpop
      omega)
    (Or.inr ⟨hgens, rfl⟩)
  obtain ⟨res, hres⟩ := @applyChromosome_total hw.graph ch hchs circuit
  have hmap : geneticMap circuit hw config rng0 = applyChromosome circuit hw.graph ch := by
    show (match genLoop circuit hw.graph (resolveConfig config)
        (resolveConfig config).generations
        ⟨(initializePopulation hw.graph (resolveConfig config) rng0).1, none, none, 0,
          (initializePopulation hw.graph (resolveConfig config) rng0).2⟩ with
      | .error e => .error e
      | .ok s => applyChromosomeOpt circuit hw.graph s.bestEver) =
      applyChromosome circuit hw.graph ch
    rw [hgen]
    show applyChromosomeOpt circuit hw.graph s2.bestEver = applyChromosome circuit hw.graph ch
    rw [hch]
    rfl
  obtain ⟨st, hfin, hok⟩ := applyChromosome_stOk hgl hres
  have hfacts := stOk_result hok
  refine ⟨res, by rw [hmap]; exact hres, ?_, ?_⟩
  · rw [hfin]
    exact hfacts.2.2
  · rw [hfin]
    exact hfacts.1

theorem C8_genetic_safety_witness :
    ValidPair sampleCircuit sampleTopo ∧ 2 ≤ sampleCircuit.nQubits ∧
    ((geneticMap sampleCircuit sampleTopo { populationSize := some 1 }
      ⟨fun _ => 0, 0⟩).toOption.map resultShapeOk).getD false = true := by
  obtain ⟨res, hres, hshape, _⟩ := C8_genetic_safety sampleCircuit sampleTopo
    { populationSize := some 1 } ⟨fun _ => 0, 0⟩ (by decide) (by decide)
  refine ⟨by decide, by decide, ?_⟩
  rw [hres]
  show resultShapeOk res = true
  exact hshape

/-- C8 counterexample: on the valid 1-qubit line device there is no
hardware edge, every chromosome entry is undefined, and chromosomeKey's
destructuring throws - with populationSize = 1 and with generations = 0
alike - so geneticMap errors instead of returning a MappingResult. -/
theorem C8_counterexample :
    ValidPair (mkQuantumCircuit 1) (mkHardwareTopology ("lnn") ⟨some 1, none, none⟩) ∧
    geneticMap (mkQuantumCircuit 1) (mkHardwareTopology ("lnn") ⟨some 1, none, none⟩)
      { populationSize := some 1 } ⟨fun _ => 0, 0⟩ = .error .typeError ∧
    geneticMap (mkQuantumCircuit 1) (mkHardwareTopology ("lnn") ⟨some 1, none, none⟩)
      { generations := some 0 } ⟨fun _ => 0, 0⟩ = .error .typeError :=
  ⟨by decide, rfl, rfl⟩
